import Mathlib

/-! A* grid search (`AStar.cpp`, `AStar.h`): shallow embedding and verification.

Modelling conventions:

* `int` coordinates are mathematical integers (`Int`); the 32-bit range is not modelled.
* `float` values are modelled by `Flt = WithTop ℚ`: finite values are rationals, `⊤` is
  `+infinity`.  `NaN` and `-infinity` are not modelled.  The arithmetic is given twice.
  `AStar.relax`, `AStar.FindPath`, `AStar.WorldToTile` and `AStar.TileToWorld` compute
  without rounding, and there the literal `1.41421356f` is the decimal `1.41421356`.
  The definitions with the suffix `F32` (`AStar.relaxF32`, `AStar.FindPathF32`,
  `AStar.WorldToTileF32`, `AStar.TileToWorldF32`) round the result of every `float`
  operation to single precision (`AStar.roundF32`: to nearest, ties to even, 24-bit
  significand, overflow to `+infinity`), and a cast to `int` is defined only within the
  32-bit range (`AStar.castToInt`).  That the four-direction path is cheapest, and the
  round trip between world and tile coordinates, are stated for the `F32` definitions;
  the two searches return the same path whenever every sum fits 24 bits
  (`AStar.findPathF32_eq`).
* `std::vector<std::vector<T>>` is a list of rows.  An unguarded `v[y][x]` whose index is
  outside the vector is undefined behaviour in the source; the model reports it as
  `Outcome.outOfRange`.
* `std::unordered_map<AStarNode, V>` is a function `AStarNode → Option V`
  (`none` = key absent).
* `std::priority_queue<NodeRecord, …, Compare>` is an abstract data type `OpenQueue`
  with the laws `OpenQueue.Lawful`: `top()`/`pop()` remove an entry such that no other entry
  has a strictly smaller `fScore`; which one among ties is left to the implementation.
  `listQueue` is one executable implementation.
* The two `while` loops are iterated with explicit fuel; `AStar.FindPath` runs them with
  `AStar.fuelBound`, which is shown to be more than they ever need.
* World coordinates and tile sizes are finite `float` values, modelled by `ℚ`;
  `static_cast<int>` discards the fractional part (`AStar.truncToInt`).
* A member function that can throw returns `Except`: `AStar.ResizeGrid` with a negative
  size throws `std::length_error` from the vector it constructs, after `m_width` and
  `m_height` were assigned.  Exhaustion of memory is not modelled.
-/

set_option autoImplicit false

/-- The model of `float`: exact rationals extended by `+infinity`. -/
abbrev Flt : Type := WithTop ℚ

/-- The literal `1.41421356f`. -/
def sqrt2f : Flt := ((141421356 / 100000000 : ℚ) : Flt)

/-- `struct AStarNode { int x; int y; }` with its `operator==`. -/
structure AStarNode where
  x : Int
  y : Int
deriving DecidableEq, Repr

/-- `struct NodeRecord { AStarNode node; float fScore; }`. -/
structure NodeRecord where
  node : AStarNode
  fScore : Flt

/-- The data members of `class AStar`. -/
structure AStar where
  m_grid : List (List Int)
  m_costGrid : List (List Flt)
  m_width : Int
  m_height : Int
  m_tileWidth : ℚ
  m_tileHeight : ℚ
  m_allowDiagonal : Bool

/-- What a call of `FindPath` does: it returns a vector, or indexes `closed` outside its
dimensions, or (in the model only) exhausts the fuel given to its loops. -/
inductive Outcome where
  | returned (path : List AStarNode)
  | outOfRange
  | outOfFuel
deriving DecidableEq, Repr

/-- Read `t[y][x]` of a vector of vectors; `none` when an index is out of range
(a negative `int` index converts to a huge `size_t`). -/
def cellAt {α : Type} (t : List (List α)) (x y : Int) : Option α :=
  if 0 ≤ x ∧ 0 ≤ y then
    match t[y.toNat]? with
    | none => none
    | some row => row[x.toNat]?
  else none

/-- Write `t[y][x] = v` for an index in range. -/
def setCell {α : Type} (t : List (List α)) (x y : Int) (v : α) : List (List α) :=
  match t[y.toNat]? with
  | none => t
  | some row => t.set y.toNat (row.set x.toNat v)

/-- Number of `false` entries of a table of flags. -/
def unclosedCount (t : List (List Bool)) : Nat :=
  (t.map (fun row => row.count false)).sum

/-- The interface of `std::priority_queue<NodeRecord, std::vector<NodeRecord>, Compare>`
as `FindPath` uses it: a default-constructed queue, `push`, and `top` followed by `pop`
(`none` when `empty()`).  `contents` is the abstraction function used by the laws. -/
structure OpenQueue where
  Q : Type
  empty : Q
  push : Q → NodeRecord → Q
  pop : Q → Option (NodeRecord × Q)
  contents : Q → List NodeRecord

/-- The laws of the priority queue.  `Compare` is `a.fScore > b.fScore`, so `top()` is an
entry `r` for which no entry `x` satisfies `r.fScore > x.fScore`. -/
structure OpenQueue.Lawful (P : OpenQueue) : Prop where
  contents_empty : P.contents P.empty = []
  contents_push : ∀ q r, (P.contents (P.push q r)).Perm (r :: P.contents q)
  pop_none : ∀ q, P.pop q = none ↔ P.contents q = []
  pop_some : ∀ q r q', P.pop q = some (r, q') →
    (P.contents q).Perm (r :: P.contents q') ∧ ∀ x ∈ P.contents q, ¬ x.fScore < r.fScore

/-- Remove the first entry of least `fScore` from a list. -/
def popMin : List NodeRecord → Option (NodeRecord × List NodeRecord)
  | [] => none
  | r :: rest =>
    match popMin rest with
    | none => some (r, [])
    | some (m, rest') => if m.fScore < r.fScore then some (m, r :: rest') else some (r, rest)

/-- An executable priority queue: an unsorted list, popped at its first least entry. -/
def listQueue : OpenQueue where
  Q := List NodeRecord
  empty := []
  push := fun q r => r :: q
  pop := popMin
  contents := fun q => q

namespace AStar

/-- `dirs4` of `GetNeighbors`. -/
def dirs4 : List (Int × Int) := [(1, 0), (-1, 0), (0, 1), (0, -1)]

/-- `dirs8` of `GetNeighbors`. -/
def dirs8 : List (Int × Int) :=
  [(1, 0), (-1, 0), (0, 1), (0, -1), (1, 1), (-1, -1), (1, -1), (-1, 1)]

/-- `bool AStar::InBounds(int x, int y) const`. -/
def InBounds (a : AStar) (x y : Int) : Bool :=
  decide (x ≥ 0) && decide (y ≥ 0) && decide (x < a.m_width) && decide (y < a.m_height)

/-- `bool AStar::IsWalkableCell(int x, int y) const`: `InBounds(x, y) && m_grid[y][x] == 0`.
The read is guarded by `InBounds`. -/
def IsWalkableCell (a : AStar) (x y : Int) : Bool :=
  a.InBounds x y && (cellAt a.m_grid x y == some 0)

/-- `float AStar::GetTileCost(int x, int y) const`:
`InBounds(x, y) ? m_costGrid[y][x] : infinity`.  The read is guarded by `InBounds`. -/
def GetTileCost (a : AStar) (x y : Int) : Flt :=
  if a.InBounds x y then (cellAt a.m_costGrid x y).getD ⊤ else ⊤

/-- `float AStar::Heuristic(a, b)`: `std::abs(a.x - b.x) + std::abs(a.y - b.y)`, computed
on `int` and converted to `float`. -/
def Heuristic (_a : AStar) (p q : AStarNode) : Flt :=
  (((Int.natAbs (p.x - q.x) + Int.natAbs (p.y - q.y) : Nat) : ℚ) : Flt)

/-- `std::vector<AStarNode> AStar::GetNeighbors(const AStarNode& n) const`. -/
def GetNeighbors (a : AStar) (n : AStarNode) : List AStarNode :=
  ((if a.m_allowDiagonal then dirs8 else dirs4).map
      (fun d => (⟨n.x + d.1, n.y + d.2⟩ : AStarNode))).filter
    (fun m => a.IsWalkableCell m.x m.y)

/-- The `while (cameFrom.count(current))` loop of `ReconstructPath`: the tiles pushed
after the first one, in push order; `none` when the fuel runs out. -/
def walkBack (cameFrom : AStarNode → Option AStarNode) :
    Nat → AStarNode → Option (List AStarNode)
  | 0, _ => none
  | fuel + 1, current =>
    match cameFrom current with
    | none => some []
    | some p =>
      match walkBack cameFrom fuel p with
      | none => none
      | some rest => some (p :: rest)

/-- `std::vector<AStarNode> AStar::ReconstructPath(cameFrom, current)`: push `current`,
follow `cameFrom`, reverse. -/
def ReconstructPath (fuel : Nat) (cameFrom : AStarNode → Option AStarNode)
    (current : AStarNode) : Option (List AStarNode) :=
  match walkBack cameFrom fuel current with
  | none => none
  | some rest => some (current :: rest).reverse

/-- The local variables of `FindPath`. -/
structure SearchState (P : OpenQueue) where
  openQ : P.Q
  gScore : AStarNode → Option Flt
  cameFrom : AStarNode → Option AStarNode
  closed : List (List Bool)

/-- The body of the `for (neighbor : GetNeighbors(current))` loop of `FindPath`;
`none` when `closed[neighbor.y][neighbor.x]` is out of range.  `gScore[current]` reads
the entry of `current` (`0.0f` when absent; a tile taken from the queue always has an
entry, see `Inv.open_g`, so `operator[]` never inserts one here). -/
def relax (a : AStar) (P : OpenQueue) (goal current : AStarNode) (s : SearchState P)
    (neighbor : AStarNode) : Option (SearchState P) :=
  match cellAt s.closed neighbor.x neighbor.y with
  | none => none
  | some true => some s
  | some false =>
    let moveCost := a.GetTileCost neighbor.x neighbor.y
    let diagonalPenalty : Flt :=
      if neighbor.x ≠ current.x ∧ neighbor.y ≠ current.y then sqrt2f else 1
    let tentativeG := (s.gScore current).getD 0 + moveCost * diagonalPenalty
    if (s.gScore neighbor).isNone ∨ tentativeG < (s.gScore neighbor).getD 0 then
      some
        { openQ := P.push s.openQ ⟨neighbor, tentativeG + a.Heuristic neighbor goal⟩
          gScore := fun k => if k = neighbor then some tentativeG else s.gScore k
          cameFrom := fun k => if k = neighbor then some current else s.cameFrom k
          closed := s.closed }
    else some s

/-- The value `tentativeG` computed by `relax`. -/
def tentativeG (a : AStar) {P : OpenQueue} (current : AStarNode) (s : SearchState P)
    (neighbor : AStarNode) : Flt :=
  (s.gScore current).getD 0 +
    a.GetTileCost neighbor.x neighbor.y *
      (if neighbor.x ≠ current.x ∧ neighbor.y ≠ current.y then sqrt2f else 1)

/-- The state after the three assignments and the `push` in the `if` of `relax`. -/
def relaxUpdate (a : AStar) (P : OpenQueue) (goal current : AStarNode) (s : SearchState P)
    (neighbor : AStarNode) : SearchState P where
  openQ := P.push s.openQ
    ⟨neighbor, tentativeG a current s neighbor + a.Heuristic neighbor goal⟩
  gScore := fun k => if k = neighbor then some (tentativeG a current s neighbor) else s.gScore k
  cameFrom := fun k => if k = neighbor then some current else s.cameFrom k
  closed := s.closed

/-- The whole `for` loop over the neighbours of `current`. -/
def relaxAll (a : AStar) (P : OpenQueue) (goal current : AStarNode) :
    List AStarNode → SearchState P → Option (SearchState P)
  | [], s => some s
  | nb :: rest, s =>
    match relax a P goal current s nb with
    | none => none
    | some s' => relaxAll a P goal current rest s'

/-- What one iteration of the `while` loop of `FindPath` does: it leaves the function
(`done`) or falls through to the next test of `open.empty()` (`next`). -/
inductive LoopStep (P : OpenQueue) where
  | done (o : Outcome)
  | next (s : SearchState P)

/-- One iteration of `while (!open.empty())` in `FindPath`, the loop test included;
`rfuel` is the fuel handed to `ReconstructPath`. -/
def loopBody (a : AStar) (P : OpenQueue) (goal : AStarNode) (rfuel : Nat)
    (s : SearchState P) : LoopStep P :=
  match P.pop s.openQ with
  | none => LoopStep.done (Outcome.returned [])
  | some (top, q') =>
    let current := top.node
    match cellAt s.closed current.x current.y with
    | none => LoopStep.done Outcome.outOfRange
    | some true => LoopStep.next { s with openQ := q' }
    | some false =>
      if current = goal then
        match ReconstructPath rfuel s.cameFrom current with
        | none => LoopStep.done Outcome.outOfFuel
        | some path => LoopStep.done (Outcome.returned path)
      else
        match relaxAll a P goal current (a.GetNeighbors current)
            { s with openQ := q', closed := setCell s.closed current.x current.y true } with
        | none => LoopStep.done Outcome.outOfRange
        | some s' => LoopStep.next s'

/-- The `while (!open.empty())` loop of `FindPath`, at most `fuel` iterations. -/
def searchLoop (a : AStar) (P : OpenQueue) (goal : AStarNode) (rfuel : Nat) :
    Nat → SearchState P → Outcome
  | 0, _ => Outcome.outOfFuel
  | fuel + 1, s =>
    match loopBody a P goal rfuel s with
    | LoopStep.done o => o
    | LoopStep.next s' => searchLoop a P goal rfuel fuel s'

/-- The state of `FindPath` on entry to its `while` loop. -/
def initState (a : AStar) (P : OpenQueue) (start goal : AStarNode) : SearchState P where
  openQ := P.push P.empty ⟨start, a.Heuristic start goal⟩
  gScore := fun k => if k = start then some 0 else none
  cameFrom := fun _ => none
  closed := List.replicate a.m_height.toNat (List.replicate a.m_width.toNat false)

/-- `FindPath` with `fuel` iterations allowed to each of its two loops. -/
def FindPathFuel (a : AStar) (P : OpenQueue) (fuel : Nat) (start goal : AStarNode) : Outcome :=
  searchLoop a P goal fuel fuel (initState a P start goal)

/-- Iterations granted to the loops of `FindPath`: eight pushes per cell, the initial
push, and the final test of `open.empty()`. -/
def fuelBound (a : AStar) : Nat := 8 * (a.m_height.toNat * a.m_width.toNat) + 2

/-- `std::vector<AStarNode> AStar::FindPath(AStarNode start, AStarNode goal)`. -/
def FindPath (a : AStar) (P : OpenQueue) (start goal : AStarNode) : Outcome :=
  FindPathFuel a P (fuelBound a) start goal

/-! ## Vocabulary of the specification -/

/-- The grid is rectangular: non-negative dimensions, and both matrices have `m_height`
rows of `m_width` entries. -/
def Rect (a : AStar) : Prop :=
  0 ≤ a.m_width ∧ 0 ≤ a.m_height ∧
  a.m_grid.length = a.m_height.toNat ∧ (∀ row ∈ a.m_grid, row.length = a.m_width.toNat) ∧
  a.m_costGrid.length = a.m_height.toNat ∧
  (∀ row ∈ a.m_costGrid, row.length = a.m_width.toNat)

/-- Every stored cost is at least `1.0`. -/
def CostsAtLeastOne (a : AStar) : Prop :=
  ∀ row ∈ a.m_costGrid, ∀ c ∈ row, (1 : Flt) ≤ c

/-- Tile `v` differs from tile `u` by one of the active movement directions. -/
def Adjacent (a : AStar) (u v : AStarNode) : Prop :=
  (v.x - u.x, v.y - u.y) ∈ (if a.m_allowDiagonal then dirs8 else dirs4)

/-- A legal move: to an adjacent tile that is walkable. -/
def Step (a : AStar) (u v : AStarNode) : Prop :=
  Adjacent a u v ∧ a.IsWalkableCell v.x v.y = true

/-- A tile sequence from `start` to `goal` whose consecutive tiles are adjacent under the
active directions and whose tiles after the first are walkable. -/
def IsRoute (a : AStar) (start goal : AStarNode) (p : List AStarNode) : Prop :=
  p.head? = some start ∧ p.getLast? = some goal ∧ List.Chain' (Step a) p

/-- Cost of the step from `u` to `v` as `FindPath` charges it: the stored cost of `v`,
times `1.41421356` when both coordinates change. -/
def stepCost (a : AStar) (u v : AStarNode) : Flt :=
  a.GetTileCost v.x v.y * (if v.x ≠ u.x ∧ v.y ≠ u.y then sqrt2f else 1)

/-- Summed step cost of a tile sequence. -/
def routeCost (a : AStar) : List AStarNode → Flt
  | [] => 0
  | [_] => 0
  | u :: v :: rest => stepCost a u v + routeCost a (v :: rest)

/-- Sum, over each tile after the first, of that tile's stored cost. -/
def tileCostSum (a : AStar) (p : List AStarNode) : Flt :=
  (p.tail.map (fun v => a.GetTileCost v.x v.y)).sum

/-! ## Invariants of the search loop -/

/-- The list `rest` is what `ReconstructPath` pushes after `n`: the predecessors of `n`
back to `start`, which has none. -/
def BackChain (cf : AStarNode → Option AStarNode) (start : AStarNode) :
    AStarNode → List AStarNode → Prop
  | n, [] => n = start ∧ cf n = none
  | n, p :: rest => cf n = some p ∧ BackChain cf start p rest

/-- Termination measure of the `while` loop: queue entries plus eight per open cell. -/
def loopMeasure {P : OpenQueue} (s : SearchState P) : Nat :=
  (P.contents s.openQ).length + 8 * unclosedCount s.closed

/-- Invariant of `FindPath`.  With `pending = []` it holds at each test of `open.empty()`;
inside the `for` loop over the neighbours of `cur`, `pending` are the neighbours not yet
handled. -/
structure Inv (a : AStar) (P : OpenQueue) (start goal cur : AStarNode)
    (pending : List AStarNode) (s : SearchState P) : Prop where
  dims_len : s.closed.length = a.m_height.toNat
  dims_row : ∀ row ∈ s.closed, row.length = a.m_width.toNat
  g_inb : ∀ n, s.gScore n ≠ none → a.InBounds n.x n.y = true
  open_g : ∀ r ∈ P.contents s.openQ, s.gScore r.node ≠ none
  start_g : s.gScore start = some 0
  start_cf : s.cameFrom start = none
  start_or : cellAt s.closed start.x start.y = some true ∨
    (pending = [] ∧ ∀ r ∈ P.contents s.openQ, r.node = start)
  goal_open : cellAt s.closed goal.x goal.y ≠ some true
  closed_g : ∀ n, cellAt s.closed n.x n.y = some true → s.gScore n ≠ none
  frontier : ∀ n, s.gScore n ≠ none → cellAt s.closed n.x n.y ≠ some true →
    ∃ r ∈ P.contents s.openQ, r.node = n
  edge : ∀ n p, s.cameFrom n = some p →
    cellAt s.closed p.x p.y = some true ∧ n ∈ a.GetNeighbors p
  edge_g : ∀ n p, s.cameFrom n = some p →
    ∃ gp, s.gScore p = some gp ∧ s.gScore n = some (gp + stepCost a p n)
  chain : ∀ n, s.gScore n ≠ none → ∃ rest, BackChain s.cameFrom start n rest ∧
    (∀ m ∈ rest, cellAt s.closed m.x m.y = some true) ∧ (n :: rest).Nodup ∧
    rest.length + unclosedCount s.closed +
        (if cellAt s.closed n.x n.y = some true then 1 else 0)
      ≤ a.m_height.toNat * a.m_width.toNat
  expanded : ∀ u, cellAt s.closed u.x u.y = some true → ∀ v ∈ a.GetNeighbors u,
    (u = cur ∧ v ∈ pending) ∨ s.gScore v ≠ none

/-- The heuristic is consistent towards `goal`: it drops by at most the step cost along
every legal move. -/
def Consistent (a : AStar) (goal : AStarNode) : Prop :=
  ∀ u v, Step a u v → a.Heuristic u goal ≤ stepCost a u v + a.Heuristic v goal

/-- Cost invariant of `FindPath`, maintained when the heuristic is consistent. -/
structure CostInv (a : AStar) (P : OpenQueue) (start goal cur : AStarNode)
    (pending : List AStarNode) (s : SearchState P) : Prop where
  open_ge : ∀ r ∈ P.contents s.openQ, ∃ g, s.gScore r.node = some g ∧
    g + a.Heuristic r.node goal ≤ r.fScore
  frontier_f : ∀ n g, s.gScore n = some g → cellAt s.closed n.x n.y ≠ some true →
    ∃ r ∈ P.contents s.openQ, r.node = n ∧ r.fScore = g + a.Heuristic n goal
  closed_opt : ∀ u g, cellAt s.closed u.x u.y = some true → s.gScore u = some g →
    ∀ q, IsRoute a start u q → g ≤ routeCost a q
  relaxed : ∀ u, cellAt s.closed u.x u.y = some true → ∀ v ∈ a.GetNeighbors u,
    (u = cur ∧ v ∈ pending) ∨ cellAt s.closed v.x v.y = some true ∨
    ∃ gu gv, s.gScore u = some gu ∧ s.gScore v = some gv ∧ gv ≤ gu + stepCost a u v

instance (a : AStar) : Decidable (Rect a) :=
  inferInstanceAs (Decidable (_ ∧ _ ∧ _ ∧ _ ∧ _ ∧ _))

instance (a : AStar) : Decidable (CostsAtLeastOne a) :=
  inferInstanceAs (Decidable (∀ row ∈ a.m_costGrid, ∀ c ∈ row, (1 : Flt) ≤ c))

instance (a : AStar) (u v : AStarNode) : Decidable (Adjacent a u v) :=
  inferInstanceAs (Decidable (_ ∈ _))

instance (a : AStar) (u v : AStarNode) : Decidable (Step a u v) :=
  inferInstanceAs (Decidable (_ ∧ _))

/-- Deciding a chain of legal moves by walking along the list. -/
instance decidableSteps (a : AStar) : (l : List AStarNode) → Decidable (List.Chain' (Step a) l)
  | [] => isTrue List.chain'_nil
  | [x] => isTrue (List.chain'_singleton x)
  | x :: y :: l =>
    haveI := decidableSteps a (y :: l)
    decidable_of_iff (Step a x y ∧ List.Chain' (Step a) (y :: l)) List.chain'_cons.symm

instance (a : AStar) (s t : AStarNode) (p : List AStarNode) : Decidable (IsRoute a s t p) :=
  inferInstanceAs (Decidable (_ ∧ _ ∧ _))

/-! ## Sample grids -/

/-- A 3 x 2 grid, every cell walkable, cost 2 at `(1, 0)` and 1 elsewhere; four
directions. -/
def costlyGrid : AStar where
  m_grid := [[0, 0, 0], [0, 0, 0]]
  m_costGrid := [[1, 2, 1], [1, 1, 1]]
  m_width := 3
  m_height := 2
  m_tileWidth := 1
  m_tileHeight := 1
  m_allowDiagonal := false

/-- The grid `costlyGrid` after `EnableDiagonalMovement(true)`. -/
def costlyGridDiag : AStar := { costlyGrid with m_allowDiagonal := true }

/-- A 2 x 1 grid whose cell `(0, 0)` is blocked and whose cell `(1, 0)` is walkable. -/
def blockedStartGrid : AStar where
  m_grid := [[1, 0]]
  m_costGrid := [[1, 1]]
  m_width := 2
  m_height := 1
  m_tileWidth := 1
  m_tileHeight := 1
  m_allowDiagonal := false

/-- A 3 x 1 grid whose middle cell is blocked. -/
def wallGrid : AStar where
  m_grid := [[0, 1, 0]]
  m_costGrid := [[1, 1, 1]]
  m_width := 3
  m_height := 1
  m_tileWidth := 1
  m_tileHeight := 1
  m_allowDiagonal := true

/-- The grid made by `ResizeGrid(1, 1)`. -/
def unitGrid : AStar where
  m_grid := [[0]]
  m_costGrid := [[1]]
  m_width := 1
  m_height := 1
  m_tileWidth := 1
  m_tileHeight := 1
  m_allowDiagonal := false

/-! ## Grid management and coordinate mapping -/

/-- `static_cast<int>` applied to a finite `float`: the fractional part is discarded, that
is, the value is rounded toward zero. -/
def truncToInt (q : ℚ) : Int := Int.tdiv q.num q.den

/-- `AStar::AStar() = default`: the object made by the default member initialisers. -/
def ctor : AStar where
  m_grid := []
  m_costGrid := []
  m_width := 0
  m_height := 0
  m_tileWidth := 1
  m_tileHeight := 1
  m_allowDiagonal := false

/-- `void AStar::SetTileSize(float tileWidth, float tileHeight)`. -/
def SetTileSize (a : AStar) (tileWidth tileHeight : ℚ) : AStar :=
  { a with m_tileWidth := tileWidth, m_tileHeight := tileHeight }

/-- `AStarNode AStar::WorldToTile(float worldX, float worldY) const`:
`{ static_cast<int>(worldX / m_tileWidth), static_cast<int>(worldY / m_tileHeight) }`. -/
def WorldToTile (a : AStar) (worldX worldY : ℚ) : AStarNode :=
  ⟨truncToInt (worldX / a.m_tileWidth), truncToInt (worldY / a.m_tileHeight)⟩

/-- `void AStar::TileToWorld(tile, outWorldX, outWorldY) const`; the pair is
`(outWorldX, outWorldY)`, and `0.5f` is the rational `1/2`. -/
def TileToWorld (a : AStar) (tile : AStarNode) : ℚ × ℚ :=
  ((tile.x : ℚ) * a.m_tileWidth + a.m_tileWidth * (1 / 2),
   (tile.y : ℚ) * a.m_tileHeight + a.m_tileHeight * (1 / 2))

/-- `void AStar::ResizeGrid(int width, int height)`.  `m_width` and `m_height` are assigned
first.  With a negative size the construction of the vectors throws `std::length_error`
(the size converts to a `size_t` above `max_size()`) before either matrix is touched:
`Except.error` carries the object as the exception leaves it.  Otherwise `Except.ok`
carries the object after both `assign` calls. -/
def ResizeGrid (a : AStar) (width height : Int) : Except AStar AStar :=
  if width < 0 ∨ height < 0 then
    Except.error { a with m_width := width, m_height := height }
  else
    Except.ok
      { a with
        m_width := width
        m_height := height
        m_grid := List.replicate height.toNat (List.replicate width.toNat 0)
        m_costGrid := List.replicate height.toNat (List.replicate width.toNat 1) }

/-- `void AStar::SetGrid(const Grid& grid)`: `m_height` is `grid.size()`, `m_width` is
`grid[0].size()` when there is a row and `0` otherwise. -/
def SetGrid (a : AStar) (grid : List (List Int)) : AStar :=
  let height : Nat := grid.length
  let width : Nat :=
    match grid with
    | [] => 0
    | row :: _ => row.length
  { a with
    m_grid := grid
    m_height := (height : Int)
    m_width := (width : Int)
    m_costGrid := List.replicate height (List.replicate width 1) }

/-- `void AStar::SetWalkable(int x, int y, bool walkable)`:
`if (InBounds(x, y)) m_grid[y][x] = walkable ? 0 : 1;`. -/
def SetWalkable (a : AStar) (x y : Int) (walkable : Bool) : AStar :=
  if a.InBounds x y then
    { a with m_grid := setCell a.m_grid x y (if walkable then 0 else 1) }
  else a

/-- `void AStar::SetTileCost(int x, int y, float cost)`:
`if (InBounds(x, y) && cost >= 1.0f) m_costGrid[y][x] = cost;`. -/
def SetTileCost (a : AStar) (x y : Int) (cost : Flt) : AStar :=
  if a.InBounds x y = true ∧ (1 : Flt) ≤ cost then
    { a with m_costGrid := setCell a.m_costGrid x y cost }
  else a

/-- `void AStar::EnableDiagonalMovement(bool enable)`. -/
def EnableDiagonalMovement (a : AStar) (enable : Bool) : AStar :=
  { a with m_allowDiagonal := enable }

/-- `bool AStar::isDiagonalMovementEnabled()`. -/
def isDiagonalMovementEnabled (a : AStar) : Bool := a.m_allowDiagonal

/-- A call of one of the mutating member functions, with its arguments. -/
inductive Call where
  | resizeGrid (width height : Int)
  | setGrid (grid : List (List Int))
  | setWalkable (x y : Int) (walkable : Bool)
  | setTileCost (x y : Int) (cost : Flt)
  | enableDiagonalMovement (enable : Bool)
  | setTileSize (tileWidth tileHeight : ℚ)

/-- The object after a call, whether the call returned or left by an exception. -/
def afterCall (a : AStar) : Call → AStar
  | Call.resizeGrid width height =>
    match ResizeGrid a width height with
    | Except.ok a' => a'
    | Except.error a' => a'
  | Call.setGrid grid => SetGrid a grid
  | Call.setWalkable x y walkable => SetWalkable a x y walkable
  | Call.setTileCost x y cost => SetTileCost a x y cost
  | Call.enableDiagonalMovement enable => EnableDiagonalMovement a enable
  | Call.setTileSize tileWidth tileHeight => SetTileSize a tileWidth tileHeight

/-- Cost invariant of the grid: the cost of every in-bounds cell can be read and is at
least `1.0`. -/
def CostOK (a : AStar) : Prop :=
  ∀ x y, a.InBounds x y = true → ∃ c, cellAt a.m_costGrid x y = some c ∧ (1 : Flt) ≤ c

/-- A matrix with `h` rows of `w` columns. -/
def IsMatrix (m : List (List Int)) (w h : Nat) : Prop :=
  m.length = h ∧ ∀ row ∈ m, row.length = w

instance (m : List (List Int)) (w h : Nat) : Decidable (IsMatrix m w h) :=
  inferInstanceAs (Decidable (_ ∧ _))

/-! ## Replaying a search that meets no ties -/

/-- No tie at the head of the queue: the entry that `popMin` takes has an `fScore`
strictly below every other entry. -/
def tieFree (l : List NodeRecord) : Bool :=
  match popMin l with
  | none => true
  | some (m, rest) => rest.all (fun x => decide (m.fScore < x.fScore))

/-- The search loop on `listQueue`, stopping with `none` when a pop meets a tie or the
fuel runs out. -/
def replayLoop (a : AStar) (goal : AStarNode) (rfuel : Nat) :
    Nat → SearchState listQueue → Option Outcome
  | 0, _ => none
  | fuel + 1, s =>
    if tieFree s.openQ then
      match loopBody a listQueue goal rfuel s with
      | LoopStep.done o => some o
      | LoopStep.next s' => replayLoop a goal rfuel fuel s'
    else none

/-- The run of `FindPath` on `listQueue`, when no pop of that run meets a tie. -/
def FindPathTieFree (a : AStar) (start goal : AStarNode) : Option Outcome :=
  replayLoop a goal (fuelBound a) (fuelBound a) (initState a listQueue start goal)

/-- The states of two queue implementations agree: same entries in the queues, same maps,
same closed table. -/
structure Sim {P : OpenQueue} (s : SearchState P) (sl : SearchState listQueue) : Prop where
  perm : (P.contents s.openQ).Perm (listQueue.contents sl.openQ)
  g : s.gScore = sl.gScore
  cf : s.cameFrom = sl.cameFrom
  closed : s.closed = sl.closed

/-- Two iterations, one on each queue implementation, end alike: with the same outcome, or
in states that agree. -/
def SimStep {P : OpenQueue} : LoopStep P → LoopStep listQueue → Prop
  | LoopStep.done o, LoopStep.done o' => o = o'
  | LoopStep.next s, LoopStep.next sl => Sim s sl
  | _, _ => False

/-! ## More sample grids -/

/-- Scenario B of the specification: `ResizeGrid(5, 5)` on a fresh object, then
`EnableDiagonalMovement(true)`. -/
def scenarioGrid : AStar :=
  EnableDiagonalMovement (afterCall ctor (Call.resizeGrid 5 5)) true

/-- A 2 x 2 matrix with a blocked entry other than `1`. -/
def sampleMatrix : List (List Int) := [[0, 7], [1, 0]]

/-- A 2 x 2 grid with `(1, 0)` and `(0, 1)` blocked, diagonal movement enabled. -/
def cornerGrid : AStar :=
  EnableDiagonalMovement (SetGrid ctor [[0, 1], [1, 0]]) true

/-! ## Single-precision arithmetic

The definitions above compute with exact rationals.  The definitions below round every
`float` operation to the nearest single-precision value, ties to even, as the source does
when each operation is evaluated in `float`. -/

/-- The number of low bits that rounding discards from the natural number `n`: the largest
`s` below 256 with `2 ^ 23 ≤ n / 2 ^ s`, and `0` when there is none (`n < 2 ^ 24`), found
by bisection. -/
def binadeShift (n : Nat) : Nat :=
  [128, 64, 32, 16, 8, 4, 2, 1].foldl
    (fun s b => if 2 ^ 23 ≤ n / 2 ^ (s + b) then s + b else s) 0

/-- Round a non-negative rational to the nearest natural number, ties to the even one. -/
def roundHalfEven (z : ℚ) : Nat :=
  let n := (Rat.floor z).toNat
  let r := z - (n : ℚ)
  if r < 1 / 2 then n
  else if 1 / 2 < r then n + 1
  else if n % 2 = 0 then n else n + 1

/-- Round a non-negative rational to `float`.  From `2^128 - 2^103` on, half an ulp above
the largest finite value, the result is `+infinity`.  Otherwise the value is counted in
units of `2^-149`, the spacing of the subnormal numbers, and rounded to 24 significant
bits. -/
def roundF32Pos (x : ℚ) : Flt :=
  if ((2 ^ 128 - 2 ^ 103 : Nat) : ℚ) ≤ x then ⊤
  else
    let y := x * ((2 ^ 149 : Nat) : ℚ)
    let s := binadeShift (Rat.floor y).toNat
    let n := roundHalfEven (y / ((2 ^ s : Nat) : ℚ))
    ((((n * 2 ^ s : Nat) : ℚ) / ((2 ^ 149 : Nat) : ℚ) : ℚ) : Flt)

/-- Round a rational to `float`, to nearest, ties to even.  Values below zero are rounded
by symmetry; `-infinity` is outside `Flt`, and `-2^128` stands in for it. -/
def roundF32 (x : ℚ) : Flt :=
  if x < 0 then
    match roundF32Pos (-x) with
    | some v => ((-v : ℚ) : Flt)
    | none => ((-((2 ^ 128 : Nat) : ℚ) : ℚ) : Flt)
  else roundF32Pos x

/-- The `float` result of an operation whose exact result is `v`. -/
def toF32 (v : Flt) : Flt :=
  match v with
  | none => ⊤
  | some q => roundF32 q

/-- `x + y` on `float`. -/
def addF32 (x y : Flt) : Flt := toF32 (x + y)

/-- `x * y` on `float`. -/
def mulF32 (x y : Flt) : Flt := toF32 (x * y)

/-- The literal `1.41421356f`: the `float` nearest to the decimal. -/
def sqrt2F32 : Flt := roundF32 (141421356 / 100000000)

/-- `AStar::Heuristic` with its conversion of the `int` sum to `float`. -/
def HeuristicF32 (a : AStar) (p q : AStarNode) : Flt := toF32 (a.Heuristic p q)

/-- The value `tentativeG` of `FindPath`, each operation rounded to `float`. -/
def tentativeGF32 (a : AStar) {P : OpenQueue} (current : AStarNode) (s : SearchState P)
    (neighbor : AStarNode) : Flt :=
  addF32 ((s.gScore current).getD 0)
    (mulF32 (a.GetTileCost neighbor.x neighbor.y)
      (if neighbor.x ≠ current.x ∧ neighbor.y ≠ current.y then sqrt2F32 else 1))

/-- The body of the `for` loop of `FindPath` in single precision: as `relax`, with the
product, both sums and the heuristic rounded to `float`. -/
def relaxF32 (a : AStar) (P : OpenQueue) (goal current : AStarNode) (s : SearchState P)
    (neighbor : AStarNode) : Option (SearchState P) :=
  match cellAt s.closed neighbor.x neighbor.y with
  | none => none
  | some true => some s
  | some false =>
    let moveCost := a.GetTileCost neighbor.x neighbor.y
    let diagonalPenalty : Flt :=
      if neighbor.x ≠ current.x ∧ neighbor.y ≠ current.y then sqrt2F32 else 1
    let tentativeG := addF32 ((s.gScore current).getD 0) (mulF32 moveCost diagonalPenalty)
    if (s.gScore neighbor).isNone ∨ tentativeG < (s.gScore neighbor).getD 0 then
      some
        { openQ := P.push s.openQ ⟨neighbor, addF32 tentativeG (HeuristicF32 a neighbor goal)⟩
          gScore := fun k => if k = neighbor then some tentativeG else s.gScore k
          cameFrom := fun k => if k = neighbor then some current else s.cameFrom k
          closed := s.closed }
    else some s

/-- The `for` loop of `FindPath` in single precision. -/
def relaxAllF32 (a : AStar) (P : OpenQueue) (goal current : AStarNode) :
    List AStarNode → SearchState P → Option (SearchState P)
  | [], s => some s
  | nb :: rest, s =>
    match relaxF32 a P goal current s nb with
    | none => none
    | some s' => relaxAllF32 a P goal current rest s'

/-- One iteration of the `while` loop of `FindPath` in single precision. -/
def loopBodyF32 (a : AStar) (P : OpenQueue) (goal : AStarNode) (rfuel : Nat)
    (s : SearchState P) : LoopStep P :=
  match P.pop s.openQ with
  | none => LoopStep.done (Outcome.returned [])
  | some (top, q') =>
    let current := top.node
    match cellAt s.closed current.x current.y with
    | none => LoopStep.done Outcome.outOfRange
    | some true => LoopStep.next { s with openQ := q' }
    | some false =>
      if current = goal then
        match ReconstructPath rfuel s.cameFrom current with
        | none => LoopStep.done Outcome.outOfFuel
        | some path => LoopStep.done (Outcome.returned path)
      else
        match relaxAllF32 a P goal current (a.GetNeighbors current)
            { s with openQ := q', closed := setCell s.closed current.x current.y true } with
        | none => LoopStep.done Outcome.outOfRange
        | some s' => LoopStep.next s'

/-- The `while` loop of `FindPath` in single precision, at most `fuel` iterations. -/
def searchLoopF32 (a : AStar) (P : OpenQueue) (goal : AStarNode) (rfuel : Nat) :
    Nat → SearchState P → Outcome
  | 0, _ => Outcome.outOfFuel
  | fuel + 1, s =>
    match loopBodyF32 a P goal rfuel s with
    | LoopStep.done o => o
    | LoopStep.next s' => searchLoopF32 a P goal rfuel fuel s'

/-- The state of `FindPath` on entry to its loop, the heuristic converted to `float`. -/
def initStateF32 (a : AStar) (P : OpenQueue) (start goal : AStarNode) : SearchState P where
  openQ := P.push P.empty ⟨start, HeuristicF32 a start goal⟩
  gScore := fun k => if k = start then some 0 else none
  cameFrom := fun _ => none
  closed := List.replicate a.m_height.toNat (List.replicate a.m_width.toNat false)

/-- `FindPath` in single precision, with `fuel` iterations allowed to each loop. -/
def FindPathFuelF32 (a : AStar) (P : OpenQueue) (fuel : Nat) (start goal : AStarNode) :
    Outcome :=
  searchLoopF32 a P goal fuel fuel (initStateF32 a P start goal)

/-- `AStar::FindPath` with every `float` operation rounded to single precision. -/
def FindPathF32 (a : AStar) (P : OpenQueue) (start goal : AStarNode) : Outcome :=
  FindPathFuelF32 a P (fuelBound a) start goal

/-- The common shape of `relax` and `relaxF32`: the loop body for given values of
`tentativeG` and of the `fScore` to push. -/
def relaxCore {P : OpenQueue} (current : AStarNode) (t f : Flt) (s : SearchState P)
    (neighbor : AStarNode) : Option (SearchState P) :=
  match cellAt s.closed neighbor.x neighbor.y with
  | none => none
  | some true => some s
  | some false =>
    if (s.gScore neighbor).isNone ∨ t < (s.gScore neighbor).getD 0 then
      some
        { openQ := P.push s.openQ ⟨neighbor, f⟩
          gScore := fun k => if k = neighbor then some t else s.gScore k
          cameFrom := fun k => if k = neighbor then some current else s.cameFrom k
          closed := s.closed }
    else some s

/-- The rational `m / 2^j` as a `float` value. -/
def dyadic (j m : Nat) : Flt := (((m : ℚ) / ((2 ^ j : Nat) : ℚ) : ℚ) : Flt)

/-- Every sum that `FindPath` forms for `goal` is short enough for `float`: each stored
cost is `k / 2^j` with `2^j ≤ k ≤ C`, every tile of the grid is within Manhattan distance
`H` of `goal`, and `C * (width * height) + H * 2^j` is at most `2^24`. -/
structure ShortSums (a : AStar) (goal : AStarNode) (j C H : Nat) : Prop where
  costs : ∀ row ∈ a.m_costGrid, ∀ c ∈ row, ∃ k : Nat, 2 ^ j ≤ k ∧ k ≤ C ∧ c = dyadic j k
  dist : ∀ x y, a.InBounds x y = true →
    Int.natAbs (x - goal.x) + Int.natAbs (y - goal.y) ≤ H
  fit : C * (a.m_height.toNat * a.m_width.toNat) + H * 2 ^ j ≤ 2 ^ 24

/-- The single-precision search loop on `listQueue`, stopping with `none` when a pop meets
a tie or the fuel runs out. -/
def replayLoopF32 (a : AStar) (goal : AStarNode) (rfuel : Nat) :
    Nat → SearchState listQueue → Option Outcome
  | 0, _ => none
  | fuel + 1, s =>
    if tieFree s.openQ then
      match loopBodyF32 a listQueue goal rfuel s with
      | LoopStep.done o => some o
      | LoopStep.next s' => replayLoopF32 a goal rfuel fuel s'
    else none

/-- The run of `FindPathF32` on `listQueue`, when no pop of that run meets a tie. -/
def FindPathTieFreeF32 (a : AStar) (start goal : AStarNode) : Option Outcome :=
  replayLoopF32 a goal (fuelBound a) (fuelBound a) (initStateF32 a listQueue start goal)

/-- A 4 x 2 grid, four directions, with `(0, 1)` blocked, cost `2^26` at `(1, 0)`, `8` at
`(2, 0)` and `3.75` along the lower row. -/
def roundingGrid : AStar where
  m_grid := [[0, 0, 0, 0], [1, 0, 0, 0]]
  m_costGrid := [[1, ((2 ^ 26 : Nat) : ℚ), 8, 1],
    [1, ((15 / 4 : ℚ) : Flt), ((15 / 4 : ℚ) : Flt), ((15 / 4 : ℚ) : Flt)]]
  m_width := 4
  m_height := 2
  m_tileWidth := 1
  m_tileHeight := 1
  m_allowDiagonal := false

end AStar

/-! ## Tables of flags -/
theorem cellAt_of_nonneg {α : Type} (t : List (List α)) (x y : Int) (hx : 0 ≤ x) (hy : 0 ≤ y) :
    cellAt t x y = (t[y.toNat]?).bind (fun row => row[x.toNat]?) := by
  unfold cellAt
  rw [if_pos ⟨hx, hy⟩]
  cases t[y.toNat]? <;> rfl

theorem cellAt_of_neg {α : Type} (t : List (List α)) (x y : Int) (h : ¬ (0 ≤ x ∧ 0 ≤ y)) :
    cellAt t x y = none := by
  unfold cellAt
  rw [if_neg h]

theorem cellAt_nonneg {α : Type} {t : List (List α)} {x y : Int} {v : α}
    (h : cellAt t x y = some v) : 0 ≤ x ∧ 0 ≤ y := by
  by_contra hn
  rw [cellAt_of_neg t x y hn] at h
  exact absurd h (by simp)

theorem cellAt_replicate {α : Type} (h w : Nat) (v : α) (x y : Int) :
    cellAt (List.replicate h (List.replicate w v)) x y
      = if 0 ≤ x ∧ 0 ≤ y ∧ x.toNat < w ∧ y.toNat < h then some v else none := by
  by_cases hxy : 0 ≤ x ∧ 0 ≤ y
  · rw [cellAt_of_nonneg _ _ _ hxy.1 hxy.2]
    by_cases hh : y.toNat < h
    · by_cases hw : x.toNat < w
      · rw [if_pos ⟨hxy.1, hxy.2, hw, hh⟩]
        simp only [List.getElem?_replicate, hh, hw, if_true, Option.bind]
      · rw [if_neg (fun h => hw h.2.2.1)]
        simp only [List.getElem?_replicate, hh, hw, if_true, if_false, Option.bind]
    · rw [if_neg (fun h => hh h.2.2.2)]
      simp only [List.getElem?_replicate, hh, if_false, Option.bind]
  · rw [cellAt_of_neg _ _ _ hxy, if_neg (fun h => hxy ⟨h.1, h.2.1⟩)]

theorem unclosedCount_replicate (h w : Nat) :
    unclosedCount (List.replicate h (List.replicate w false)) = h * w := by
  simp [unclosedCount]

theorem setCell_length {α : Type} (t : List (List α)) (x y : Int) (v : α) :
    (setCell t x y v).length = t.length := by
  unfold setCell
  split <;> simp

theorem setCell_row_length {α : Type} (t : List (List α)) (x y : Int) (v : α) (w : Nat)
    (h : ∀ row ∈ t, row.length = w) : ∀ row ∈ setCell t x y v, row.length = w := by
  unfold setCell
  split
  · exact h
  · rename_i row hrow
    intro r hr
    rcases List.mem_or_eq_of_mem_set hr with h1 | h1
    · exact h r h1
    · subst h1
      rw [List.length_set]
      exact h row (List.getElem?_mem hrow)

theorem cellAt_setCell_same {α : Type} (t : List (List α)) (x y : Int) (v : α) :
    cellAt (setCell t x y v) x y = (cellAt t x y).map (fun _ => v) := by
  by_cases hxy : 0 ≤ x ∧ 0 ≤ y
  · rw [cellAt_of_nonneg _ _ _ hxy.1 hxy.2, cellAt_of_nonneg _ _ _ hxy.1 hxy.2]
    unfold setCell
    cases hrow : t[y.toNat]? with
    | none => simp [hrow]
    | some row =>
      have hlt : y.toNat < t.length := (List.getElem?_eq_some.1 hrow).1
      simp only [List.getElem?_set_self hlt, Option.bind]
      by_cases hlx : x.toNat < row.length
      · rw [List.getElem?_set_self hlx, List.getElem?_eq_getElem hlx]
        rfl
      · have h1 : row.length ≤ x.toNat := Nat.le_of_not_lt hlx
        rw [List.getElem?_eq_none (by simpa using h1), List.getElem?_eq_none h1]
        rfl
  · rw [cellAt_of_neg _ _ _ hxy, cellAt_of_neg _ _ _ hxy]
    rfl

theorem cellAt_setCell_other {α : Type} (t : List (List α)) (x y x' y' : Int) (v : α)
    (hx : 0 ≤ x) (hy : 0 ≤ y) (hne : ¬ (x' = x ∧ y' = y)) :
    cellAt (setCell t x y v) x' y' = cellAt t x' y' := by
  by_cases hxy : 0 ≤ x' ∧ 0 ≤ y'
  · rw [cellAt_of_nonneg _ _ _ hxy.1 hxy.2, cellAt_of_nonneg _ _ _ hxy.1 hxy.2]
    unfold setCell
    cases hrow : t[y.toNat]? with
    | none => rfl
    | some row =>
      simp only []
      by_cases hyy : y' = y
      · subst hyy
        have hlt : y'.toNat < t.length := (List.getElem?_eq_some.1 hrow).1
        have hxx : x.toNat ≠ x'.toNat := by
          have : x' ≠ x := fun h => hne ⟨h, rfl⟩
          omega
        simp only [List.getElem?_set_self hlt, hrow, Option.bind, List.getElem?_set_ne hxx]
      · have hne2 : y.toNat ≠ y'.toNat := by omega
        rw [List.getElem?_set_ne hne2]
  · rw [cellAt_of_neg _ _ _ hxy, cellAt_of_neg _ _ _ hxy]

theorem count_set_true (row : List Bool) (i : Nat) (h : row[i]? = some false) :
    (row.set i true).count false + 1 = row.count false := by
  induction row generalizing i with
  | nil => simp at h
  | cons b rest ih =>
    cases i with
    | zero =>
      simp at h
      subst h
      simp
    | succ j =>
      simp at h
      have := ih j h
      cases b <;> simp [List.count_cons] <;> omega

theorem sum_set_count (t : List (List Bool)) (j : Nat) (row : List Bool) (i : Nat)
    (hrow : t[j]? = some row) (h : row[i]? = some false) :
    ((t.set j (row.set i true)).map (fun r => r.count false)).sum + 1
      = (t.map (fun r => r.count false)).sum := by
  induction t generalizing j with
  | nil => simp at hrow
  | cons r rest ih =>
    cases j with
    | zero =>
      simp at hrow
      subst hrow
      have := count_set_true r i h
      simp only [List.set_cons_zero, List.map_cons, List.sum_cons]
      omega
    | succ k =>
      simp at hrow
      have := ih k hrow
      simp only [List.set_cons_succ, List.map_cons, List.sum_cons]
      omega

theorem unclosedCount_setCell (t : List (List Bool)) (x y : Int)
    (h : cellAt t x y = some false) :
    unclosedCount (setCell t x y true) + 1 = unclosedCount t := by
  have hxy := cellAt_nonneg h
  rw [cellAt_of_nonneg _ _ _ hxy.1 hxy.2] at h
  unfold setCell unclosedCount
  cases hrow : t[y.toNat]? with
  | none => rw [hrow] at h; simp at h
  | some row =>
    rw [hrow] at h
    simp only [Option.bind] at h ⊢
    exact sum_set_count t _ row _ hrow h

/-! ## The priority queue -/

theorem popMin_none (l : List NodeRecord) : popMin l = none ↔ l = [] := by
  cases l with
  | nil => simp [popMin]
  | cons r rest =>
    simp only [popMin]
    cases popMin rest with
    | none => simp
    | some mr =>
      obtain ⟨m, rest'⟩ := mr
      simp only []
      split <;> simp

theorem popMin_some (l : List NodeRecord) (m : NodeRecord) (l' : List NodeRecord)
    (h : popMin l = some (m, l')) :
    l.Perm (m :: l') ∧ ∀ x ∈ l, ¬ x.fScore < m.fScore := by
  induction l generalizing m l' with
  | nil => simp [popMin] at h
  | cons r rest ih =>
    simp only [popMin] at h
    cases hrest : popMin rest with
    | none =>
      rw [hrest] at h
      simp only [Option.some.injEq, Prod.mk.injEq] at h
      obtain ⟨rfl, rfl⟩ := h
      have : rest = [] := (popMin_none rest).1 hrest
      subst this
      refine ⟨List.Perm.refl _, ?_⟩
      intro x hx
      simp only [List.mem_singleton] at hx
      subst hx
      exact lt_irrefl _
    | some mr =>
      obtain ⟨m0, rest0⟩ := mr
      rw [hrest] at h
      simp only [] at h
      obtain ⟨hperm, hmin⟩ := ih m0 rest0 hrest
      by_cases hlt : m0.fScore < r.fScore
      · rw [if_pos hlt] at h
        simp only [Option.some.injEq, Prod.mk.injEq] at h
        obtain ⟨rfl, rfl⟩ := h
        refine ⟨?_, ?_⟩
        · exact (List.Perm.cons r hperm).trans (List.Perm.swap _ _ _)
        · intro x hx
          rcases List.mem_cons.1 hx with rfl | hx
          · exact not_lt_of_gt hlt
          · exact hmin x hx
      · rw [if_neg hlt] at h
        simp only [Option.some.injEq, Prod.mk.injEq] at h
        obtain ⟨rfl, rfl⟩ := h
        refine ⟨List.Perm.refl _, ?_⟩
        intro x hx
        rcases List.mem_cons.1 hx with rfl | hx
        · exact lt_irrefl _
        · intro hxm
          have h1 : ¬ x.fScore < m0.fScore := hmin x hx
          exact h1 (lt_of_lt_of_le hxm (not_lt.1 hlt))

theorem listQueue_lawful : listQueue.Lawful where
  contents_empty := rfl
  contents_push := fun _ _ => List.Perm.refl _
  pop_none := popMin_none
  pop_some := popMin_some

namespace AStar

/-! ## Bounds and neighbours -/

theorem inBounds_iff (a : AStar) (x y : Int) :
    a.InBounds x y = true ↔ 0 ≤ x ∧ 0 ≤ y ∧ x < a.m_width ∧ y < a.m_height := by
  simp [InBounds, and_assoc]

theorem inBounds_of_walkable {a : AStar} {x y : Int} (h : a.IsWalkableCell x y = true) :
    a.InBounds x y = true := by
  simp only [IsWalkableCell, Bool.and_eq_true] at h
  exact h.1

/-- On a table with the dimensions of the grid, exactly the in-bounds cells can be read. -/
theorem cellAt_closed_of_inBounds {a : AStar} {tbl : List (List Bool)}
    (hlen : tbl.length = a.m_height.toNat) (hrow : ∀ row ∈ tbl, row.length = a.m_width.toNat)
    {x y : Int} (h : a.InBounds x y = true) : ∃ b, cellAt tbl x y = some b := by
  rw [inBounds_iff] at h
  obtain ⟨hx, hy, hxw, hyh⟩ := h
  rw [cellAt_of_nonneg _ _ _ hx hy]
  have h1 : y.toNat < tbl.length := by omega
  rw [List.getElem?_eq_getElem h1]
  have h2 : x.toNat < (tbl[y.toNat]).length := by
    rw [hrow _ (List.getElem_mem h1)]
    omega
  exact ⟨(tbl[y.toNat])[x.toNat], by simp [Option.bind, List.getElem?_eq_getElem h2]⟩

theorem inBounds_of_cellAt {a : AStar} {tbl : List (List Bool)}
    (hlen : tbl.length = a.m_height.toNat) (hrow : ∀ row ∈ tbl, row.length = a.m_width.toNat)
    {x y : Int} {b : Bool} (h : cellAt tbl x y = some b) : a.InBounds x y = true := by
  obtain ⟨hx, hy⟩ := cellAt_nonneg h
  rw [cellAt_of_nonneg _ _ _ hx hy] at h
  rw [inBounds_iff]
  cases hr : tbl[y.toNat]? with
  | none => rw [hr] at h; simp at h
  | some row =>
    rw [hr] at h
    simp only [Option.bind] at h
    have h1 : y.toNat < tbl.length := (List.getElem?_eq_some.1 hr).1
    have h2 : x.toNat < row.length := (List.getElem?_eq_some.1 h).1
    rw [hrow row (List.getElem?_mem hr)] at h2
    omega

theorem mem_getNeighbors (a : AStar) (u v : AStarNode) :
    v ∈ a.GetNeighbors u ↔ Step a u v := by
  unfold GetNeighbors Step Adjacent
  rw [List.mem_filter, List.mem_map]
  constructor
  · rintro ⟨⟨d, hd, rfl⟩, hw⟩
    refine ⟨?_, hw⟩
    have : (u.x + d.1 - u.x, u.y + d.2 - u.y) = d := by
      ext <;> simp
    simpa [this] using hd
  · rintro ⟨hd, hw⟩
    refine ⟨⟨(v.x - u.x, v.y - u.y), hd, ?_⟩, hw⟩
    cases v
    simp

theorem getNeighbors_length (a : AStar) (u : AStarNode) : (a.GetNeighbors u).length ≤ 8 := by
  unfold GetNeighbors
  refine le_trans (List.length_filter_le _ _) ?_
  rw [List.length_map]
  cases a.m_allowDiagonal <;> simp [dirs4, dirs8]

theorem inBounds_of_mem_getNeighbors {a : AStar} {u v : AStarNode}
    (h : v ∈ a.GetNeighbors u) : a.InBounds v.x v.y = true :=
  inBounds_of_walkable ((mem_getNeighbors a u v).1 h).2

/-! ## Following the predecessor map -/

theorem walkBack_of_backChain (cf : AStarNode → Option AStarNode) (start : AStarNode) :
    ∀ (rest : List AStarNode) (n : AStarNode) (fuel : Nat),
      BackChain cf start n rest → rest.length < fuel → walkBack cf fuel n = some rest := by
  intro rest
  induction rest with
  | nil =>
    intro n fuel h hf
    cases fuel with
    | zero => omega
    | succ k =>
      simp only [BackChain] at h
      simp only [walkBack, h.2]
  | cons p rest ih =>
    intro n fuel h hf
    cases fuel with
    | zero => omega
    | succ k =>
      simp only [BackChain] at h
      simp only [List.length_cons] at hf
      simp only [walkBack, h.1, ih p k h.2 (by omega)]

theorem backChain_congr {cf cf' : AStarNode → Option AStarNode} {start : AStarNode} :
    ∀ (rest : List AStarNode) (n : AStarNode),
      (∀ m ∈ n :: rest, cf' m = cf m) → BackChain cf start n rest →
      BackChain cf' start n rest := by
  intro rest
  induction rest with
  | nil =>
    intro n hm h
    simp only [BackChain] at h ⊢
    exact ⟨h.1, by rw [hm n (List.mem_cons_self _ _)]; exact h.2⟩
  | cons p rest ih =>
    intro n hm h
    simp only [BackChain] at h ⊢
    refine ⟨by rw [hm n (List.mem_cons_self _ _)]; exact h.1, ?_⟩
    exact ih p (fun m hmem => hm m (List.mem_cons_of_mem _ hmem)) h.2

end AStar

namespace AStar

/-! ## One relaxation -/

theorem relax_eq (a : AStar) (P : OpenQueue) (goal cur : AStarNode) (s : SearchState P)
    (nb : AStarNode) :
    relax a P goal cur s nb =
      match cellAt s.closed nb.x nb.y with
      | none => none
      | some true => some s
      | some false =>
        if (s.gScore nb).isNone ∨ tentativeG a cur s nb < (s.gScore nb).getD 0 then
          some (relaxUpdate a P goal cur s nb)
        else some s := rfl

theorem node_ext {m n : AStarNode} (hx : m.x = n.x) (hy : m.y = n.y) : m = n := by
  cases m; cases n; simp_all

theorem closed_setCell_self (t : List (List Bool)) (n : AStarNode)
    (h : cellAt t n.x n.y = some false) :
    cellAt (setCell t n.x n.y true) n.x n.y = some true := by
  rw [cellAt_setCell_same, h]
  rfl

theorem closed_setCell_of_ne (t : List (List Bool)) (n m : AStarNode)
    (h : cellAt t n.x n.y = some false) (hne : m ≠ n) :
    cellAt (setCell t n.x n.y true) m.x m.y = cellAt t m.x m.y := by
  obtain ⟨hx, hy⟩ := cellAt_nonneg h
  exact cellAt_setCell_other t _ _ _ _ true hx hy (fun hh => hne (node_ext hh.1 hh.2))

theorem closed_setCell_mono (t : List (List Bool)) (n m : AStarNode)
    (h : cellAt t n.x n.y = some false) (hm : cellAt t m.x m.y = some true) :
    cellAt (setCell t n.x n.y true) m.x m.y = some true := by
  by_cases hne : m = n
  · subst hne
    rw [h] at hm
    exact absurd hm (by simp)
  · rw [closed_setCell_of_ne t n m h hne]
    exact hm

theorem closed_setCell_inv (t : List (List Bool)) (n m : AStarNode)
    (h : cellAt t n.x n.y = some false)
    (hm : cellAt (setCell t n.x n.y true) m.x m.y = some true) :
    m = n ∨ cellAt t m.x m.y = some true := by
  by_cases hne : m = n
  · exact Or.inl hne
  · rw [closed_setCell_of_ne t n m h hne] at hm
    exact Or.inr hm

theorem inv_nil_cur {a : AStar} {P : OpenQueue} {start goal cur : AStarNode}
    {s : SearchState P} (cur' : AStarNode) (h : Inv a P start goal cur [] s) :
    Inv a P start goal cur' [] s where
  dims_len := h.dims_len
  dims_row := h.dims_row
  g_inb := h.g_inb
  open_g := h.open_g
  start_g := h.start_g
  start_cf := h.start_cf
  start_or := h.start_or
  goal_open := h.goal_open
  closed_g := h.closed_g
  frontier := h.frontier
  edge := h.edge
  edge_g := h.edge_g
  chain := h.chain
  expanded := by
    intro u hu v hv
    rcases h.expanded u hu v hv with h1 | h1
    · exact absurd h1.2 (List.not_mem_nil _)
    · exact Or.inr h1

/-- Dropping a handled neighbour that is closed or already has a `gScore` entry. -/
theorem inv_skip {a : AStar} {P : OpenQueue} {start goal cur nb : AStarNode}
    {rest : List AStarNode} {s : SearchState P}
    (h : Inv a P start goal cur (nb :: rest) s) (hg : s.gScore nb ≠ none) :
    Inv a P start goal cur rest s where
  dims_len := h.dims_len
  dims_row := h.dims_row
  g_inb := h.g_inb
  open_g := h.open_g
  start_g := h.start_g
  start_cf := h.start_cf
  start_or := by
    rcases h.start_or with h1 | h1
    · exact Or.inl h1
    · exact absurd h1.1 (List.cons_ne_nil _ _)
  goal_open := h.goal_open
  closed_g := h.closed_g
  frontier := h.frontier
  edge := h.edge
  edge_g := h.edge_g
  chain := h.chain
  expanded := by
    intro u hu v hv
    rcases h.expanded u hu v hv with h1 | h1
    · rcases List.mem_cons.1 h1.2 with h2 | h2
      · subst h2
        exact Or.inr hg
      · exact Or.inl ⟨h1.1, h2⟩
    · exact Or.inr h1

theorem inv_relaxUpdate {a : AStar} {P : OpenQueue} (hP : P.Lawful)
    {start goal cur nb : AStarNode} {rest : List AStarNode} {s : SearchState P}
    (h : Inv a P start goal cur (nb :: rest) s)
    (hcur : cellAt s.closed cur.x cur.y = some true)
    (hnb : nb ∈ a.GetNeighbors cur)
    (hopen : cellAt s.closed nb.x nb.y = some false) :
    Inv a P start goal cur rest (relaxUpdate a P goal cur s nb) := by
  have hstart : cellAt s.closed start.x start.y = some true := by
    rcases h.start_or with h1 | h1
    · exact h1
    · exact absurd h1.1 (List.cons_ne_nil _ _)
  have hne_of_closed : ∀ m, cellAt s.closed m.x m.y = some true → m ≠ nb := by
    intro m hm heq
    subst heq
    rw [hopen] at hm
    exact absurd hm (by simp)
  have hmem : ∀ r, r ∈ P.contents (relaxUpdate a P goal cur s nb).openQ ↔
      r = ⟨nb, tentativeG a cur s nb + a.Heuristic nb goal⟩ ∨ r ∈ P.contents s.openQ := by
    intro r
    show r ∈ P.contents (P.push s.openQ _) ↔ _
    rw [(hP.contents_push _ _).mem_iff]
    exact List.mem_cons
  have hgnew : ∀ n, s.gScore n ≠ none → (relaxUpdate a P goal cur s nb).gScore n ≠ none := by
    intro n hn
    simp only [relaxUpdate]
    split
    · simp
    · exact hn
  obtain ⟨gc, hgc⟩ : ∃ gc, s.gScore cur = some gc :=
    Option.ne_none_iff_exists'.1 (h.closed_g cur hcur)
  refine
    { dims_len := h.dims_len
      dims_row := h.dims_row
      g_inb := ?_
      open_g := ?_
      start_g := ?_
      start_cf := ?_
      start_or := Or.inl hstart
      goal_open := h.goal_open
      closed_g := fun n hn => hgnew n (h.closed_g n hn)
      frontier := ?_
      edge := ?_
      edge_g := ?_
      chain := ?_
      expanded := ?_ }
  · intro n hn
    by_cases hnn : n = nb
    · subst hnn
      exact inBounds_of_mem_getNeighbors hnb
    · simp only [relaxUpdate, if_neg hnn] at hn
      exact h.g_inb n hn
  · intro r hr
    rcases (hmem r).1 hr with h1 | h1
    · subst h1
      simp [relaxUpdate]
    · exact hgnew _ (h.open_g r h1)
  · simp only [relaxUpdate, if_neg (hne_of_closed start hstart)]
    exact h.start_g
  · simp only [relaxUpdate, if_neg (hne_of_closed start hstart)]
    exact h.start_cf
  · intro n hn hcl
    by_cases hnn : n = nb
    · exact ⟨_, (hmem _).2 (Or.inl rfl), hnn.symm⟩
    · simp only [relaxUpdate, if_neg hnn] at hn
      obtain ⟨r, hr, hrn⟩ := h.frontier n hn hcl
      exact ⟨r, (hmem r).2 (Or.inr hr), hrn⟩
  · intro n p hnp
    by_cases hnn : n = nb
    · subst hnn
      simp only [relaxUpdate, if_true, Option.some.injEq] at hnp
      subst hnp
      exact ⟨hcur, hnb⟩
    · simp only [relaxUpdate, if_neg hnn] at hnp
      exact h.edge n p hnp
  · intro n p hnp
    by_cases hnn : n = nb
    · subst hnn
      simp only [relaxUpdate, if_true, Option.some.injEq] at hnp
      subst hnp
      refine ⟨gc, ?_, ?_⟩
      · simp only [relaxUpdate, if_neg (hne_of_closed _ hcur)]
        exact hgc
      · simp only [relaxUpdate, if_true, tentativeG, hgc, Option.getD_some, stepCost]
    · simp only [relaxUpdate, if_neg hnn] at hnp
      obtain ⟨gp, h1, h2⟩ := h.edge_g n p hnp
      refine ⟨gp, ?_, ?_⟩
      · simp only [relaxUpdate, if_neg (hne_of_closed p (h.edge n p hnp).1)]
        exact h1
      · simp only [relaxUpdate, if_neg hnn]
        exact h2
  · intro n hn
    by_cases hnn : n = nb
    · subst hnn
      obtain ⟨rc, hbc, hcl, hnd, hlen⟩ := h.chain cur (h.closed_g cur hcur)
      have hnotin : n ∉ cur :: rc := by
        intro hmem
        rcases List.mem_cons.1 hmem with h1 | h1
        · exact hne_of_closed cur hcur h1.symm
        · exact hne_of_closed n (hcl n h1) rfl
      refine ⟨cur :: rc, ?_, ?_, ?_, ?_⟩
      · simp only [BackChain]
        refine ⟨by simp [relaxUpdate], ?_⟩
        refine backChain_congr rc cur ?_ hbc
        intro m hm
        have : m ≠ n := fun hh => hnotin (hh ▸ hm)
        simp only [relaxUpdate, if_neg this]
      · intro m hm
        rcases List.mem_cons.1 hm with h1 | h1
        · subst h1
          exact hcur
        · exact hcl m h1
      · exact List.nodup_cons.2 ⟨hnotin, hnd⟩
      · simp only [relaxUpdate, hopen, hcur, if_true, List.length_cons] at hlen ⊢
        rw [if_neg (by simp)]
        omega
    · simp only [relaxUpdate, if_neg hnn] at hn
      obtain ⟨rn, hbc, hcl, hnd, hlen⟩ := h.chain n hn
      refine ⟨rn, ?_, hcl, hnd, hlen⟩
      refine backChain_congr rn n ?_ hbc
      intro m hm
      have : m ≠ nb := by
        rcases List.mem_cons.1 hm with h1 | h1
        · subst h1
          exact hnn
        · exact hne_of_closed m (hcl m h1)
      simp only [relaxUpdate, if_neg this]
  · intro u hu v hv
    rcases h.expanded u hu v hv with h1 | h1
    · rcases List.mem_cons.1 h1.2 with h2 | h2
      · subst h2
        right
        simp [relaxUpdate]
      · exact Or.inl ⟨h1.1, h2⟩
    · exact Or.inr (hgnew v h1)

end AStar

namespace AStar

theorem tentativeG_eq (a : AStar) {P : OpenQueue} (cur nb : AStarNode) (s : SearchState P)
    (gc : Flt) (h : s.gScore cur = some gc) :
    tentativeG a cur s nb = gc + stepCost a cur nb := by
  simp only [tentativeG, h, Option.getD_some, stepCost]

/-- The two ways `relax` ends on a neighbour whose `closed` flag can be read. -/
theorem relax_cases (a : AStar) (P : OpenQueue) (goal cur : AStarNode) (s : SearchState P)
    (nb : AStarNode) (b : Bool) (hb : cellAt s.closed nb.x nb.y = some b) :
    (relax a P goal cur s nb = some s ∧
        (b = true ∨ ∃ g, s.gScore nb = some g ∧ ¬ tentativeG a cur s nb < g)) ∨
    (relax a P goal cur s nb = some (relaxUpdate a P goal cur s nb) ∧ b = false ∧
        (s.gScore nb = none ∨ ∃ g, s.gScore nb = some g ∧ tentativeG a cur s nb < g)) := by
  rw [relax_eq, hb]
  cases b with
  | true => exact Or.inl ⟨rfl, Or.inl rfl⟩
  | false =>
    simp only []
    cases hg : s.gScore nb with
    | none =>
      right
      simp
    | some g =>
      by_cases hlt : tentativeG a cur s nb < g
      · right
        simp [hlt]
      · left
        simp only [Option.isNone_some, Bool.false_eq_true, Option.getD_some, false_or, hlt,
          if_false, true_and]
        exact ⟨g, rfl, hlt⟩

theorem costInv_skip {a : AStar} {P : OpenQueue} {start goal cur nb : AStarNode}
    {rest : List AStarNode} {s : SearchState P}
    (h : CostInv a P start goal cur (nb :: rest) s)
    (hnb : cellAt s.closed nb.x nb.y = some true ∨
      ∃ gu gv, s.gScore cur = some gu ∧ s.gScore nb = some gv ∧ gv ≤ gu + stepCost a cur nb) :
    CostInv a P start goal cur rest s where
  open_ge := h.open_ge
  frontier_f := h.frontier_f
  closed_opt := h.closed_opt
  relaxed := by
    intro u hu v hv
    rcases h.relaxed u hu v hv with h1 | h1
    · rcases List.mem_cons.1 h1.2 with h2 | h2
      · subst h2
        obtain ⟨rfl, _⟩ := h1
        exact Or.inr hnb
      · exact Or.inl ⟨h1.1, h2⟩
    · exact Or.inr h1

theorem costInv_relaxUpdate {a : AStar} {P : OpenQueue} (hP : P.Lawful)
    {start goal cur nb : AStarNode} {rest : List AStarNode} {s : SearchState P}
    (hI : Inv a P start goal cur (nb :: rest) s)
    (h : CostInv a P start goal cur (nb :: rest) s)
    (hcur : cellAt s.closed cur.x cur.y = some true)
    (hopen : cellAt s.closed nb.x nb.y = some false)
    (hlt : s.gScore nb = none ∨ ∃ g, s.gScore nb = some g ∧ tentativeG a cur s nb < g) :
    CostInv a P start goal cur rest (relaxUpdate a P goal cur s nb) := by
  have hne_of_closed : ∀ m, cellAt s.closed m.x m.y = some true → m ≠ nb := by
    intro m hm heq
    subst heq
    rw [hopen] at hm
    exact absurd hm (by simp)
  have hmem : ∀ r, r ∈ P.contents (relaxUpdate a P goal cur s nb).openQ ↔
      r = ⟨nb, tentativeG a cur s nb + a.Heuristic nb goal⟩ ∨ r ∈ P.contents s.openQ := by
    intro r
    show r ∈ P.contents (P.push s.openQ _) ↔ _
    rw [(hP.contents_push _ _).mem_iff]
    exact List.mem_cons
  obtain ⟨gc, hgc⟩ : ∃ gc, s.gScore cur = some gc :=
    Option.ne_none_iff_exists'.1 (hI.closed_g cur hcur)
  have hdec : ∀ g, s.gScore nb = some g → tentativeG a cur s nb < g := by
    intro g hg
    rcases hlt with h1 | ⟨g', h1, h2⟩
    · rw [h1] at hg
      exact absurd hg (by simp)
    · rw [h1] at hg
      simp only [Option.some.injEq] at hg
      subst hg
      exact h2
  refine { open_ge := ?_, frontier_f := ?_, closed_opt := ?_, relaxed := ?_ }
  · intro r hr
    rcases (hmem r).1 hr with h1 | h1
    · subst h1
      exact ⟨_, by simp [relaxUpdate], le_refl _⟩
    · obtain ⟨g, hg, hge⟩ := h.open_ge r h1
      by_cases hrn : r.node = nb
      · refine ⟨tentativeG a cur s nb, by simp [relaxUpdate, hrn], ?_⟩
        rw [hrn] at hg hge ⊢
        exact le_trans (add_le_add_right (le_of_lt (hdec g hg)) _) hge
      · exact ⟨g, by simp only [relaxUpdate, if_neg hrn]; exact hg, hge⟩
  · intro n g hg hcl
    by_cases hnn : n = nb
    · subst hnn
      simp only [relaxUpdate, if_true, Option.some.injEq] at hg
      subst hg
      exact ⟨_, (hmem _).2 (Or.inl rfl), rfl, rfl⟩
    · simp only [relaxUpdate, if_neg hnn] at hg
      obtain ⟨r, hr, hrn, hrf⟩ := h.frontier_f n g hg hcl
      exact ⟨r, (hmem r).2 (Or.inr hr), hrn, hrf⟩
  · intro u g hu hg q hq
    simp only [relaxUpdate, if_neg (hne_of_closed u hu)] at hg
    exact h.closed_opt u g hu hg q hq
  · intro u hu v hv
    have hgu : ∀ gu, s.gScore u = some gu →
        (relaxUpdate a P goal cur s nb).gScore u = some gu := by
      intro gu hgu
      simp only [relaxUpdate, if_neg (hne_of_closed u hu)]
      exact hgu
    rcases h.relaxed u hu v hv with h1 | h1 | ⟨gu, gv, h1, h2, h3⟩
    · rcases List.mem_cons.1 h1.2 with h2 | h2
      · subst h2
        obtain ⟨rfl, _⟩ := h1
        refine Or.inr (Or.inr ⟨gc, tentativeG a u s v, hgu gc hgc, by simp [relaxUpdate], ?_⟩)
        rw [tentativeG_eq a u v s gc hgc]
      · exact Or.inl ⟨h1.1, h2⟩
    · exact Or.inr (Or.inl h1)
    · by_cases hvn : v = nb
      · subst hvn
        refine Or.inr (Or.inr ⟨gu, tentativeG a cur s v, hgu gu h1, by simp [relaxUpdate], ?_⟩)
        exact le_trans (le_of_lt (hdec gv h2)) h3
      · refine Or.inr (Or.inr ⟨gu, gv, hgu gu h1, ?_, h3⟩)
        simp only [relaxUpdate, if_neg hvn]
        exact h2

/-- One pass of the `for` body keeps both invariants, cannot fault on a neighbour of
`cur`, leaves `closed` alone and pushes at most one entry. -/
theorem relax_inv {a : AStar} {P : OpenQueue} (hP : P.Lawful)
    {start goal cur nb : AStarNode} {rest : List AStarNode} {s : SearchState P}
    (h : Inv a P start goal cur (nb :: rest) s)
    (hcur : cellAt s.closed cur.x cur.y = some true)
    (hnb : nb ∈ a.GetNeighbors cur) :
    ∃ s', relax a P goal cur s nb = some s' ∧ Inv a P start goal cur rest s' ∧
      s'.closed = s.closed ∧
      (P.contents s'.openQ).length ≤ (P.contents s.openQ).length + 1 ∧
      (CostInv a P start goal cur (nb :: rest) s → CostInv a P start goal cur rest s') := by
  obtain ⟨b, hb⟩ := cellAt_closed_of_inBounds h.dims_len h.dims_row
    (inBounds_of_mem_getNeighbors hnb)
  obtain ⟨gc, hgc⟩ : ∃ gc, s.gScore cur = some gc :=
    Option.ne_none_iff_exists'.1 (h.closed_g cur hcur)
  rcases relax_cases a P goal cur s nb b hb with ⟨hr, hc⟩ | ⟨hr, rfl, hc⟩
  · refine ⟨s, hr, ?_, rfl, Nat.le_succ _, ?_⟩
    · rcases hc with rfl | ⟨g, hg, _⟩
      · exact inv_skip h (h.closed_g nb hb)
      · exact inv_skip h (by rw [hg]; simp)
    · intro hC
      rcases hc with rfl | ⟨g, hg, hnlt⟩
      · exact costInv_skip hC (Or.inl hb)
      · refine costInv_skip hC (Or.inr ⟨gc, g, hgc, hg, ?_⟩)
        rw [← tentativeG_eq a cur nb s gc hgc]
        exact not_lt.1 hnlt
  · refine ⟨_, hr, inv_relaxUpdate hP h hcur hnb hb, rfl, ?_, ?_⟩
    · show (P.contents (P.push s.openQ _)).length ≤ _
      rw [(hP.contents_push _ _).length_eq]
      simp
    · intro hC
      exact costInv_relaxUpdate hP h hC hcur hb hc

theorem relaxAll_inv {a : AStar} {P : OpenQueue} (hP : P.Lawful)
    {start goal cur : AStarNode} :
    ∀ (l : List AStarNode) (s : SearchState P),
      Inv a P start goal cur l s → cellAt s.closed cur.x cur.y = some true →
      (∀ v ∈ l, v ∈ a.GetNeighbors cur) →
      ∃ s', relaxAll a P goal cur l s = some s' ∧ Inv a P start goal cur [] s' ∧
        s'.closed = s.closed ∧
        (P.contents s'.openQ).length ≤ (P.contents s.openQ).length + l.length ∧
        (CostInv a P start goal cur l s → CostInv a P start goal cur [] s') := by
  intro l
  induction l with
  | nil =>
    intro s h _ _
    exact ⟨s, rfl, h, rfl, Nat.le_refl _, fun hC => hC⟩
  | cons nb rest ih =>
    intro s h hcur hl
    obtain ⟨s1, hr, hI1, hc1, hlen1, hC1⟩ :=
      relax_inv hP h hcur (hl nb (List.mem_cons_self _ _))
    obtain ⟨s2, hr2, hI2, hc2, hlen2, hC2⟩ :=
      ih s1 hI1 (by rw [hc1]; exact hcur) (fun v hv => hl v (List.mem_cons_of_mem _ hv))
    refine ⟨s2, ?_, hI2, by rw [hc2, hc1], ?_, fun hC => hC2 (hC1 hC)⟩
    · simp only [relaxAll, hr, hr2]
    · simp only [List.length_cons]
      omega

end AStar

namespace AStar

/-! ## Routes -/

theorem isRoute_single (a : AStar) (s : AStarNode) : IsRoute a s s [s] :=
  ⟨rfl, rfl, List.chain'_singleton _⟩

theorem isRoute_ne_nil {a : AStar} {s t : AStarNode} {q : List AStarNode}
    (h : IsRoute a s t q) : q ≠ [] := by
  intro hq
  subst hq
  exact absurd h.1 (by simp)

theorem isRoute_snoc {a : AStar} {s u v : AStarNode} {q : List AStarNode}
    (h : IsRoute a s u q) (hs : Step a u v) : IsRoute a s v (q ++ [v]) := by
  obtain ⟨hh, hl, hc⟩ := h
  refine ⟨?_, List.getLast?_concat q, ?_⟩
  · rw [List.head?_append, hh]
    rfl
  · rw [List.chain'_append]
    refine ⟨hc, List.chain'_singleton _, ?_⟩
    intro x hx y hy
    rw [hl] at hx
    simp only [Option.mem_def, Option.some.injEq, List.head?_cons] at hx hy
    subst hx
    subst hy
    exact hs

/-- Induction over routes, extending them at the far end. -/
theorem isRoute_induction {a : AStar} {s : AStarNode} {C : AStarNode → List AStarNode → Prop}
    (h0 : C s [s])
    (hstep : ∀ u v q, IsRoute a s u q → C u q → Step a u v → C v (q ++ [v])) :
    ∀ (q : List AStarNode) (t : AStarNode), IsRoute a s t q → C t q := by
  intro q
  induction q using List.reverseRecOn with
  | nil =>
    intro t h
    exact absurd rfl (isRoute_ne_nil h)
  | append_singleton q v ih =>
    intro t h
    obtain ⟨hh, hl, hc⟩ := h
    rw [List.getLast?_concat] at hl
    simp only [Option.some.injEq] at hl
    subst hl
    cases hq : q.getLast? with
    | none =>
      have : q = [] := List.getLast?_eq_none_iff.1 hq
      subst this
      simp only [List.nil_append, List.head?_cons, Option.some.injEq] at hh
      subst hh
      exact h0
    | some u =>
      have hne : q ≠ [] := by
        intro hq'
        subst hq'
        simp at hq
      rw [List.chain'_append] at hc
      obtain ⟨hc1, _, hc3⟩ := hc
      have hhq : q.head? = some s := by
        rw [List.head?_append_of_ne_nil _ hne] at hh
        exact hh
      have hr : IsRoute a s u q := ⟨hhq, hq, hc1⟩
      exact hstep u v q hr (ih u hr) (hc3 u hq v rfl)

theorem routeCost_snoc (a : AStar) (v : AStarNode) :
    ∀ (q : List AStarNode) (u : AStarNode), q.getLast? = some u →
      routeCost a (q ++ [v]) = routeCost a q + stepCost a u v := by
  intro q
  induction q with
  | nil => intro u h; simp at h
  | cons x r ih =>
    intro u h
    cases r with
    | nil =>
      simp only [List.getLast?_singleton, Option.some.injEq] at h
      subst h
      simp [routeCost]
    | cons y r' =>
      have h' : (y :: r').getLast? = some u := by
        rw [List.getLast?_cons_cons] at h
        exact h
      have := ih u h'
      show stepCost a x y + routeCost a ((y :: r') ++ [v]) = _
      rw [this]
      show _ = stepCost a x y + routeCost a (y :: r') + stepCost a u v
      rw [add_assoc]

/-- The predecessor chain of a tile, read forwards, is a route from `start` whose summed
step cost is the tile's `gScore`. -/
theorem chain_route {a : AStar} {P : OpenQueue} {start goal cur : AStarNode}
    {pending : List AStarNode} {s : SearchState P}
    (hI : Inv a P start goal cur pending s) :
    ∀ (rest : List AStarNode) (n : AStarNode), BackChain s.cameFrom start n rest →
      IsRoute a start n (n :: rest).reverse ∧
      s.gScore n = some (routeCost a (n :: rest).reverse) := by
  intro rest
  induction rest with
  | nil =>
    intro n h
    simp only [BackChain] at h
    obtain ⟨rfl, _⟩ := h
    exact ⟨isRoute_single a n, by simpa [routeCost] using hI.start_g⟩
  | cons p r ih =>
    intro n h
    simp only [BackChain] at h
    obtain ⟨hr, hg⟩ := ih p h.2
    have hstep : Step a p n := (mem_getNeighbors a p n).1 (hI.edge n p h.1).2
    have hrev : (n :: p :: r).reverse = (p :: r).reverse ++ [n] := List.reverse_cons _ _
    rw [hrev]
    refine ⟨isRoute_snoc hr hstep, ?_⟩
    obtain ⟨gp, h1, h2⟩ := hI.edge_g n p h.1
    rw [routeCost_snoc a n _ p hr.2.1, h2]
    rw [hg] at h1
    simp only [Option.some.injEq] at h1
    rw [h1]

theorem heuristic_ne_top (a : AStar) (p q : AStarNode) : a.Heuristic p q ≠ ⊤ :=
  WithTop.coe_ne_top

/-- While the queue is inspected, every route from `start` either ends in a closed tile or
has passed an open tile whose `f` value is bounded by the route. -/
theorem frontier_bound {a : AStar} {P : OpenQueue} {start goal cur : AStarNode}
    {s : SearchState P} (hI : Inv a P start goal cur [] s)
    (hC : CostInv a P start goal cur [] s) (hcons : Consistent a goal) :
    ∀ (q : List AStarNode) (t : AStarNode), IsRoute a start t q →
      cellAt s.closed t.x t.y = some true ∨
      ∃ b gb, cellAt s.closed b.x b.y ≠ some true ∧ s.gScore b = some gb ∧
        gb + a.Heuristic b goal ≤ routeCost a q + a.Heuristic t goal := by
  apply isRoute_induction
  · by_cases hs : cellAt s.closed start.x start.y = some true
    · exact Or.inl hs
    · refine Or.inr ⟨start, 0, hs, hI.start_g, ?_⟩
      simp [routeCost]
  · intro u v q hr ih hstep
    by_cases hv : cellAt s.closed v.x v.y = some true
    · exact Or.inl hv
    · right
      have hcost := routeCost_snoc a v q u hr.2.1
      rcases ih with hu | ⟨b, gb, hb, hgb, hle⟩
      · obtain ⟨gu, hgu⟩ := Option.ne_none_iff_exists'.1 (hI.closed_g u hu)
        have hopt := hC.closed_opt u gu hu hgu q hr
        rcases hC.relaxed u hu v ((mem_getNeighbors a u v).2 hstep) with h1 | h1 | h1
        · exact absurd h1.2 (List.not_mem_nil _)
        · exact absurd h1 hv
        · obtain ⟨gu', gv, h2, h3, h4⟩ := h1
          rw [hgu] at h2
          simp only [Option.some.injEq] at h2
          subst h2
          refine ⟨v, gv, hv, h3, ?_⟩
          rw [hcost]
          exact add_le_add_right (le_trans h4 (add_le_add_right hopt _)) _
      · refine ⟨b, gb, hb, hgb, le_trans hle ?_⟩
        rw [hcost, add_assoc]
        exact add_le_add_left (hcons u v hstep) _

end AStar

namespace AStar

/-! ## One iteration of the search loop -/

theorem pop_mem {P : OpenQueue} (hP : P.Lawful) {q q' : P.Q} {top : NodeRecord}
    (h : P.pop q = some (top, q')) (r : NodeRecord) :
    r ∈ P.contents q ↔ r = top ∨ r ∈ P.contents q' := by
  rw [(hP.pop_some q top q' h).1.mem_iff]
  exact List.mem_cons

theorem pop_length {P : OpenQueue} (hP : P.Lawful) {q q' : P.Q} {top : NodeRecord}
    (h : P.pop q = some (top, q')) :
    (P.contents q).length = (P.contents q').length + 1 := by
  rw [(hP.pop_some q top q' h).1.length_eq]
  rfl

/-- With a consistent heuristic, the `gScore` of the open tile taken from the queue is a
lower bound for the cost of every route to it. -/
theorem popped_optimal {a : AStar} {P : OpenQueue} (hP : P.Lawful)
    {start goal cur : AStarNode} {s : SearchState P}
    (hI : Inv a P start goal cur [] s) (hC : CostInv a P start goal cur [] s)
    (hcons : Consistent a goal) {top : NodeRecord} {q' : P.Q}
    (hpop : P.pop s.openQ = some (top, q'))
    (hopen : cellAt s.closed top.node.x top.node.y ≠ some true)
    (g : Flt) (hg : s.gScore top.node = some g)
    (q : List AStarNode) (hq : IsRoute a start top.node q) : g ≤ routeCost a q := by
  rcases frontier_bound hI hC hcons q top.node hq with h1 | ⟨b, gb, hb, hgb, hle⟩
  · exact absurd h1 hopen
  · obtain ⟨rb, hrb, hrbn, hrbf⟩ := hC.frontier_f b gb hgb hb
    have hmin : ¬ rb.fScore < top.fScore := (hP.pop_some _ _ _ hpop).2 rb hrb
    obtain ⟨g', hg', hge⟩ := hC.open_ge top ((pop_mem hP hpop top).2 (Or.inl rfl))
    rw [hg] at hg'
    simp only [Option.some.injEq] at hg'
    subst hg'
    have h2 : g + a.Heuristic top.node goal ≤ routeCost a q + a.Heuristic top.node goal :=
      le_trans hge (le_trans (not_lt.1 hmin) (by rw [hrbf]; exact hle))
    exact WithTop.le_of_add_le_add_right (heuristic_ne_top a _ _) h2

theorem inv_stale {a : AStar} {P : OpenQueue} (hP : P.Lawful)
    {start goal cur : AStarNode} {s : SearchState P}
    (h : Inv a P start goal cur [] s) {top : NodeRecord} {q' : P.Q}
    (hpop : P.pop s.openQ = some (top, q'))
    (hcl : cellAt s.closed top.node.x top.node.y = some true) :
    Inv a P start goal cur [] { s with openQ := q' } where
  dims_len := h.dims_len
  dims_row := h.dims_row
  g_inb := h.g_inb
  open_g := fun r hr => h.open_g r ((pop_mem hP hpop r).2 (Or.inr hr))
  start_g := h.start_g
  start_cf := h.start_cf
  start_or := by
    rcases h.start_or with h1 | h1
    · exact Or.inl h1
    · exact Or.inr ⟨rfl, fun r hr => h1.2 r ((pop_mem hP hpop r).2 (Or.inr hr))⟩
  goal_open := h.goal_open
  closed_g := h.closed_g
  frontier := by
    intro n hn hncl
    obtain ⟨r, hr, hrn⟩ := h.frontier n hn hncl
    rcases (pop_mem hP hpop r).1 hr with h1 | h1
    · subst h1
      rw [hrn] at hcl
      exact absurd hcl hncl
    · exact ⟨r, h1, hrn⟩
  edge := h.edge
  edge_g := h.edge_g
  chain := h.chain
  expanded := h.expanded

theorem costInv_stale {a : AStar} {P : OpenQueue} (hP : P.Lawful)
    {start goal cur : AStarNode} {s : SearchState P}
    (h : CostInv a P start goal cur [] s) {top : NodeRecord} {q' : P.Q}
    (hpop : P.pop s.openQ = some (top, q'))
    (hcl : cellAt s.closed top.node.x top.node.y = some true) :
    CostInv a P start goal cur [] { s with openQ := q' } where
  open_ge := fun r hr => h.open_ge r ((pop_mem hP hpop r).2 (Or.inr hr))
  frontier_f := by
    intro n g hn hncl
    obtain ⟨r, hr, hrn, hrf⟩ := h.frontier_f n g hn hncl
    rcases (pop_mem hP hpop r).1 hr with h1 | h1
    · subst h1
      rw [hrn] at hcl
      exact absurd hcl hncl
    · exact ⟨r, h1, hrn, hrf⟩
  closed_opt := h.closed_opt
  relaxed := h.relaxed

/-- The state after `closed[current.y][current.x] = true`, before the `for` loop. -/
theorem inv_close {a : AStar} {P : OpenQueue} (hP : P.Lawful)
    {start goal cur : AStarNode} {s : SearchState P}
    (h : Inv a P start goal cur [] s) {top : NodeRecord} {q' : P.Q}
    (hpop : P.pop s.openQ = some (top, q'))
    (hopen : cellAt s.closed top.node.x top.node.y = some false)
    (hgoal : top.node ≠ goal) :
    Inv a P start goal top.node (a.GetNeighbors top.node)
      { s with openQ := q', closed := setCell s.closed top.node.x top.node.y true } := by
  have htop : top ∈ P.contents s.openQ := (pop_mem hP hpop top).2 (Or.inl rfl)
  have hU := unclosedCount_setCell s.closed _ _ hopen
  refine
    { dims_len := by rw [← h.dims_len]; exact setCell_length _ _ _ _
      dims_row := setCell_row_length _ _ _ _ _ h.dims_row
      g_inb := h.g_inb
      open_g := fun r hr => h.open_g r ((pop_mem hP hpop r).2 (Or.inr hr))
      start_g := h.start_g
      start_cf := h.start_cf
      start_or := ?_
      goal_open := ?_
      closed_g := ?_
      frontier := ?_
      edge := ?_
      edge_g := h.edge_g
      chain := ?_
      expanded := ?_ }
  · left
    rcases h.start_or with h1 | h1
    · exact closed_setCell_mono _ _ _ hopen h1
    · rw [← h1.2 top htop]
      exact closed_setCell_self _ _ hopen
  · show cellAt (setCell s.closed top.node.x top.node.y true) goal.x goal.y ≠ some true
    rw [closed_setCell_of_ne _ _ _ hopen (Ne.symm hgoal)]
    exact h.goal_open
  · intro n hn
    rcases closed_setCell_inv _ _ _ hopen hn with h1 | h1
    · subst h1
      exact h.open_g top htop
    · exact h.closed_g n h1
  · intro n hn hncl
    have hne : n ≠ top.node := by
      intro heq
      subst heq
      exact hncl (closed_setCell_self _ _ hopen)
    have hncl' : cellAt s.closed n.x n.y ≠ some true := by
      intro hc
      exact hncl (closed_setCell_mono _ _ _ hopen hc)
    obtain ⟨r, hr, hrn⟩ := h.frontier n hn hncl'
    rcases (pop_mem hP hpop r).1 hr with h1 | h1
    · subst h1
      exact absurd hrn.symm hne
    · exact ⟨r, h1, hrn⟩
  · intro n p hnp
    obtain ⟨h1, h2⟩ := h.edge n p hnp
    exact ⟨closed_setCell_mono _ _ _ hopen h1, h2⟩
  · intro n hn
    obtain ⟨rest, hbc, hcl, hnd, hlen⟩ := h.chain n hn
    refine ⟨rest, hbc, fun m hm => closed_setCell_mono _ _ _ hopen (hcl m hm), hnd, ?_⟩
    show rest.length + unclosedCount (setCell s.closed top.node.x top.node.y true) +
      (if cellAt (setCell s.closed top.node.x top.node.y true) n.x n.y = some true
        then 1 else 0) ≤ _
    by_cases hc : cellAt s.closed n.x n.y = some true
    · rw [if_pos hc] at hlen
      rw [if_pos (closed_setCell_mono _ _ _ hopen hc)]
      omega
    · rw [if_neg hc] at hlen
      split <;> omega
  · intro u hu v hv
    rcases closed_setCell_inv _ _ _ hopen hu with h1 | h1
    · subst h1
      exact Or.inl ⟨rfl, hv⟩
    · rcases h.expanded u h1 v hv with h2 | h2
      · exact absurd h2.2 (List.not_mem_nil _)
      · exact Or.inr h2

theorem costInv_close {a : AStar} {P : OpenQueue} (hP : P.Lawful)
    {start goal cur : AStarNode} {s : SearchState P}
    (hI : Inv a P start goal cur [] s) (h : CostInv a P start goal cur [] s)
    (hcons : Consistent a goal) {top : NodeRecord} {q' : P.Q}
    (hpop : P.pop s.openQ = some (top, q'))
    (hopen : cellAt s.closed top.node.x top.node.y = some false) :
    CostInv a P start goal top.node (a.GetNeighbors top.node)
      { s with openQ := q', closed := setCell s.closed top.node.x top.node.y true } := by
  have hnot : cellAt s.closed top.node.x top.node.y ≠ some true := by
    rw [hopen]
    simp
  refine { open_ge := ?_, frontier_f := ?_, closed_opt := ?_, relaxed := ?_ }
  · exact fun r hr => h.open_ge r ((pop_mem hP hpop r).2 (Or.inr hr))
  · intro n g hn hncl
    have hne : n ≠ top.node := by
      intro heq
      subst heq
      exact hncl (closed_setCell_self _ _ hopen)
    have hncl' : cellAt s.closed n.x n.y ≠ some true := by
      intro hc
      exact hncl (closed_setCell_mono _ _ _ hopen hc)
    obtain ⟨r, hr, hrn, hrf⟩ := h.frontier_f n g hn hncl'
    rcases (pop_mem hP hpop r).1 hr with h1 | h1
    · subst h1
      exact absurd hrn.symm hne
    · exact ⟨r, h1, hrn, hrf⟩
  · intro u g hu hg q hq
    rcases closed_setCell_inv _ _ _ hopen hu with h1 | h1
    · subst h1
      exact popped_optimal hP hI h hcons hpop hnot g hg q hq
    · exact h.closed_opt u g h1 hg q hq
  · intro u hu v hv
    rcases closed_setCell_inv _ _ _ hopen hu with h1 | h1
    · subst h1
      exact Or.inl ⟨rfl, hv⟩
    · rcases h.relaxed u h1 v hv with h2 | h2 | h2
      · exact absurd h2.2 (List.not_mem_nil _)
      · exact Or.inr (Or.inl (closed_setCell_mono _ _ _ hopen h2))
      · exact Or.inr (Or.inr h2)

end AStar

namespace AStar

theorem loopBody_pop_none (a : AStar) (P : OpenQueue) (goal : AStarNode) (rfuel : Nat)
    (s : SearchState P) (h : P.pop s.openQ = none) :
    loopBody a P goal rfuel s = LoopStep.done (Outcome.returned []) := by
  simp only [loopBody, h]

theorem loopBody_pop_some (a : AStar) (P : OpenQueue) (goal : AStarNode) (rfuel : Nat)
    (s : SearchState P) (top : NodeRecord) (q' : P.Q) (h : P.pop s.openQ = some (top, q')) :
    loopBody a P goal rfuel s =
      match cellAt s.closed top.node.x top.node.y with
      | none => LoopStep.done Outcome.outOfRange
      | some true => LoopStep.next { s with openQ := q' }
      | some false =>
        if top.node = goal then
          match ReconstructPath rfuel s.cameFrom top.node with
          | none => LoopStep.done Outcome.outOfFuel
          | some path => LoopStep.done (Outcome.returned path)
        else
          match relaxAll a P goal top.node (a.GetNeighbors top.node)
              { s with openQ := q', closed := setCell s.closed top.node.x top.node.y true } with
          | none => LoopStep.done Outcome.outOfRange
          | some s' => LoopStep.next s' := by
  simp only [loopBody, h]

/-- The flag of a queued tile can be read: it is in bounds. -/
theorem popped_readable {a : AStar} {P : OpenQueue} (hP : P.Lawful)
    {start goal cur : AStarNode} {s : SearchState P}
    (h : Inv a P start goal cur [] s) {top : NodeRecord} {q' : P.Q}
    (hpop : P.pop s.openQ = some (top, q')) :
    ∃ b, cellAt s.closed top.node.x top.node.y = some b :=
  cellAt_closed_of_inBounds h.dims_len h.dims_row
    (h.g_inb _ (h.open_g top ((pop_mem hP hpop top).2 (Or.inl rfl))))

/-- An iteration that falls through keeps the invariants and lowers the measure. -/
theorem loopBody_next {a : AStar} {P : OpenQueue} (hP : P.Lawful)
    {start goal : AStarNode} {rfuel : Nat} {s s' : SearchState P}
    (hI : Inv a P start goal start [] s)
    (h : loopBody a P goal rfuel s = LoopStep.next s') :
    Inv a P start goal start [] s' ∧ loopMeasure s' < loopMeasure s ∧
    (Consistent a goal → CostInv a P start goal start [] s →
      CostInv a P start goal start [] s') := by
  cases hpop : P.pop s.openQ with
  | none =>
    rw [loopBody_pop_none a P goal rfuel s hpop] at h
    exact absurd h (by simp)
  | some tq =>
    obtain ⟨top, q'⟩ := tq
    rw [loopBody_pop_some a P goal rfuel s top q' hpop] at h
    obtain ⟨b, hb⟩ := popped_readable hP hI hpop
    have hlen := pop_length hP hpop
    rw [hb] at h
    cases b with
    | true =>
      simp only [LoopStep.next.injEq] at h
      subst h
      refine ⟨inv_stale hP hI hpop hb, ?_, fun _ hC => costInv_stale hP hC hpop hb⟩
      simp only [loopMeasure]
      omega
    | false =>
      simp only [] at h
      by_cases hg : top.node = goal
      · rw [if_pos hg] at h
        split at h <;> exact absurd h (by simp)
      · rw [if_neg hg] at h
        have hmid := inv_close hP hI hpop hb hg
        obtain ⟨s2, hr, hI2, hc2, hlen2, hC2⟩ :=
          relaxAll_inv hP (a.GetNeighbors top.node) _ hmid
            (closed_setCell_self _ _ hb) (fun v hv => hv)
        rw [hr] at h
        simp only [LoopStep.next.injEq] at h
        subst h
        refine ⟨inv_nil_cur start hI2, ?_, ?_⟩
        · have hU := unclosedCount_setCell s.closed _ _ hb
          have h8 := getNeighbors_length a top.node
          simp only [loopMeasure, hc2]
          simp only [] at hlen2
          omega
        · intro hcons hC
          have := hC2 (costInv_close hP hI hC hcons hpop hb)
          exact
            { open_ge := this.open_ge
              frontier_f := this.frontier_f
              closed_opt := this.closed_opt
              relaxed := by
                intro u hu v hv
                rcases this.relaxed u hu v hv with h1 | h1
                · exact absurd h1.2 (List.not_mem_nil _)
                · exact Or.inr h1 }

/-- An iteration that leaves `FindPath` either found the queue empty, or took the open
tile `goal` from it and returned its predecessor chain, reversed. -/
theorem loopBody_done {a : AStar} {P : OpenQueue} (hP : P.Lawful)
    {start goal : AStarNode} {rfuel : Nat} {s : SearchState P} {o : Outcome}
    (hI : Inv a P start goal start [] s)
    (hrf : a.m_height.toNat * a.m_width.toNat < rfuel)
    (h : loopBody a P goal rfuel s = LoopStep.done o) :
    (o = Outcome.returned [] ∧ P.contents s.openQ = []) ∨
    ∃ top q' rest, P.pop s.openQ = some (top, q') ∧ top.node = goal ∧
      cellAt s.closed goal.x goal.y = some false ∧
      BackChain s.cameFrom start goal rest ∧ (goal :: rest).Nodup ∧
      o = Outcome.returned (goal :: rest).reverse := by
  cases hpop : P.pop s.openQ with
  | none =>
    rw [loopBody_pop_none a P goal rfuel s hpop] at h
    simp only [LoopStep.done.injEq] at h
    exact Or.inl ⟨h.symm, (hP.pop_none _).1 hpop⟩
  | some tq =>
    obtain ⟨top, q'⟩ := tq
    right
    rw [loopBody_pop_some a P goal rfuel s top q' hpop] at h
    obtain ⟨b, hb⟩ := popped_readable hP hI hpop
    rw [hb] at h
    cases b with
    | true => exact absurd h (by simp)
    | false =>
      simp only [] at h
      by_cases hg : top.node = goal
      · rw [if_pos hg] at h
        rw [hg] at hb h
        have hgs : s.gScore goal ≠ none := by
          rw [← hg]
          exact hI.open_g top ((pop_mem hP hpop top).2 (Or.inl rfl))
        obtain ⟨rest, hbc, _, hnd, hlen⟩ := hI.chain goal hgs
        have hwb : walkBack s.cameFrom rfuel goal = some rest :=
          walkBack_of_backChain _ _ rest goal rfuel hbc (by omega)
        simp only [ReconstructPath, hwb, LoopStep.done.injEq] at h
        exact ⟨top, q', rest, rfl, hg, hb, hbc, hnd, h.symm⟩
      · rw [if_neg hg] at h
        have hmid := inv_close hP hI hpop hb hg
        obtain ⟨s2, hr, _⟩ :=
          relaxAll_inv hP (a.GetNeighbors top.node) _ hmid
            (closed_setCell_self _ _ hb) (fun v hv => hv)
        rw [hr] at h
        exact absurd h (by simp)

/-- The search loop ends within `loopMeasure s + 1` iterations, in a state that satisfies
the invariants and whose iteration leaves `FindPath`. -/
theorem searchLoop_run {a : AStar} {P : OpenQueue} (hP : P.Lawful)
    {start goal : AStarNode} {rfuel : Nat} :
    ∀ (fuel : Nat) (s : SearchState P), Inv a P start goal start [] s →
      loopMeasure s < fuel →
      ∃ s' o, Inv a P start goal start [] s' ∧
        (Consistent a goal → CostInv a P start goal start [] s →
          CostInv a P start goal start [] s') ∧
        loopBody a P goal rfuel s' = LoopStep.done o ∧
        searchLoop a P goal rfuel fuel s = o := by
  intro fuel
  induction fuel with
  | zero => intro s _ h; omega
  | succ k ih =>
    intro s hI hm
    cases hb : loopBody a P goal rfuel s with
    | done o =>
      exact ⟨s, o, hI, fun _ hC => hC, hb, by simp only [searchLoop, hb]⟩
    | next s1 =>
      obtain ⟨hI1, hlt, hC1⟩ := loopBody_next hP hI hb
      obtain ⟨s', o, hI', hC', hd, hrun⟩ := ih s1 hI1 (by omega)
      exact ⟨s', o, hI', fun hc hC => hC' hc (hC1 hc hC), hd, by
        simp only [searchLoop, hb]
        exact hrun⟩

/-! ## The state on entry to the loop -/

theorem init_contents {a : AStar} {P : OpenQueue} (hP : P.Lawful) (start goal : AStarNode)
    (r : NodeRecord) :
    r ∈ P.contents (initState a P start goal).openQ ↔ r = ⟨start, a.Heuristic start goal⟩ := by
  show r ∈ P.contents (P.push P.empty _) ↔ _
  rw [(hP.contents_push _ _).mem_iff, hP.contents_empty]
  simp

theorem init_closed (a : AStar) (P : OpenQueue) (start goal n : AStarNode) :
    cellAt (initState a P start goal).closed n.x n.y ≠ some true := by
  show cellAt (List.replicate _ (List.replicate _ false)) n.x n.y ≠ some true
  rw [cellAt_replicate]
  split <;> simp

theorem inv_init {a : AStar} {P : OpenQueue} (hP : P.Lawful) (start goal : AStarNode)
    (hs : a.InBounds start.x start.y = true) :
    Inv a P start goal start [] (initState a P start goal) where
  dims_len := by simp [initState]
  dims_row := by
    intro row hrow
    simp only [initState] at hrow
    rw [List.eq_of_mem_replicate hrow]
    simp
  g_inb := by
    intro n hn
    by_cases hnn : n = start
    · rw [hnn]; exact hs
    · simp [initState, hnn] at hn
  open_g := by
    intro r hr
    rw [init_contents hP] at hr
    subst hr
    simp [initState]
  start_g := by simp [initState]
  start_cf := rfl
  start_or := by
    right
    refine ⟨rfl, ?_⟩
    intro r hr
    rw [init_contents hP] at hr
    subst hr
    rfl
  goal_open := init_closed a P start goal goal
  closed_g := fun n hn => absurd hn (init_closed a P start goal n)
  frontier := by
    intro n hn _
    by_cases hnn : n = start
    · exact ⟨_, (init_contents hP start goal _).2 rfl, hnn.symm⟩
    · simp [initState, hnn] at hn
  edge := by
    intro n p hnp
    simp [initState] at hnp
  edge_g := by
    intro n p hnp
    simp [initState] at hnp
  chain := by
    intro n hn
    by_cases hnn : n = start
    · subst hnn
      refine ⟨[], ⟨rfl, rfl⟩, by simp, by simp, ?_⟩
      rw [if_neg (init_closed a P n goal n)]
      simp [initState, unclosedCount_replicate]
    · simp [initState, hnn] at hn
  expanded := fun u hu => absurd hu (init_closed a P start goal u)

theorem costInv_init {a : AStar} {P : OpenQueue} (hP : P.Lawful) (start goal : AStarNode) :
    CostInv a P start goal start [] (initState a P start goal) where
  open_ge := by
    intro r hr
    rw [init_contents hP] at hr
    subst hr
    exact ⟨0, by simp [initState], by simp⟩
  frontier_f := by
    intro n g hg _
    by_cases hnn : n = start
    · subst hnn
      simp [initState] at hg
      subst hg
      exact ⟨_, (init_contents hP n goal _).2 rfl, rfl, by simp⟩
    · simp [initState, hnn] at hg
  closed_opt := fun u _ hu => absurd hu (init_closed a P start goal u)
  relaxed := fun u hu => absurd hu (init_closed a P start goal u)

theorem init_measure {a : AStar} {P : OpenQueue} (hP : P.Lawful) (start goal : AStarNode) :
    loopMeasure (initState a P start goal) + 1 = fuelBound a := by
  have : (P.contents (initState a P start goal).openQ).length = 1 := by
    show (P.contents (P.push P.empty _)).length = 1
    rw [(hP.contents_push _ _).length_eq, hP.contents_empty]
    rfl
  simp only [loopMeasure, this, fuelBound]
  show 1 + 8 * unclosedCount (List.replicate _ (List.replicate _ false)) + 1 = _
  rw [unclosedCount_replicate]
  omega

/-- What `FindPath` does from an in-bounds start, for any fuel from `fuelBound` on: it
returns, either the empty vector from a state with an empty queue, or the reversed
predecessor chain of the open tile `goal` just taken from the queue. -/
theorem findPathFuel_run {a : AStar} {P : OpenQueue} (hP : P.Lawful)
    (start goal : AStarNode) (hs : a.InBounds start.x start.y = true)
    (fuel : Nat) (hfuel : fuelBound a ≤ fuel) :
    ∃ (s : SearchState P) (o : Outcome), Inv a P start goal start [] s ∧
      (Consistent a goal → CostInv a P start goal start [] s) ∧
      FindPathFuel a P fuel start goal = o ∧
      ((o = Outcome.returned [] ∧ P.contents s.openQ = []) ∨
        ∃ top q' rest, P.pop s.openQ = some (top, q') ∧ top.node = goal ∧
          cellAt s.closed goal.x goal.y = some false ∧
          BackChain s.cameFrom start goal rest ∧ (goal :: rest).Nodup ∧
          o = Outcome.returned (goal :: rest).reverse) := by
  have hm := init_measure (a := a) hP start goal
  have hbound : a.m_height.toNat * a.m_width.toNat < fuel := by
    simp only [fuelBound] at hfuel
    omega
  obtain ⟨s, o, hI, hC, hd, hrun⟩ :=
    @searchLoop_run a P hP start goal fuel fuel (initState a P start goal)
      (inv_init hP start goal hs) (by omega)
  exact ⟨s, o, hI, fun hc => hC hc (costInv_init hP start goal), hrun,
    loopBody_done hP hI hbound hd⟩

end AStar

namespace AStar

/-! ## Independence of the fuel -/

theorem loopBody_rfuel {a : AStar} {P : OpenQueue} (hP : P.Lawful)
    {start goal : AStarNode} {s : SearchState P} (hI : Inv a P start goal start [] s)
    {rf1 rf2 : Nat} (h1 : a.m_height.toNat * a.m_width.toNat < rf1)
    (h2 : a.m_height.toNat * a.m_width.toNat < rf2) :
    loopBody a P goal rf1 s = loopBody a P goal rf2 s := by
  cases hpop : P.pop s.openQ with
  | none => rw [loopBody_pop_none _ _ _ _ _ hpop, loopBody_pop_none _ _ _ _ _ hpop]
  | some tq =>
    obtain ⟨top, q'⟩ := tq
    rw [loopBody_pop_some _ _ _ _ _ _ _ hpop, loopBody_pop_some _ _ _ _ _ _ _ hpop]
    by_cases hg : top.node = goal
    · have hgs : s.gScore top.node ≠ none :=
        hI.open_g top ((pop_mem hP hpop top).2 (Or.inl rfl))
      rw [hg] at hgs
      obtain ⟨rest, hbc, _, _, hlen⟩ := hI.chain goal hgs
      have e1 : ReconstructPath rf1 s.cameFrom top.node = some (goal :: rest).reverse := by
        rw [hg]
        simp only [ReconstructPath, walkBack_of_backChain _ _ rest goal rf1 hbc (by omega)]
      have e2 : ReconstructPath rf2 s.cameFrom top.node = some (goal :: rest).reverse := by
        rw [hg]
        simp only [ReconstructPath, walkBack_of_backChain _ _ rest goal rf2 hbc (by omega)]
      rw [e1, e2]
    · simp only [if_neg hg]

theorem searchLoop_fuel {a : AStar} {P : OpenQueue} (hP : P.Lawful)
    {start goal : AStarNode} {rf1 rf2 : Nat}
    (h1 : a.m_height.toNat * a.m_width.toNat < rf1)
    (h2 : a.m_height.toNat * a.m_width.toNat < rf2) :
    ∀ (f1 f2 : Nat) (s : SearchState P), Inv a P start goal start [] s →
      loopMeasure s < f1 → loopMeasure s < f2 →
      searchLoop a P goal rf1 f1 s = searchLoop a P goal rf2 f2 s := by
  intro f1
  induction f1 with
  | zero => intro f2 s _ h; omega
  | succ k ih =>
    intro f2 s hI hm1 hm2
    cases f2 with
    | zero => omega
    | succ j =>
      have hb := loopBody_rfuel hP hI h1 h2
      cases hlb : loopBody a P goal rf1 s with
      | done o =>
        simp only [searchLoop, ← hb, hlb]
      | next s1 =>
        obtain ⟨hI1, hlt, _⟩ := loopBody_next hP hI hlb
        simp only [searchLoop, ← hb, hlb]
        exact ih j s1 hI1 (by omega) (by omega)

theorem findPathFuel_eq {a : AStar} {P : OpenQueue} (hP : P.Lawful)
    (start goal : AStarNode) (hs : a.InBounds start.x start.y = true)
    (fuel : Nat) (hfuel : fuelBound a ≤ fuel) :
    FindPathFuel a P fuel start goal = FindPath a P start goal := by
  have hm := init_measure (a := a) hP start goal
  have hb : a.m_height.toNat * a.m_width.toNat < fuelBound a := by
    simp only [fuelBound]
    omega
  exact searchLoop_fuel hP (by omega) hb fuel (fuelBound a) _ (inv_init hP start goal hs)
    (by omega) (by omega)

/-! ## The result of `FindPath` -/

/-- When the queue runs empty, every tile that a route from `start` reaches is closed. -/
theorem closed_of_route {a : AStar} {P : OpenQueue} {start goal : AStarNode}
    {s : SearchState P} (hI : Inv a P start goal start [] s)
    (hempty : P.contents s.openQ = []) :
    ∀ (q : List AStarNode) (t : AStarNode), IsRoute a start t q →
      cellAt s.closed t.x t.y = some true := by
  have key : ∀ n, s.gScore n ≠ none → cellAt s.closed n.x n.y = some true := by
    intro n hn
    by_contra hc
    obtain ⟨r, hr, _⟩ := hI.frontier n hn hc
    rw [hempty] at hr
    exact absurd hr (List.not_mem_nil _)
  apply isRoute_induction
  · exact key start (by rw [hI.start_g]; simp)
  · intro u v q _ hu hstep
    rcases hI.expanded u hu v ((mem_getNeighbors a u v).2 hstep) with h1 | h1
    · exact absurd h1.2 (List.not_mem_nil _)
    · exact key v h1

/-- The two results of `FindPath` from an in-bounds start: the empty vector, and then no
route exists; or a route without repeated tiles, which is cheapest when the heuristic is
consistent. -/
theorem findPath_cases {a : AStar} {P : OpenQueue} (hP : P.Lawful)
    (start goal : AStarNode) (hs : a.InBounds start.x start.y = true) :
    (a.FindPath P start goal = Outcome.returned [] ∧ ¬ ∃ q, IsRoute a start goal q) ∨
    ∃ p, a.FindPath P start goal = Outcome.returned p ∧ IsRoute a start goal p ∧ p.Nodup ∧
      (Consistent a goal → ∀ q, IsRoute a start goal q → routeCost a p ≤ routeCost a q) := by
  obtain ⟨s, o, hI, hC, hrun, hcase⟩ :=
    findPathFuel_run hP start goal hs (fuelBound a) (Nat.le_refl _)
  rcases hcase with ⟨ho, hempty⟩ | ⟨top, q', rest, hpop, htop, hopen, hbc, hnd, ho⟩
  · left
    refine ⟨by rw [← ho]; exact hrun, ?_⟩
    rintro ⟨q, hq⟩
    exact hI.goal_open (closed_of_route hI hempty q goal hq)
  · right
    obtain ⟨hroute, hg⟩ := chain_route hI rest goal hbc
    refine ⟨(goal :: rest).reverse, by rw [← ho]; exact hrun, hroute,
      List.nodup_reverse.2 hnd, ?_⟩
    intro hcons q hq
    have hnot : cellAt s.closed top.node.x top.node.y ≠ some true := by
      rw [htop, hopen]
      simp
    exact popped_optimal hP hI (hC hcons) hcons hpop hnot _ (by rw [htop]; exact hg) q
      (by rw [htop]; exact hq)

/-! ## Four-directional movement: consistency of the heuristic -/

theorem getTileCost_ge_one {a : AStar} (hcost : CostsAtLeastOne a) (x y : Int) :
    (1 : Flt) ≤ a.GetTileCost x y := by
  unfold GetTileCost
  split
  · cases hc : cellAt a.m_costGrid x y with
    | none => exact le_top
    | some c =>
      obtain ⟨hx, hy⟩ := cellAt_nonneg hc
      rw [cellAt_of_nonneg _ _ _ hx hy] at hc
      cases hr : a.m_costGrid[y.toNat]? with
      | none => rw [hr] at hc; simp at hc
      | some row =>
        rw [hr] at hc
        simp only [Option.bind] at hc
        exact hcost row (List.getElem?_mem hr) c (List.getElem?_mem hc)
  · exact le_top

theorem stepCost_orthogonal {a : AStar} (hdiag : a.m_allowDiagonal = false)
    {u v : AStarNode} (h : Step a u v) : stepCost a u v = a.GetTileCost v.x v.y := by
  have hadj := h.1
  simp only [Adjacent, hdiag, Bool.false_eq_true, if_false, dirs4, List.mem_cons,
    Prod.mk.injEq, List.mem_singleton, List.not_mem_nil, or_false] at hadj
  have hno : ¬ (v.x ≠ u.x ∧ v.y ≠ u.y) := by omega
  simp only [stepCost, if_neg hno, mul_one]

theorem consistent_of_orthogonal {a : AStar} (hdiag : a.m_allowDiagonal = false)
    (hcost : CostsAtLeastOne a) (goal : AStarNode) : Consistent a goal := by
  intro u v h
  rw [stepCost_orthogonal hdiag h]
  have hadj := h.1
  simp only [Adjacent, hdiag, Bool.false_eq_true, if_false, dirs4, List.mem_cons,
    Prod.mk.injEq, List.mem_singleton, List.not_mem_nil, or_false] at hadj
  have hnat : Int.natAbs (u.x - goal.x) + Int.natAbs (u.y - goal.y)
      ≤ 1 + (Int.natAbs (v.x - goal.x) + Int.natAbs (v.y - goal.y)) := by omega
  have h1 : a.Heuristic u goal ≤
      (((1 + (Int.natAbs (v.x - goal.x) + Int.natAbs (v.y - goal.y)) : ℕ) : ℚ) : Flt) := by
    unfold Heuristic
    exact_mod_cast hnat
  refine le_trans h1 ?_
  have h2 : (((1 + (Int.natAbs (v.x - goal.x) + Int.natAbs (v.y - goal.y)) : ℕ) : ℚ) : Flt)
      = 1 + a.Heuristic v goal := by
    unfold Heuristic
    push_cast
    rfl
  rw [h2]
  exact add_le_add_right (getTileCost_ge_one hcost _ _) _

theorem tileCostSum_snoc (a : AStar) (q : List AStarNode) (v : AStarNode) (hq : q ≠ []) :
    tileCostSum a (q ++ [v]) = tileCostSum a q + a.GetTileCost v.x v.y := by
  unfold tileCostSum
  rw [List.tail_append_of_ne_nil hq, List.map_append, List.sum_append]
  simp

theorem routeCost_eq_tileCostSum {a : AStar} (hdiag : a.m_allowDiagonal = false)
    {start : AStarNode} :
    ∀ (q : List AStarNode) (t : AStarNode), IsRoute a start t q →
      routeCost a q = tileCostSum a q := by
  apply isRoute_induction
  · simp [routeCost, tileCostSum]
  · intro u v q hr ih hstep
    rw [routeCost_snoc a v q u hr.2.1, tileCostSum_snoc a q v (isRoute_ne_nil hr), ih,
      stepCost_orthogonal hdiag hstep]

theorem chain'_tail_exists {α : Type} {R : α → α → Prop} :
    ∀ {l : List α}, List.Chain' R l → ∀ v ∈ l.tail, ∃ u, R u v := by
  intro l
  induction l with
  | nil => intro _ v hv; simp at hv
  | cons x r ih =>
    intro h v hv
    cases r with
    | nil => simp at hv
    | cons y r' =>
      simp only [List.tail_cons] at hv
      rw [List.chain'_cons] at h
      rcases List.mem_cons.1 hv with h1 | h1
      · subst h1
        exact ⟨x, h.1⟩
      · exact ih h.2 v (by simpa using h1)

theorem singleton_of_nodup_ends {s : AStarNode} {p : List AStarNode}
    (hh : p.head? = some s) (hl : p.getLast? = some s) (hnd : p.Nodup) : p = [s] := by
  cases p with
  | nil => simp at hh
  | cons x r =>
    simp only [List.head?_cons, Option.some.injEq] at hh
    subst hh
    cases r with
    | nil => rfl
    | cons y r' =>
      exfalso
      rw [List.getLast?_cons_cons] at hl
      have : x ∈ y :: r' := List.mem_of_getLast?_eq_some hl
      exact (List.nodup_cons.1 hnd).1 this

theorem findPath_outOfBounds {a : AStar} {P : OpenQueue} (hP : P.Lawful)
    (start goal : AStarNode) (hs : a.InBounds start.x start.y = false) :
    a.FindPath P start goal = Outcome.outOfRange := by
  have hmem := init_contents (a := a) hP start goal
  cases hpop : P.pop (initState a P start goal).openQ with
  | none =>
    have := (hP.pop_none _).1 hpop
    have h1 := (hmem ⟨start, a.Heuristic start goal⟩).2 rfl
    rw [this] at h1
    exact absurd h1 (List.not_mem_nil _)
  | some tq =>
    obtain ⟨top, q'⟩ := tq
    have htop : top = ⟨start, a.Heuristic start goal⟩ :=
      (hmem top).1 ((pop_mem hP hpop top).2 (Or.inl rfl))
    have hcell : cellAt (initState a P start goal).closed top.node.x top.node.y = none := by
      rw [htop]
      show cellAt (List.replicate _ (List.replicate _ false)) start.x start.y = none
      rw [cellAt_replicate, if_neg]
      intro hc
      have : a.InBounds start.x start.y = true := by
        rw [inBounds_iff]
        omega
      rw [hs] at this
      exact absurd this (by simp)
    show searchLoop a P goal _ (8 * (a.m_height.toNat * a.m_width.toNat) + 1 + 1) _ = _
    simp only [searchLoop, loopBody_pop_some _ _ _ _ _ _ _ hpop, hcell]

end AStar

/-! ## Single-precision rounding is exact on short dyadic values -/

namespace AStar

theorem binadeShift_spec (n : Nat) :
    binadeShift n = 0 ∨ 2 ^ 23 ≤ n / 2 ^ binadeShift n := by
  have key : ∀ (l : List Nat) (s0 : Nat), (s0 = 0 ∨ 2 ^ 23 ≤ n / 2 ^ s0) →
      (l.foldl (fun s b => if 2 ^ 23 ≤ n / 2 ^ (s + b) then s + b else s) s0 = 0 ∨
        2 ^ 23 ≤ n / 2 ^ (l.foldl
          (fun s b => if 2 ^ 23 ≤ n / 2 ^ (s + b) then s + b else s) s0)) := by
    intro l
    induction l with
    | nil => intro s0 h; exact h
    | cons b l ih =>
      intro s0 h
      rw [List.foldl_cons]
      apply ih
      by_cases hb : 2 ^ 23 ≤ n / 2 ^ (s0 + b)
      · rw [if_pos hb]; exact Or.inr hb
      · rw [if_neg hb]; exact h
  exact key _ 0 (Or.inl rfl)

theorem dvd_of_shift (m e s : Nat) (hm : m ≤ 2 ^ 24)
    (h : s = 0 ∨ 2 ^ 23 ≤ m * 2 ^ e / 2 ^ s) : 2 ^ s ∣ m * 2 ^ e := by
  rcases h with rfl | h
  · simp
  by_cases hse : s ≤ e
  · exact Dvd.dvd.mul_left (pow_dvd_pow 2 hse) m
  obtain ⟨d, rfl⟩ : ∃ d, s = e + (d + 1) := ⟨s - e - 1, by omega⟩
  have h2 : m * 2 ^ e / 2 ^ (e + (d + 1)) = m / 2 ^ (d + 1) := by
    rw [pow_add, mul_comm (2 ^ e) (2 ^ (d + 1))]
    exact Nat.mul_div_mul_right _ _ (by positivity)
  rw [h2] at h
  have h3 : 2 ^ 23 * 2 ^ (d + 1) ≤ m := by
    have := Nat.div_mul_le_self m (2 ^ (d + 1))
    calc 2 ^ 23 * 2 ^ (d + 1) ≤ m / 2 ^ (d + 1) * 2 ^ (d + 1) := Nat.mul_le_mul_right _ h
      _ ≤ m := this
  have h4 : (2 : Nat) ^ d ≤ 1 := by
    rw [pow_succ 2 d] at h3
    have h5 : 2 ^ 23 * (2 ^ d * 2) = 2 ^ 24 * 2 ^ d := by ring
    rw [h5] at h3
    have h6 : 2 ^ 24 * 2 ^ d ≤ 2 ^ 24 * 1 := by omega
    exact Nat.le_of_mul_le_mul_left h6 (by positivity)
  have hd : d = 0 := by
    by_contra hd
    have : 2 ^ 1 ≤ 2 ^ d := Nat.pow_le_pow_right (by norm_num) (by omega)
    omega
  subst hd
  have hm' : m = 2 ^ 24 := by
    have : 2 ^ 23 * 2 ^ (0 + 1) = 2 ^ 24 := by norm_num
    omega
  subst hm'
  rw [← pow_add]
  exact pow_dvd_pow 2 (by omega)

theorem roundHalfEven_natCast (z : Nat) : roundHalfEven (z : ℚ) = z := by
  have hf : Rat.floor (z : ℚ) = (z : Int) := by
    have : Rat.floor (z : ℚ) = ⌊(z : ℚ)⌋ := rfl
    rw [this, Int.floor_natCast]
  unfold roundHalfEven
  simp only [hf, Int.toNat_ofNat, sub_self]
  rw [if_pos (by norm_num)]

theorem roundF32_dyadic (j m : Nat) (hj : j ≤ 149) (hm : m ≤ 2 ^ 24) :
    roundF32 ((m : ℚ) / ((2 ^ j : Nat) : ℚ)) = dyadic j m := by
  have hpos : (0 : ℚ) < ((2 ^ j : Nat) : ℚ) := by positivity
  have hx0 : (0 : ℚ) ≤ (m : ℚ) / ((2 ^ j : Nat) : ℚ) := by positivity
  have hxle : (m : ℚ) / ((2 ^ j : Nat) : ℚ) ≤ ((2 ^ 24 : Nat) : ℚ) := by
    have h1 : (1 : ℚ) ≤ ((2 ^ j : Nat) : ℚ) := by
      exact_mod_cast Nat.one_le_two_pow
    calc (m : ℚ) / ((2 ^ j : Nat) : ℚ) ≤ (m : ℚ) := div_le_self (by positivity) h1
      _ ≤ ((2 ^ 24 : Nat) : ℚ) := by exact_mod_cast hm
  have hy : (m : ℚ) / ((2 ^ j : Nat) : ℚ) * ((2 ^ 149 : Nat) : ℚ)
      = ((m * 2 ^ (149 - j) : Nat) : ℚ) := by
    have : (2 ^ 149 : Nat) = 2 ^ j * 2 ^ (149 - j) := by
      rw [← pow_add]; congr 1; omega
    rw [this]
    push_cast
    field_simp
    ring
  have hdvd := dvd_of_shift m (149 - j) _ hm (binadeShift_spec (m * 2 ^ (149 - j)))
  have hfl : (Rat.floor (((m * 2 ^ (149 - j) : Nat) : ℚ))).toNat = m * 2 ^ (149 - j) := by
    have : Rat.floor (((m * 2 ^ (149 - j) : Nat) : ℚ)) = ⌊(((m * 2 ^ (149 - j) : Nat) : ℚ))⌋ := rfl
    rw [this, Int.floor_natCast, Int.toNat_ofNat]
  unfold roundF32
  rw [if_neg (not_lt.mpr hx0)]
  unfold roundF32Pos
  rw [if_neg]
  swap
  · rw [not_le]
    refine lt_of_le_of_lt hxle ?_
    exact_mod_cast (by norm_num : (2 ^ 24 : Nat) < 2 ^ 128 - 2 ^ 103)
  simp only [hy, hfl]
  unfold dyadic
  have hx : (m : ℚ) / ((2 ^ j : Nat) : ℚ)
      = ((m * 2 ^ (149 - j) : Nat) : ℚ) / ((2 ^ 149 : Nat) : ℚ) := by
    have : ((2 ^ 149 : Nat) : ℚ) ≠ 0 := by positivity
    exact (eq_div_iff this).mpr hy
  rw [hx]
  generalize m * 2 ^ (149 - j) = Y at hdvd
  generalize binadeShift Y = t at hdvd
  obtain ⟨z, rfl⟩ := hdvd
  have hq : ((2 ^ t * z : Nat) : ℚ) / ((2 ^ t : Nat) : ℚ) = (z : ℚ) := by
    have hp : (0 : ℚ) < ((2 ^ t : Nat) : ℚ) := by positivity
    rw [div_eq_iff hp.ne']
    push_cast
    ring
  rw [hq, roundHalfEven_natCast, mul_comm z]

theorem toF32_dyadic (j m : Nat) (hj : j ≤ 149) (hm : m ≤ 2 ^ 24) :
    toF32 (dyadic j m) = dyadic j m :=
  roundF32_dyadic j m hj hm

theorem dyadic_add (j m k : Nat) : dyadic j m + dyadic j k = dyadic j (m + k) := by
  unfold dyadic
  rw [← WithTop.coe_add]
  congr 1
  push_cast
  ring

theorem dyadic_zero (j : Nat) : dyadic j 0 = 0 := by
  unfold dyadic
  simp

theorem dyadic_natCast (j h : Nat) : dyadic j (h * 2 ^ j) = (((h : ℚ)) : Flt) := by
  unfold dyadic
  congr 1
  push_cast
  field_simp

end AStar

namespace AStar

theorem binadeShift_step (n s b : Nat)
    (h : (s = 0 ∨ 2 ^ 23 ≤ n / 2 ^ s) ∧ n / 2 ^ (s + (b + b)) < 2 ^ 23) :
    ((if 2 ^ 23 ≤ n / 2 ^ (s + b) then s + b else s) = 0 ∨
      2 ^ 23 ≤ n / 2 ^ (if 2 ^ 23 ≤ n / 2 ^ (s + b) then s + b else s)) ∧
    n / 2 ^ ((if 2 ^ 23 ≤ n / 2 ^ (s + b) then s + b else s) + b) < 2 ^ 23 := by
  by_cases hb : 2 ^ 23 ≤ n / 2 ^ (s + b)
  · rw [if_pos hb]
    refine ⟨Or.inr hb, ?_⟩
    rw [add_assoc]
    exact h.2
  · rw [if_neg hb]
    exact ⟨h.1, not_le.1 hb⟩

/-- What `binadeShift` finds: for `n` below `2^24` no bit is discarded, and otherwise the
24 leading bits of `n` are kept. -/
theorem binadeShift_range (n : Nat) (hn : n < 2 ^ 279) :
    (binadeShift n = 0 ∨ 2 ^ 23 ≤ n / 2 ^ binadeShift n) ∧ n / 2 ^ binadeShift n < 2 ^ 24 := by
  have h0 : ((0 : Nat) = 0 ∨ 2 ^ 23 ≤ n / 2 ^ 0) ∧ n / 2 ^ (0 + (128 + 128)) < 2 ^ 23 := by
    refine ⟨Or.inl rfl, ?_⟩
    rw [Nat.div_lt_iff_lt_mul (by positivity)]
    calc n < 2 ^ 279 := hn
      _ = 2 ^ 23 * 2 ^ (0 + (128 + 128)) := by norm_num
  have h1 := binadeShift_step n _ 128 h0
  have h2 := binadeShift_step n _ 64 h1
  have h3 := binadeShift_step n _ 32 h2
  have h4 := binadeShift_step n _ 16 h3
  have h5 := binadeShift_step n _ 8 h4
  have h6 := binadeShift_step n _ 4 h5
  have h7 := binadeShift_step n _ 2 h6
  have h8 := binadeShift_step n _ 1 (by exact h7)
  have hs : binadeShift n = [128, 64, 32, 16, 8, 4, 2, 1].foldl
      (fun s b => if 2 ^ 23 ≤ n / 2 ^ (s + b) then s + b else s) 0 := rfl
  simp only [List.foldl] at hs
  rw [← hs] at h8
  refine ⟨h8.1, ?_⟩
  have h9 := h8.2
  rw [pow_succ, ← Nat.div_div_eq_div_mul] at h9
  omega

/-- Sample roundings: a tie goes to the even neighbour, the largest finite value is kept,
and half an ulp above it overflows. -/
theorem roundF32_samples :
    roundF32 ((2 ^ 24 + 1 : Nat) : ℚ) = ((((2 ^ 24 : Nat) : ℚ)) : Flt) ∧
    roundF32 ((2 ^ 24 + 3 : Nat) : ℚ) = ((((2 ^ 24 + 4 : Nat) : ℚ)) : Flt) ∧
    roundF32 ((2 ^ 26 : Nat) + 15 / 4) = ((((2 ^ 26 : Nat) : ℚ)) : Flt) ∧
    roundF32 ((2 ^ 128 - 2 ^ 104 : Nat) : ℚ) = ((((2 ^ 128 - 2 ^ 104 : Nat) : ℚ)) : Flt) ∧
    roundF32 ((2 ^ 128 - 2 ^ 103 : Nat) : ℚ) = ⊤ ∧
    sqrt2F32 = (((11863283 / 8388608 : ℚ)) : Flt) := by
  refine ⟨?_, ?_, ?_, ?_, ?_, ?_⟩ <;> with_unfolding_all rfl

end AStar

namespace AStar

/-! ## Searches whose sums are exact in single precision -/

theorem relaxF32_eq_core (a : AStar) (P : OpenQueue) (goal cur : AStarNode)
    (s : SearchState P) (nb : AStarNode) :
    relaxF32 a P goal cur s nb = relaxCore cur (tentativeGF32 a cur s nb)
      (addF32 (tentativeGF32 a cur s nb) (HeuristicF32 a nb goal)) s nb := rfl

theorem relax_eq_core (a : AStar) (P : OpenQueue) (goal cur : AStarNode)
    (s : SearchState P) (nb : AStarNode) :
    relax a P goal cur s nb = relaxCore cur (tentativeG a cur s nb)
      (tentativeG a cur s nb + a.Heuristic nb goal) s nb := rfl

theorem cost_cell_of_inBounds {a : AStar} (hrect : Rect a) {x y : Int}
    (hin : a.InBounds x y = true) :
    ∃ row ∈ a.m_costGrid, ∃ c ∈ row, a.GetTileCost x y = c := by
  obtain ⟨hx, hy, hxw, hyh⟩ := (inBounds_iff a x y).1 hin
  have h1 : y.toNat < a.m_costGrid.length := by
    rw [hrect.2.2.2.2.1]
    omega
  have hrow := List.getElem_mem h1
  have h2 : x.toNat < (a.m_costGrid[y.toNat]).length := by
    rw [hrect.2.2.2.2.2 _ hrow]
    omega
  refine ⟨a.m_costGrid[y.toNat], hrow, (a.m_costGrid[y.toNat])[x.toNat],
    List.getElem_mem h2, ?_⟩
  simp [GetTileCost, hin, cellAt_of_nonneg _ _ _ hx hy, List.getElem?_eq_getElem h1,
    Option.bind, List.getElem?_eq_getElem h2]

theorem getTileCost_dyadic {a : AStar} {goal : AStarNode} {j C H : Nat} (hrect : Rect a)
    (hss : ShortSums a goal j C H) {x y : Int} (hin : a.InBounds x y = true) :
    ∃ k : Nat, 2 ^ j ≤ k ∧ k ≤ C ∧ a.GetTileCost x y = dyadic j k := by
  obtain ⟨row, hrow, c, hc, hg⟩ := cost_cell_of_inBounds hrect hin
  obtain ⟨k, h1, h2, h3⟩ := hss.costs row hrow c hc
  exact ⟨k, h1, h2, hg.trans h3⟩

theorem cells_pos {a : AStar} {x y : Int} (hin : a.InBounds x y = true) :
    1 ≤ a.m_height.toNat * a.m_width.toNat := by
  obtain ⟨hx, hy, hxw, hyh⟩ := (inBounds_iff a x y).1 hin
  have h1 : 1 ≤ a.m_height.toNat := by omega
  have h2 : 1 ≤ a.m_width.toNat := by omega
  exact Nat.mul_le_mul h1 h2

theorem shortSums_exp {a : AStar} {goal : AStarNode} {j C H : Nat} (hrect : Rect a)
    (hss : ShortSums a goal j C H) {x y : Int} (hin : a.InBounds x y = true) :
    j ≤ 149 ∧ C ≤ 2 ^ 24 := by
  obtain ⟨k, h1, h2, _⟩ := getTileCost_dyadic hrect hss hin
  have hc := cells_pos hin
  have hfit := hss.fit
  have hC : C ≤ C * (a.m_height.toNat * a.m_width.toNat) := Nat.le_mul_of_pos_right C hc
  have hC24 : C ≤ 2 ^ 24 := by omega
  refine ⟨?_, hC24⟩
  by_contra hj
  have : 2 ^ 25 ≤ 2 ^ j := Nat.pow_le_pow_right (by norm_num) (by omega)
  have h25 : (2 : Nat) ^ 24 < 2 ^ 25 := by norm_num
  omega

theorem one_le_dyadic {j k : Nat} (h : 2 ^ j ≤ k) : (1 : Flt) ≤ dyadic j k := by
  unfold dyadic
  have hp : (0 : ℚ) < ((2 ^ j : Nat) : ℚ) := by positivity
  have : (1 : ℚ) ≤ (k : ℚ) / ((2 ^ j : Nat) : ℚ) := by
    rw [le_div_iff₀ hp, one_mul]
    exact_mod_cast h
  exact_mod_cast this

theorem costsAtLeastOne_of_shortSums {a : AStar} {goal : AStarNode} {j C H : Nat}
    (hss : ShortSums a goal j C H) : CostsAtLeastOne a := by
  intro row hrow c hc
  obtain ⟨k, h1, _, h3⟩ := hss.costs row hrow c hc
  rw [h3]
  exact one_le_dyadic h1

theorem routeCost_dyadic {a : AStar} {goal : AStarNode} {j C H : Nat} (hrect : Rect a)
    (hdiag : a.m_allowDiagonal = false) (hss : ShortSums a goal j C H) {start : AStarNode} :
    ∀ (q : List AStarNode) (t : AStarNode), IsRoute a start t q →
      ∃ m : Nat, m ≤ C * (q.length - 1) ∧ routeCost a q = dyadic j m := by
  apply isRoute_induction
  · exact ⟨0, by simp, by simp [routeCost, dyadic_zero]⟩
  · intro u v q hr ih hstep
    obtain ⟨m, hm, hq⟩ := ih
    obtain ⟨k, _, hk, hc⟩ := getTileCost_dyadic hrect hss (inBounds_of_walkable hstep.2)
    refine ⟨m + k, ?_, ?_⟩
    · have hlen : 1 ≤ q.length := List.length_pos.2 (isRoute_ne_nil hr)
      rw [List.length_append, List.length_singleton, Nat.add_sub_cancel]
      calc m + k ≤ C * (q.length - 1) + C := Nat.add_le_add hm hk
        _ = C * (q.length - 1 + 1) := by ring
        _ = C * q.length := by rw [Nat.sub_add_cancel hlen]
    · rw [routeCost_snoc a v q u hr.2.1, hq, stepCost_orthogonal hdiag hstep, hc, dyadic_add]

theorem heuristicF32_eq {a : AStar} {goal : AStarNode} {j C H : Nat}
    (hss : ShortSums a goal j C H) (hj : j ≤ 149) {n : AStarNode}
    (hin : a.InBounds n.x n.y = true) :
    ∃ h : Nat, h ≤ H ∧ a.Heuristic n goal = dyadic j (h * 2 ^ j) ∧
      HeuristicF32 a n goal = a.Heuristic n goal := by
  have hd := hss.dist n.x n.y hin
  have hfit := hss.fit
  have hH : (Int.natAbs (n.x - goal.x) + Int.natAbs (n.y - goal.y)) * 2 ^ j ≤ 2 ^ 24 := by
    have := Nat.mul_le_mul_right (2 ^ j) hd
    omega
  have he : a.Heuristic n goal
      = dyadic j ((Int.natAbs (n.x - goal.x) + Int.natAbs (n.y - goal.y)) * 2 ^ j) := by
    rw [dyadic_natCast]
    rfl
  refine ⟨_, hd, he, ?_⟩
  unfold HeuristicF32
  rw [he]
  exact toF32_dyadic _ _ hj hH

/-- While the sums are short, one relaxation in single precision is the exact one. -/
theorem relaxF32_eq {a : AStar} {P : OpenQueue} {start goal cur nb : AStarNode}
    {j C H : Nat} (hrect : Rect a) (hdiag : a.m_allowDiagonal = false)
    (hss : ShortSums a goal j C H) {rest : List AStarNode} {s : SearchState P}
    (h : Inv a P start goal cur (nb :: rest) s)
    (hcur : cellAt s.closed cur.x cur.y = some true)
    (hnb : nb ∈ a.GetNeighbors cur) :
    relaxF32 a P goal cur s nb = relax a P goal cur s nb := by
  have hnbin := inBounds_of_mem_getNeighbors hnb
  obtain ⟨hj, hC⟩ := shortSums_exp hrect hss hnbin
  have hfit := hss.fit
  have hstep := (mem_getNeighbors a cur nb).1 hnb
  obtain ⟨ch, hchain, -, -, hlen⟩ := h.chain cur (h.closed_g cur hcur)
  rw [if_pos hcur] at hlen
  obtain ⟨hroute, hg⟩ := chain_route h ch cur hchain
  obtain ⟨m, hm, hrc⟩ := routeCost_dyadic hrect hdiag hss _ _ hroute
  rw [hrc] at hg
  have hm' : m ≤ C * ch.length := by
    simpa using hm
  obtain ⟨k, _, hk, hc⟩ := getTileCost_dyadic hrect hss hnbin
  have hmk : m + k ≤ C * (a.m_height.toNat * a.m_width.toNat) := by
    calc m + k ≤ C * ch.length + C := Nat.add_le_add hm' hk
      _ = C * (ch.length + 1) := by ring
      _ ≤ C * (a.m_height.toNat * a.m_width.toNat) := Nat.mul_le_mul_left C (by omega)
  have hadj := hstep.1
  simp only [Adjacent, hdiag, Bool.false_eq_true, if_false, dirs4, List.mem_cons,
    Prod.mk.injEq, List.mem_singleton, List.not_mem_nil, or_false] at hadj
  have hno : ¬ (nb.x ≠ cur.x ∧ nb.y ≠ cur.y) := by omega
  have ht : tentativeG a cur s nb = dyadic j (m + k) := by
    simp only [tentativeG, hg, Option.getD_some, if_neg hno, mul_one, hc, dyadic_add]
  have htF : tentativeGF32 a cur s nb = dyadic j (m + k) := by
    simp only [tentativeGF32, hg, Option.getD_some, if_neg hno, mulF32, addF32, mul_one, hc]
    rw [toF32_dyadic j k hj (by omega), dyadic_add, toF32_dyadic j (m + k) hj (by omega)]
  obtain ⟨hh, hhH, hhe, hhF⟩ := heuristicF32_eq hss hj hnbin
  have hf : addF32 (tentativeGF32 a cur s nb) (HeuristicF32 a nb goal)
      = tentativeG a cur s nb + a.Heuristic nb goal := by
    rw [htF, ht, hhF, hhe, addF32, dyadic_add]
    refine toF32_dyadic _ _ hj ?_
    have := Nat.mul_le_mul_right (2 ^ j) hhH
    omega
  rw [relaxF32_eq_core, relax_eq_core, hf, htF, ht]

theorem relaxAllF32_eq {a : AStar} {P : OpenQueue} (hP : P.Lawful)
    {start goal cur : AStarNode} {j C H : Nat} (hrect : Rect a)
    (hdiag : a.m_allowDiagonal = false) (hss : ShortSums a goal j C H) :
    ∀ (l : List AStarNode) (s : SearchState P),
      Inv a P start goal cur l s → cellAt s.closed cur.x cur.y = some true →
      (∀ v ∈ l, v ∈ a.GetNeighbors cur) →
      relaxAllF32 a P goal cur l s = relaxAll a P goal cur l s := by
  intro l
  induction l with
  | nil => intro s _ _ _; rfl
  | cons nb rest ih =>
    intro s hI hcur hl
    have hnb := hl nb (List.mem_cons_self _ _)
    obtain ⟨s', hs', hI', hcl, -, -⟩ := relax_inv hP hI hcur hnb
    simp only [relaxAllF32, relaxAll, relaxF32_eq hrect hdiag hss hI hcur hnb, hs']
    exact ih s' hI' (by rw [hcl]; exact hcur) (fun v hv => hl v (List.mem_cons_of_mem _ hv))

theorem loopBodyF32_eq {a : AStar} {P : OpenQueue} (hP : P.Lawful)
    {start goal : AStarNode} {j C H : Nat} (hrect : Rect a)
    (hdiag : a.m_allowDiagonal = false) (hss : ShortSums a goal j C H) {rfuel : Nat}
    {s : SearchState P} (hI : Inv a P start goal start [] s) :
    loopBodyF32 a P goal rfuel s = loopBody a P goal rfuel s := by
  cases hpop : P.pop s.openQ with
  | none => simp only [loopBodyF32, loopBody, hpop]
  | some tq =>
    obtain ⟨top, q'⟩ := tq
    simp only [loopBodyF32, loopBody, hpop]
    cases hc : cellAt s.closed top.node.x top.node.y with
    | none => rfl
    | some b =>
      cases b with
      | true => rfl
      | false =>
        simp only []
        by_cases hgoal : top.node = goal
        · rw [if_pos hgoal, if_pos hgoal]
        · rw [if_neg hgoal, if_neg hgoal]
          have hmid := inv_close hP hI hpop hc hgoal
          rw [relaxAllF32_eq hP hrect hdiag hss _ _ hmid
            (closed_setCell_self s.closed top.node hc) (fun v hv => hv)]

theorem searchLoopF32_eq {a : AStar} {P : OpenQueue} (hP : P.Lawful)
    {start goal : AStarNode} {j C H : Nat} (hrect : Rect a)
    (hdiag : a.m_allowDiagonal = false) (hss : ShortSums a goal j C H) {rfuel : Nat} :
    ∀ (fuel : Nat) (s : SearchState P), Inv a P start goal start [] s →
      searchLoopF32 a P goal rfuel fuel s = searchLoop a P goal rfuel fuel s := by
  intro fuel
  induction fuel with
  | zero => intro s _; rfl
  | succ n ih =>
    intro s hI
    simp only [searchLoopF32, searchLoop, loopBodyF32_eq hP hrect hdiag hss hI]
    cases hb : loopBody a P goal rfuel s with
    | done o => rfl
    | next s' => exact ih s' (loopBody_next hP hI hb).1

theorem initStateF32_eq {a : AStar} (P : OpenQueue) {start goal : AStarNode} {j C H : Nat}
    (hrect : Rect a) (hss : ShortSums a goal j C H)
    (hs : a.InBounds start.x start.y = true) :
    initStateF32 a P start goal = initState a P start goal := by
  obtain ⟨hj, _⟩ := shortSums_exp hrect hss hs
  obtain ⟨_, _, _, hF⟩ := heuristicF32_eq hss hj hs
  simp only [initStateF32, initState, hF]

/-- While the sums are short, the search in single precision is the exact search. -/
theorem findPathF32_eq {a : AStar} {P : OpenQueue} (hP : P.Lawful)
    {start goal : AStarNode} {j C H : Nat} (hrect : Rect a)
    (hdiag : a.m_allowDiagonal = false) (hss : ShortSums a goal j C H)
    (hs : a.InBounds start.x start.y = true) :
    a.FindPathF32 P start goal = a.FindPath P start goal := by
  unfold FindPathF32 FindPath FindPathFuelF32 FindPathFuel
  rw [initStateF32_eq P hrect hss hs]
  exact searchLoopF32_eq hP hrect hdiag hss _ _ (inv_init hP start goal hs)

end AStar

namespace AStar

/-! ## A single-precision search without ties does not depend on the queue -/

theorem relaxCore_sim {P : OpenQueue} (hP : P.Lawful) {cur : AStarNode}
    {s : SearchState P} {sl : SearchState listQueue} (h : Sim s sl) (t f : Flt)
    (nb : AStarNode) :
    (relaxCore cur t f s nb = none ∧ relaxCore cur t f sl nb = none) ∨
    ∃ s' sl', relaxCore cur t f s nb = some s' ∧
      relaxCore cur t f sl nb = some sl' ∧ Sim s' sl' := by
  unfold relaxCore
  rw [h.closed, h.g]
  cases hc : cellAt sl.closed nb.x nb.y with
  | none => exact Or.inl ⟨rfl, rfl⟩
  | some b =>
    right
    cases b with
    | true => exact ⟨s, sl, rfl, rfl, h⟩
    | false =>
      simp only []
      by_cases hcond : (sl.gScore nb).isNone ∨ t < (sl.gScore nb).getD 0
      · rw [if_pos hcond, if_pos hcond]
        refine ⟨_, _, rfl, rfl, ?_, rfl, ?_, rfl⟩
        · exact (hP.contents_push _ _).trans (List.Perm.cons _ h.perm)
        · funext k
          simp only [h.cf]
      · rw [if_neg hcond, if_neg hcond]
        exact ⟨s, sl, rfl, rfl, h⟩

theorem relaxF32_sim {a : AStar} {P : OpenQueue} (hP : P.Lawful) {goal cur : AStarNode}
    {s : SearchState P} {sl : SearchState listQueue} (h : Sim s sl) (nb : AStarNode) :
    (relaxF32 a P goal cur s nb = none ∧ relaxF32 a listQueue goal cur sl nb = none) ∨
    ∃ s' sl', relaxF32 a P goal cur s nb = some s' ∧
      relaxF32 a listQueue goal cur sl nb = some sl' ∧ Sim s' sl' := by
  have ht : tentativeGF32 a cur s nb = tentativeGF32 a cur sl nb := by
    simp only [tentativeGF32, h.g]
  rw [relaxF32_eq_core, relaxF32_eq_core, ht]
  exact relaxCore_sim hP h _ _ nb

theorem relaxAllF32_sim {a : AStar} {P : OpenQueue} (hP : P.Lawful) {goal cur : AStarNode} :
    ∀ (l : List AStarNode) (s : SearchState P) (sl : SearchState listQueue), Sim s sl →
      (relaxAllF32 a P goal cur l s = none ∧ relaxAllF32 a listQueue goal cur l sl = none) ∨
      ∃ s' sl', relaxAllF32 a P goal cur l s = some s' ∧
        relaxAllF32 a listQueue goal cur l sl = some sl' ∧ Sim s' sl' := by
  intro l
  induction l with
  | nil =>
    intro s sl h
    exact Or.inr ⟨s, sl, rfl, rfl, h⟩
  | cons nb rest ih =>
    intro s sl h
    rcases @relaxF32_sim a P hP goal cur s sl h nb with
      ⟨h1, h2⟩ | ⟨s1, sl1, h1, h2, hs⟩
    · left
      simp only [relaxAllF32, h1, h2, and_self]
    · rcases ih s1 sl1 hs with ⟨h3, h4⟩ | ⟨s2, sl2, h3, h4, hs2⟩
      · left
        simp only [relaxAllF32, h1, h2, h3, h4, and_self]
      · right
        exact ⟨s2, sl2, by simp only [relaxAllF32, h1, h3],
          by simp only [relaxAllF32, h2, h4], hs2⟩

theorem loopBodyF32_pop_none (a : AStar) (P : OpenQueue) (goal : AStarNode) (rfuel : Nat)
    (s : SearchState P) (h : P.pop s.openQ = none) :
    loopBodyF32 a P goal rfuel s = LoopStep.done (Outcome.returned []) := by
  simp only [loopBodyF32, h]

theorem loopBodyF32_pop_some (a : AStar) (P : OpenQueue) (goal : AStarNode) (rfuel : Nat)
    (s : SearchState P) (top : NodeRecord) (q' : P.Q) (h : P.pop s.openQ = some (top, q')) :
    loopBodyF32 a P goal rfuel s =
      match cellAt s.closed top.node.x top.node.y with
      | none => LoopStep.done Outcome.outOfRange
      | some true => LoopStep.next { s with openQ := q' }
      | some false =>
        if top.node = goal then
          match ReconstructPath rfuel s.cameFrom top.node with
          | none => LoopStep.done Outcome.outOfFuel
          | some path => LoopStep.done (Outcome.returned path)
        else
          match relaxAllF32 a P goal top.node (a.GetNeighbors top.node)
              { s with openQ := q', closed := setCell s.closed top.node.x top.node.y true } with
          | none => LoopStep.done Outcome.outOfRange
          | some s' => LoopStep.next s' := by
  simp only [loopBodyF32, h]

theorem loopBodyF32_sim {a : AStar} {P : OpenQueue} (hP : P.Lawful) {goal : AStarNode}
    {rfuel : Nat} {s : SearchState P} {sl : SearchState listQueue} (h : Sim s sl)
    (htf : tieFree sl.openQ = true) :
    SimStep (loopBodyF32 a P goal rfuel s) (loopBodyF32 a listQueue goal rfuel sl) := by
  obtain ⟨q, g, cf, cl⟩ := s
  obtain ⟨ql, gl, cfl, cll⟩ := sl
  obtain ⟨hperm, hg, hcf, hcl⟩ := h
  simp only [] at hperm hg hcf hcl htf
  subst hg
  subst hcf
  subst hcl
  cases hpl : popMin ql with
  | none =>
    have hnil : ql = [] := (popMin_none _).1 hpl
    have hnil' : P.contents q = [] := by
      rw [hnil] at hperm
      exact List.Perm.eq_nil hperm
    rw [loopBodyF32_pop_none a P goal rfuel _ ((hP.pop_none _).2 hnil'),
      loopBodyF32_pop_none a listQueue goal rfuel ⟨ql, g, cf, cl⟩ hpl]
    rfl
  | some ml =>
    obtain ⟨m, l'⟩ := ml
    have hall : ∀ x ∈ l', m.fScore < x.fScore := by
      simp only [tieFree, hpl, List.all_eq_true, decide_eq_true_eq] at htf
      exact htf
    obtain ⟨hpermL, _⟩ := popMin_some _ _ _ hpl
    cases hpop : P.pop q with
    | none =>
      exfalso
      have hnil := (hP.pop_none _).1 hpop
      rw [hnil] at hperm
      have hl : ql = [] := List.Perm.eq_nil hperm.symm
      rw [hl] at hpl
      simp [popMin] at hpl
    | some tq =>
      obtain ⟨top, q'⟩ := tq
      obtain ⟨hpermP, hmin⟩ := hP.pop_some _ _ _ hpop
      have htopmem : top ∈ m :: l' :=
        hpermL.mem_iff.1 (hperm.mem_iff.1 (hpermP.mem_iff.2 (List.mem_cons_self _ _)))
      have hmmem : m ∈ P.contents q :=
        hperm.mem_iff.2 (hpermL.mem_iff.2 (List.mem_cons_self _ _))
      have htop : top = m := by
        rcases List.mem_cons.1 htopmem with h1 | h1
        · exact h1
        · exact absurd (hall top h1) (hmin m hmmem)
      subst htop
      have hq : (P.contents q').Perm l' :=
        List.Perm.cons_inv ((hpermP.symm.trans hperm).trans hpermL)
      rw [loopBodyF32_pop_some a P goal rfuel _ top q' hpop,
        loopBodyF32_pop_some a listQueue goal rfuel ⟨ql, g, cf, cl⟩ top l' hpl]
      simp only []
      cases hc : cellAt cl top.node.x top.node.y with
      | none => rfl
      | some b =>
        cases b with
        | true =>
          exact ⟨hq, rfl, rfl, rfl⟩
        | false =>
          simp only []
          by_cases hgoal : top.node = goal
          · rw [if_pos hgoal, if_pos hgoal]
            cases ReconstructPath rfuel cf top.node <;> rfl
          · rw [if_neg hgoal, if_neg hgoal]
            have hmid : Sim (P := P) ⟨q', g, cf, setCell cl top.node.x top.node.y true⟩
                ⟨l', g, cf, setCell cl top.node.x top.node.y true⟩ := ⟨hq, rfl, rfl, rfl⟩
            rcases @relaxAllF32_sim a P hP goal top.node (a.GetNeighbors top.node) _ _ hmid
              with ⟨h1, h2⟩ | ⟨s2, sl2, h1, h2, hs⟩
            · rw [h1, h2]
              rfl
            · rw [h1, h2]
              exact hs

theorem replayF32_sim {a : AStar} {P : OpenQueue} (hP : P.Lawful) {goal : AStarNode}
    {rfuel : Nat} :
    ∀ (fuel : Nat) (s : SearchState P) (sl : SearchState listQueue) (o : Outcome),
      Sim s sl → replayLoopF32 a goal rfuel fuel sl = some o →
      searchLoopF32 a P goal rfuel fuel s = o := by
  intro fuel
  induction fuel with
  | zero =>
    intro s sl o _ h
    simp [replayLoopF32] at h
  | succ k ih =>
    intro s sl o hs h
    simp only [replayLoopF32] at h
    by_cases htf : tieFree sl.openQ = true
    · rw [if_pos htf] at h
      have hstep := @loopBodyF32_sim a P hP goal rfuel s sl hs htf
      cases hbl : loopBodyF32 a listQueue goal rfuel sl with
      | done o' =>
        rw [hbl] at h hstep
        simp only [Option.some.injEq] at h
        cases hbp : loopBodyF32 a P goal rfuel s with
        | done o'' =>
          rw [hbp] at hstep
          simp only [searchLoopF32, hbp]
          exact (show o'' = o' from hstep).trans h
        | next s' =>
          rw [hbp] at hstep
          exact absurd hstep (by simp [SimStep])
      | next sl' =>
        rw [hbl] at h hstep
        cases hbp : loopBodyF32 a P goal rfuel s with
        | done o'' =>
          rw [hbp] at hstep
          exact absurd hstep (by simp [SimStep])
        | next s' =>
          rw [hbp] at hstep
          simp only [searchLoopF32, hbp]
          exact ih s' sl' o hstep h
    · rw [if_neg htf] at h
      exact absurd h (by simp)

theorem initF32_sim {a : AStar} {P : OpenQueue} (hP : P.Lawful) (start goal : AStarNode) :
    Sim (initStateF32 a P start goal) (initStateF32 a listQueue start goal) where
  perm := by
    show (P.contents (P.push P.empty _)).Perm
      [(⟨start, HeuristicF32 a start goal⟩ : NodeRecord)]
    have := hP.contents_push P.empty ⟨start, HeuristicF32 a start goal⟩
    rw [hP.contents_empty] at this
    exact this
  g := rfl
  cf := rfl
  closed := rfl

/-- A run of `FindPathF32` on the list queue that meets no ties is the run on every lawful
priority queue. -/
theorem findPathF32_of_tieFree {a : AStar} {P : OpenQueue} (hP : P.Lawful)
    {start goal : AStarNode} {o : Outcome} (h : FindPathTieFreeF32 a start goal = some o) :
    a.FindPathF32 P start goal = o :=
  replayF32_sim hP (fuelBound a) _ _ o (initF32_sim hP start goal) h

end AStar

namespace AStar

/-! ## The claims about `FindPath` -/

/-- The search without rounding.  With diagonal movement disabled, on a rectangular grid
whose costs are all at least 1, from an in-bounds start: a non-empty path returned by
`FindPath` is a route from `start` to `goal` (4-adjacent steps, every tile after the first
walkable), and the sum of the stored costs of its tiles after the first is at most that of
every such route, so it equals the minimum. -/
theorem exact_four_direction_path_is_cheapest (a : AStar) (P : OpenQueue) (hP : P.Lawful)
    (_hrect : Rect a) (hdiag : a.m_allowDiagonal = false) (hcost : CostsAtLeastOne a)
    (start goal : AStarNode) (hs : a.InBounds start.x start.y = true)
    (p : List AStarNode) (hret : a.FindPath P start goal = Outcome.returned p)
    (hne : p ≠ []) :
    IsRoute a start goal p ∧
      ∀ q, IsRoute a start goal q → tileCostSum a p ≤ tileCostSum a q := by
  rcases findPath_cases hP start goal hs with ⟨h0, _⟩ | ⟨p', hp', hroute, _, hopt⟩
  · rw [hret] at h0
    simp only [Outcome.returned.injEq] at h0
    exact absurd h0 hne
  · rw [hret] at hp'
    simp only [Outcome.returned.injEq] at hp'
    subst hp'
    refine ⟨hroute, ?_⟩
    intro q hq
    rw [← routeCost_eq_tileCostSum hdiag p goal hroute,
      ← routeCost_eq_tileCostSum hdiag q goal hq]
    exact hopt (consistent_of_orthogonal hdiag hcost goal) q hq

/-- C1, counterexample.  On `roundingGrid` (rectangular, four directions, costs at least
1), for every lawful priority queue, `FindPath((0,0), (3,0))` in single precision returns
`(0,0),(1,0),(1,1),(2,1),(3,1),(3,0)`, whose tiles after the first cost
`2^26 + 3.75 + 3.75 + 3.75 + 1`, although the route `(0,0),(1,0),(2,0),(3,0)` costs
`2^26 + 8 + 1`: beside `2^26` a `float` cannot hold the addend `3.75`, so the lower row
looks free to the search. -/
theorem C1_counterexample :
    Rect roundingGrid ∧ roundingGrid.m_allowDiagonal = false ∧
    CostsAtLeastOne roundingGrid ∧ roundingGrid.InBounds 0 0 = true ∧
    (∀ P : OpenQueue, P.Lawful → roundingGrid.FindPathF32 P ⟨0, 0⟩ ⟨3, 0⟩
      = Outcome.returned [⟨0, 0⟩, ⟨1, 0⟩, ⟨1, 1⟩, ⟨2, 1⟩, ⟨3, 1⟩, ⟨3, 0⟩]) ∧
    IsRoute roundingGrid ⟨0, 0⟩ ⟨3, 0⟩ [⟨0, 0⟩, ⟨1, 0⟩, ⟨2, 0⟩, ⟨3, 0⟩] ∧
    tileCostSum roundingGrid [⟨0, 0⟩, ⟨1, 0⟩, ⟨2, 0⟩, ⟨3, 0⟩]
      < tileCostSum roundingGrid [⟨0, 0⟩, ⟨1, 0⟩, ⟨1, 1⟩, ⟨2, 1⟩, ⟨3, 1⟩, ⟨3, 0⟩] :=
  ⟨by decide, rfl, by with_unfolding_all decide, by decide,
    fun _ hP => findPathF32_of_tieFree hP (by with_unfolding_all decide),
    by decide, by with_unfolding_all decide⟩

theorem costlyGrid_costs :
    ∀ row ∈ costlyGrid.m_costGrid, ∀ c ∈ row,
      ∃ k : Nat, 2 ^ 0 ≤ k ∧ k ≤ 2 ∧ c = dyadic 0 k := by
  have h1 : (1 : Flt) = dyadic 0 1 := by with_unfolding_all rfl
  have h2 : (2 : Flt) = dyadic 0 2 := by with_unfolding_all rfl
  intro row hrow c hc
  simp only [costlyGrid, List.mem_cons, List.mem_singleton, List.not_mem_nil, or_false]
    at hrow
  rcases hrow with rfl | rfl <;>
    simp only [List.mem_cons, List.mem_singleton, List.not_mem_nil, or_false] at hc
  · rcases hc with rfl | rfl | rfl
    · exact ⟨1, by norm_num, by norm_num, h1⟩
    · exact ⟨2, by norm_num, by norm_num, h2⟩
    · exact ⟨1, by norm_num, by norm_num, h1⟩
  · rcases hc with rfl | rfl | rfl <;> exact ⟨1, by norm_num, by norm_num, h1⟩

theorem costlyGrid_dist (x y : Int) (h : costlyGrid.InBounds x y = true) :
    Int.natAbs (x - (⟨2, 0⟩ : AStarNode).x) + Int.natAbs (y - (⟨2, 0⟩ : AStarNode).y) ≤ 3 := by
  obtain ⟨hx, hy, hxw, hyh⟩ := (inBounds_iff costlyGrid x y).1 h
  have hw : costlyGrid.m_width = 3 := rfl
  have hh : costlyGrid.m_height = 2 := rfl
  simp only []
  omega

/-- C1, amended.  With diagonal movement disabled, on a rectangular grid whose stored
costs are all of the form `k / 2^j` with `2^j ≤ k ≤ C` (so every cost is at least 1 and
at most `C / 2^j`), from an in-bounds start, when every tile of the grid is within
Manhattan distance `H` of `goal` and `C * (height * width) + H * 2^j ≤ 2^24` (so every
sum that the search forms fits the 24-bit significand of a `float`): a non-empty path
returned by `FindPath` in single precision is a route from `start` to `goal`, and the
exact sum of the stored costs of its tiles after the first is at most that of every such
route, so it equals the minimum. -/
theorem C1_short_sums_path_is_cheapest (a : AStar) (P : OpenQueue) (hP : P.Lawful)
    (hrect : Rect a) (hdiag : a.m_allowDiagonal = false) (j C H : Nat)
    (hcosts : ∀ row ∈ a.m_costGrid, ∀ c ∈ row,
      ∃ k : Nat, 2 ^ j ≤ k ∧ k ≤ C ∧ c = dyadic j k)
    (start goal : AStarNode) (hs : a.InBounds start.x start.y = true)
    (hdist : ∀ x y, a.InBounds x y = true →
      Int.natAbs (x - goal.x) + Int.natAbs (y - goal.y) ≤ H)
    (hfit : C * (a.m_height.toNat * a.m_width.toNat) + H * 2 ^ j ≤ 2 ^ 24)
    (p : List AStarNode) (hret : a.FindPathF32 P start goal = Outcome.returned p)
    (hne : p ≠ []) :
    IsRoute a start goal p ∧
      ∀ q, IsRoute a start goal q → tileCostSum a p ≤ tileCostSum a q := by
  have hss : ShortSums a goal j C H := ⟨hcosts, hdist, hfit⟩
  rw [findPathF32_eq hP hrect hdiag hss hs] at hret
  exact exact_four_direction_path_is_cheapest a P hP hrect hdiag
    (costsAtLeastOne_of_shortSums hss) start goal hs p hret hne

/-- Witness for the amended C1: the cheapest four-direction path across `costlyGrid`,
whose costs are the whole numbers 1 and 2. -/
theorem C1_witness :
    Rect costlyGrid ∧ costlyGrid.m_allowDiagonal = false ∧
    costlyGrid.InBounds 0 0 = true ∧
    2 * (costlyGrid.m_height.toNat * costlyGrid.m_width.toNat) + 3 * 2 ^ 0 ≤ 2 ^ 24 ∧
    costlyGrid.FindPathF32 listQueue ⟨0, 0⟩ ⟨2, 0⟩
      = Outcome.returned [⟨0, 0⟩, ⟨1, 0⟩, ⟨2, 0⟩] ∧
    (IsRoute costlyGrid ⟨0, 0⟩ ⟨2, 0⟩ [⟨0, 0⟩, ⟨1, 0⟩, ⟨2, 0⟩] ∧
      ∀ q, IsRoute costlyGrid ⟨0, 0⟩ ⟨2, 0⟩ q →
        tileCostSum costlyGrid [⟨0, 0⟩, ⟨1, 0⟩, ⟨2, 0⟩] ≤ tileCostSum costlyGrid q) :=
  ⟨by decide, rfl, by decide, by decide, by with_unfolding_all decide,
    C1_short_sums_path_is_cheapest costlyGrid listQueue listQueue_lawful (by decide) rfl
      0 2 3 costlyGrid_costs ⟨0, 0⟩ ⟨2, 0⟩ (by decide) costlyGrid_dist (by decide) _
      (by with_unfolding_all decide) (by simp)⟩

/-- C2, at the failing input.  With diagonal movement enabled on the 3 x 2 grid
`costlyGridDiag` (costs at least 1), `FindPath((0,0), (2,0))` returns
`(0,0),(1,0),(2,0)` of cost 3, although the route `(0,0),(1,1),(2,0)` costs
`2 * 1.41421356`: the returned path is not a cheapest one. -/
theorem C2_diagonal_path_not_cheapest :
    Rect costlyGridDiag ∧ costlyGridDiag.m_allowDiagonal = true ∧
    CostsAtLeastOne costlyGridDiag ∧ costlyGridDiag.InBounds 0 0 = true ∧
    costlyGridDiag.FindPath listQueue ⟨0, 0⟩ ⟨2, 0⟩
      = Outcome.returned [⟨0, 0⟩, ⟨1, 0⟩, ⟨2, 0⟩] ∧
    IsRoute costlyGridDiag ⟨0, 0⟩ ⟨2, 0⟩ [⟨0, 0⟩, ⟨1, 1⟩, ⟨2, 0⟩] ∧
    routeCost costlyGridDiag [⟨0, 0⟩, ⟨1, 1⟩, ⟨2, 0⟩]
      < routeCost costlyGridDiag [⟨0, 0⟩, ⟨1, 0⟩, ⟨2, 0⟩] :=
  ⟨by decide, rfl, by with_unfolding_all decide, by decide, by with_unfolding_all decide,
    by decide, by with_unfolding_all decide⟩

/-- C3. On a rectangular grid, with either setting of the diagonal flag, from an in-bounds
start: a non-empty sequence returned by `FindPath` begins with `start`, ends with `goal`,
and each consecutive pair differs by one of the active directions (`dirs4`, or `dirs8`
when diagonal movement is enabled). -/
theorem C3_path_joins_start_to_goal_by_active_steps (a : AStar) (P : OpenQueue)
    (hP : P.Lawful) (_hrect : Rect a) (start goal : AStarNode)
    (hs : a.InBounds start.x start.y = true) (p : List AStarNode)
    (hret : a.FindPath P start goal = Outcome.returned p) (hne : p ≠ []) :
    p.head? = some start ∧ p.getLast? = some goal ∧ List.Chain' (Adjacent a) p := by
  rcases findPath_cases hP start goal hs with ⟨h0, _⟩ | ⟨p', hp', hroute, _, _⟩
  · rw [hret] at h0
    simp only [Outcome.returned.injEq] at h0
    exact absurd h0 hne
  · rw [hret] at hp'
    simp only [Outcome.returned.injEq] at hp'
    subst hp'
    exact ⟨hroute.1, hroute.2.1, hroute.2.2.imp (fun _ _ h => h.1)⟩

/-- Witness for C3: a path with a diagonal step across `costlyGridDiag`. -/
theorem C3_witness :
    Rect costlyGridDiag ∧ costlyGridDiag.InBounds 0 0 = true ∧
    costlyGridDiag.FindPath listQueue ⟨0, 0⟩ ⟨2, 1⟩
      = Outcome.returned [⟨0, 0⟩, ⟨1, 1⟩, ⟨2, 1⟩] ∧
    (([⟨0, 0⟩, ⟨1, 1⟩, ⟨2, 1⟩] : List AStarNode).head? = some ⟨0, 0⟩ ∧
      ([⟨0, 0⟩, ⟨1, 1⟩, ⟨2, 1⟩] : List AStarNode).getLast? = some ⟨2, 1⟩ ∧
      List.Chain' (Adjacent costlyGridDiag) [⟨0, 0⟩, ⟨1, 1⟩, ⟨2, 1⟩]) :=
  ⟨by decide, by decide, by with_unfolding_all decide,
    C3_path_joins_start_to_goal_by_active_steps costlyGridDiag listQueue listQueue_lawful
      (by decide) ⟨0, 0⟩ ⟨2, 1⟩ (by decide) _ (by with_unfolding_all decide) (by simp)⟩

/-- C4. On a rectangular grid, from an in-bounds start: every tile of a non-empty
`FindPath` result other than its first tile satisfies `IsWalkableCell`, hence is in
bounds and marked walkable. -/
theorem C4_tiles_after_first_are_walkable (a : AStar) (P : OpenQueue) (hP : P.Lawful)
    (_hrect : Rect a) (start goal : AStarNode) (hs : a.InBounds start.x start.y = true)
    (p : List AStarNode) (hret : a.FindPath P start goal = Outcome.returned p)
    (hne : p ≠ []) :
    ∀ v ∈ p.tail, a.IsWalkableCell v.x v.y = true ∧ a.InBounds v.x v.y = true := by
  rcases findPath_cases hP start goal hs with ⟨h0, _⟩ | ⟨p', hp', hroute, _, _⟩
  · rw [hret] at h0
    simp only [Outcome.returned.injEq] at h0
    exact absurd h0 hne
  · rw [hret] at hp'
    simp only [Outcome.returned.injEq] at hp'
    subst hp'
    intro v hv
    obtain ⟨u, hu⟩ := chain'_tail_exists hroute.2.2 v hv
    exact ⟨hu.2, inBounds_of_walkable hu.2⟩

/-- Witness for C4: the path out of the blocked start of `blockedStartGrid`. -/
theorem C4_witness :
    Rect blockedStartGrid ∧ blockedStartGrid.InBounds 0 0 = true ∧
    blockedStartGrid.FindPath listQueue ⟨0, 0⟩ ⟨1, 0⟩ = Outcome.returned [⟨0, 0⟩, ⟨1, 0⟩] ∧
    (∀ v ∈ ([⟨0, 0⟩, ⟨1, 0⟩] : List AStarNode).tail,
      blockedStartGrid.IsWalkableCell v.x v.y = true ∧
        blockedStartGrid.InBounds v.x v.y = true) :=
  ⟨by decide, by decide, by with_unfolding_all decide,
    C4_tiles_after_first_are_walkable blockedStartGrid listQueue listQueue_lawful
      (by decide) ⟨0, 0⟩ ⟨1, 0⟩ (by decide) _ (by with_unfolding_all decide) (by simp)⟩

/-- C5. On a rectangular grid, with either setting of the diagonal flag, from an in-bounds
start: if some route from `start` to `goal` exists (adjacent steps under the active
directions, every tile after the first walkable), `FindPath` returns a non-empty
sequence. -/
theorem C5_search_is_complete (a : AStar) (P : OpenQueue) (hP : P.Lawful)
    (_hrect : Rect a) (start goal : AStarNode) (hs : a.InBounds start.x start.y = true)
    (hroute : ∃ q, IsRoute a start goal q) :
    ∃ p, a.FindPath P start goal = Outcome.returned p ∧ p ≠ [] := by
  rcases findPath_cases hP start goal hs with ⟨_, hno⟩ | ⟨p, hp, hr, _, _⟩
  · exact absurd hroute hno
  · exact ⟨p, hp, isRoute_ne_nil hr⟩

/-- Witness for C5: a route exists in `costlyGrid`, and a path is returned. -/
theorem C5_witness :
    Rect costlyGrid ∧ costlyGrid.InBounds 0 0 = true ∧
    IsRoute costlyGrid ⟨0, 0⟩ ⟨2, 1⟩ [⟨0, 0⟩, ⟨0, 1⟩, ⟨1, 1⟩, ⟨2, 1⟩] ∧
    ∃ p, costlyGrid.FindPath listQueue ⟨0, 0⟩ ⟨2, 1⟩ = Outcome.returned p ∧ p ≠ [] :=
  ⟨by decide, by decide, by decide,
    C5_search_is_complete costlyGrid listQueue listQueue_lawful (by decide) ⟨0, 0⟩ ⟨2, 1⟩
      (by decide) ⟨[⟨0, 0⟩, ⟨0, 1⟩, ⟨1, 1⟩, ⟨2, 1⟩], by decide⟩⟩

/-- C6. On a rectangular grid, with either setting of the diagonal flag, from an in-bounds
start: if no route from `start` to `goal` exists, `FindPath` returns the empty
sequence. -/
theorem C6_no_route_gives_empty (a : AStar) (P : OpenQueue) (hP : P.Lawful)
    (_hrect : Rect a) (start goal : AStarNode) (hs : a.InBounds start.x start.y = true)
    (hnone : ¬ ∃ q, IsRoute a start goal q) :
    a.FindPath P start goal = Outcome.returned [] := by
  rcases findPath_cases hP start goal hs with ⟨h0, _⟩ | ⟨p, _, hr, _, _⟩
  · exact h0
  · exact absurd ⟨p, hr⟩ hnone

/-- In `wallGrid` no route leaves the tile `(0, 0)`. -/
theorem wallGrid_routes (q : List AStarNode) (t : AStarNode)
    (h : IsRoute wallGrid ⟨0, 0⟩ t q) : t = ⟨0, 0⟩ := by
  refine isRoute_induction (C := fun t _ => t = ⟨0, 0⟩) rfl ?_ q t h
  intro u v _ _ hu hstep
  subst hu
  have hmem := (mem_getNeighbors wallGrid ⟨0, 0⟩ v).2 hstep
  have hnil : wallGrid.GetNeighbors ⟨0, 0⟩ = [] := by decide
  rw [hnil] at hmem
  exact absurd hmem (List.not_mem_nil _)

/-- Witness for C6: the goal of `wallGrid` lies behind the blocked cell. -/
theorem C6_witness :
    Rect wallGrid ∧ wallGrid.InBounds 0 0 = true ∧
    (¬ ∃ q, IsRoute wallGrid ⟨0, 0⟩ ⟨2, 0⟩ q) ∧
    wallGrid.FindPath listQueue ⟨0, 0⟩ ⟨2, 0⟩ = Outcome.returned [] :=
  ⟨by decide, by decide,
    fun ⟨q, hq⟩ => absurd (wallGrid_routes q ⟨2, 0⟩ hq) (by decide),
    C6_no_route_gives_empty wallGrid listQueue listQueue_lawful (by decide) ⟨0, 0⟩ ⟨2, 0⟩
      (by decide) (fun ⟨q, hq⟩ => absurd (wallGrid_routes q ⟨2, 0⟩ hq) (by decide))⟩

/-- C7. On a rectangular grid, for every in-bounds tile `s`, walkable or blocked,
`FindPath(s, s)` returns exactly `[s]`, whose summed step cost is 0. -/
theorem C7_start_equals_goal (a : AStar) (P : OpenQueue) (hP : P.Lawful) (_hrect : Rect a)
    (s : AStarNode) (hs : a.InBounds s.x s.y = true) :
    a.FindPath P s s = Outcome.returned [s] ∧ routeCost a [s] = 0 := by
  refine ⟨?_, rfl⟩
  rcases findPath_cases hP s s hs with ⟨_, hno⟩ | ⟨p, hp, hr, hnd, _⟩
  · exact absurd ⟨[s], isRoute_single a s⟩ hno
  · rw [hp, singleton_of_nodup_ends hr.1 hr.2.1 hnd]

/-- Witness for C7: a blocked start that is also the goal. -/
theorem C7_witness :
    Rect blockedStartGrid ∧ blockedStartGrid.InBounds 0 0 = true ∧
    blockedStartGrid.IsWalkableCell 0 0 = false ∧
    (blockedStartGrid.FindPath listQueue ⟨0, 0⟩ ⟨0, 0⟩ = Outcome.returned [⟨0, 0⟩] ∧
      routeCost blockedStartGrid [⟨0, 0⟩] = 0) :=
  ⟨by decide, by decide, by decide,
    C7_start_equals_goal blockedStartGrid listQueue listQueue_lawful (by decide) ⟨0, 0⟩
      (by decide)⟩

/-- C8, counterexample.  In `blockedStartGrid` the start `(0, 0)` is in bounds and
blocked and the goal `(1, 0)` differs from it, yet `FindPath` returns the two-tile path
`(0,0),(1,0)`, not the empty sequence. -/
theorem C8_counterexample :
    Rect blockedStartGrid ∧ blockedStartGrid.InBounds 0 0 = true ∧
    blockedStartGrid.IsWalkableCell 0 0 = false ∧ (⟨1, 0⟩ : AStarNode) ≠ ⟨0, 0⟩ ∧
    blockedStartGrid.FindPath listQueue ⟨0, 0⟩ ⟨1, 0⟩ = Outcome.returned [⟨0, 0⟩, ⟨1, 0⟩] ∧
    blockedStartGrid.FindPath listQueue ⟨0, 0⟩ ⟨1, 0⟩ ≠ Outcome.returned [] :=
  ⟨by decide, by decide, by decide, by decide, by with_unfolding_all decide,
    by with_unfolding_all decide⟩

/-- C8, amended.  On a rectangular grid, for an in-bounds start that is marked blocked and
a goal different from it, `FindPath` returns the empty sequence exactly when no route from
`start` to `goal` exists; the walkability of `start` itself is never tested. -/
theorem C8_blocked_start_empty_iff_no_route (a : AStar) (P : OpenQueue) (hP : P.Lawful)
    (_hrect : Rect a) (start goal : AStarNode) (hs : a.InBounds start.x start.y = true)
    (_hblocked : a.IsWalkableCell start.x start.y = false) (_hne : goal ≠ start) :
    a.FindPath P start goal = Outcome.returned [] ↔ ¬ ∃ q, IsRoute a start goal q := by
  rcases findPath_cases hP start goal hs with ⟨h0, hno⟩ | ⟨p, hp, hr, _, _⟩
  · exact ⟨fun _ => hno, fun _ => h0⟩
  · constructor
    · intro h
      rw [hp] at h
      simp only [Outcome.returned.injEq] at h
      exact absurd h (isRoute_ne_nil hr)
    · intro h
      exact absurd ⟨p, hr⟩ h

/-- Witness for the amended C8 on `blockedStartGrid`. -/
theorem C8_witness :
    Rect blockedStartGrid ∧ blockedStartGrid.InBounds 0 0 = true ∧
    blockedStartGrid.IsWalkableCell 0 0 = false ∧ (⟨1, 0⟩ : AStarNode) ≠ ⟨0, 0⟩ ∧
    (blockedStartGrid.FindPath listQueue ⟨0, 0⟩ ⟨1, 0⟩ = Outcome.returned [] ↔
      ¬ ∃ q, IsRoute blockedStartGrid ⟨0, 0⟩ ⟨1, 0⟩ q) :=
  ⟨by decide, by decide, by decide, by decide,
    C8_blocked_start_empty_iff_no_route blockedStartGrid listQueue listQueue_lawful
      (by decide) ⟨0, 0⟩ ⟨1, 0⟩ (by decide) (by decide) (by decide)⟩

/-- C9, what the code does.  On a rectangular grid, for every start that is out of
bounds and every goal, the first iteration of `FindPath` evaluates
`closed[current.y][current.x]` with `current = start`, an index outside the table: the
call ends in an out-of-range access instead of returning the empty sequence. -/
theorem C9_out_of_bounds_start_reads_outside_closed (a : AStar) (P : OpenQueue)
    (hP : P.Lawful) (_hrect : Rect a) (start goal : AStarNode)
    (hs : a.InBounds start.x start.y = false) :
    a.FindPath P start goal = Outcome.outOfRange :=
  findPath_outOfBounds hP start goal hs

/-- Witness for C9: start `(-1, 0)` on the one-cell grid. -/
theorem C9_witness :
    Rect unitGrid ∧ unitGrid.InBounds (-1) 0 = false ∧
    unitGrid.FindPath listQueue ⟨-1, 0⟩ ⟨0, 0⟩ = Outcome.outOfRange :=
  ⟨by decide, by decide,
    C9_out_of_bounds_start_reads_outside_closed unitGrid listQueue listQueue_lawful
      (by decide) ⟨-1, 0⟩ ⟨0, 0⟩ (by decide)⟩

/-- C10. `FindPath` terminates.  On a rectangular grid, with either setting of the
diagonal flag, from an in-bounds start: within `fuelBound` iterations (eight per cell
plus two) the search loop and the reconstruction loop have both finished and `FindPath`
has returned a sequence, without an out-of-range access; more fuel does not change the
result; and the returned sequence repeats no tile, so the predecessor chain that
`ReconstructPath` followed has no cycle. -/
theorem C10_findPath_terminates (a : AStar) (P : OpenQueue) (hP : P.Lawful)
    (_hrect : Rect a) (start goal : AStarNode) (hs : a.InBounds start.x start.y = true) :
    ∃ p, a.FindPath P start goal = Outcome.returned p ∧ p.Nodup ∧
      ∀ fuel, fuelBound a ≤ fuel → FindPathFuel a P fuel start goal = Outcome.returned p := by
  rcases findPath_cases hP start goal hs with ⟨h0, _⟩ | ⟨p, hp, _, hnd, _⟩
  · exact ⟨[], h0, List.nodup_nil, fun fuel hf => by
      rw [findPathFuel_eq hP start goal hs fuel hf, h0]⟩
  · exact ⟨p, hp, hnd, fun fuel hf => by
      rw [findPathFuel_eq hP start goal hs fuel hf, hp]⟩

/-- Witness for C10: a search across `costlyGridDiag`. -/
theorem C10_witness :
    Rect costlyGridDiag ∧ costlyGridDiag.InBounds 2 1 = true ∧
    ∃ p, costlyGridDiag.FindPath listQueue ⟨2, 1⟩ ⟨0, 0⟩ = Outcome.returned p ∧ p.Nodup ∧
      ∀ fuel, fuelBound costlyGridDiag ≤ fuel →
        FindPathFuel costlyGridDiag listQueue fuel ⟨2, 1⟩ ⟨0, 0⟩ = Outcome.returned p :=
  ⟨by decide, by decide,
    C10_findPath_terminates costlyGridDiag listQueue listQueue_lawful (by decide) ⟨2, 1⟩
      ⟨0, 0⟩ (by decide)⟩

end AStar

namespace AStar

/-! ## Grid management -/

/-- A cell inside the dimensions of a matrix can be read. -/
theorem cellAt_of_dims {α : Type} (t : List (List α)) (w h : Nat)
    (hlen : t.length = h) (hrow : ∀ row ∈ t, row.length = w)
    (x y : Int) (hx : 0 ≤ x) (hy : 0 ≤ y) (hxw : x.toNat < w) (hyh : y.toNat < h) :
    ∃ v, cellAt t x y = some v := by
  rw [cellAt_of_nonneg _ _ _ hx hy]
  have h1 : y.toNat < t.length := by omega
  rw [List.getElem?_eq_getElem h1]
  have h2 : x.toNat < (t[y.toNat]).length := by
    rw [hrow _ (List.getElem_mem h1)]
    exact hxw
  exact ⟨(t[y.toNat])[x.toNat], by simp [Option.bind, List.getElem?_eq_getElem h2]⟩

theorem inBounds_eq_of_dims {a b : AStar} (hw : b.m_width = a.m_width)
    (hh : b.m_height = a.m_height) (x y : Int) : b.InBounds x y = a.InBounds x y := by
  simp only [InBounds, hw, hh]

theorem setTileCost_of_not {a : AStar} {x y : Int} {cost : Flt}
    (h : ¬ (a.InBounds x y = true ∧ (1 : Flt) ≤ cost)) : a.SetTileCost x y cost = a := by
  simp only [SetTileCost, if_neg h]

theorem setWalkable_of_not {a : AStar} {x y : Int} {walkable : Bool}
    (h : a.InBounds x y = false) : a.SetWalkable x y walkable = a := by
  simp [SetWalkable, h]

theorem costOK_of_replicate (a : AStar) (w h : Nat) (hw : a.m_width = (w : Int))
    (hh : a.m_height = (h : Int))
    (hc : a.m_costGrid = List.replicate h (List.replicate w 1)) : CostOK a := by
  intro x y hin
  rw [inBounds_iff, hw, hh] at hin
  obtain ⟨hx, hy, hxw, hyh⟩ := hin
  refine ⟨1, ?_, le_refl _⟩
  rw [hc, cellAt_replicate, if_pos ⟨hx, hy, by omega, by omega⟩]

theorem costOK_setGrid (a : AStar) (grid : List (List Int)) : CostOK (a.SetGrid grid) :=
  costOK_of_replicate _ _ _ rfl rfl rfl

theorem getTileCost_of_cell {a : AStar} {x y : Int} {c : Flt}
    (hin : a.InBounds x y = true) (hc : cellAt a.m_costGrid x y = some c) :
    a.GetTileCost x y = c := by
  simp only [GetTileCost, hin, if_true, hc, Option.getD_some]

end AStar

namespace AStar

/-! ## The claims about the grid model -/

/-- C11. For every grid state, every `(x, y)` and every cost: if `cost < 1.0` or `(x, y)`
is out of bounds, `SetTileCost(x, y, cost)` leaves the whole object unchanged (costs,
walkability, dimensions); in particular `GetTileCost(x, y)` is the same before and
after. -/
theorem C11_rejected_setTileCost_changes_nothing (a : AStar) (x y : Int) (cost : Flt)
    (h : cost < 1 ∨ a.InBounds x y = false) :
    a.SetTileCost x y cost = a ∧
      (a.SetTileCost x y cost).GetTileCost x y = a.GetTileCost x y := by
  have hnot : ¬ (a.InBounds x y = true ∧ (1 : Flt) ≤ cost) := by
    rintro ⟨h1, h2⟩
    rcases h with h | h
    · exact absurd h2 (not_le.2 h)
    · rw [h] at h1
      exact absurd h1 (by simp)
  rw [setTileCost_of_not hnot]
  exact ⟨rfl, rfl⟩

/-- Witness for C11: the cost `0.5` is refused at the in-bounds cell `(1, 0)`. -/
theorem C11_witness :
    ((((1 / 2 : ℚ) : Flt) < 1 ∨ costlyGrid.InBounds 1 0 = false)) ∧
    (costlyGrid.SetTileCost 1 0 ((1 / 2 : ℚ) : Flt) = costlyGrid ∧
      (costlyGrid.SetTileCost 1 0 ((1 / 2 : ℚ) : Flt)).GetTileCost 1 0
        = costlyGrid.GetTileCost 1 0) :=
  ⟨Or.inl (by with_unfolding_all decide),
    C11_rejected_setTileCost_changes_nothing costlyGrid 1 0 ((1 / 2 : ℚ) : Flt)
      (Or.inl (by with_unfolding_all decide))⟩

/-- C13. On a rectangular grid, for every integer pair `(x, y)`: outside
`[0,width) x [0,height)`, negative coordinates included, `IsWalkableCell` returns false
and `GetTileCost` returns positive infinity, without reading either matrix; inside, both
reads are in range, `IsWalkableCell` is true exactly when the stored cell is `0`, and
`GetTileCost` returns the stored cost. -/
theorem C13_queries_and_sentinels (a : AStar) (hrect : Rect a) (x y : Int) :
    (a.InBounds x y = true ↔ 0 ≤ x ∧ x < a.m_width ∧ 0 ≤ y ∧ y < a.m_height) ∧
    (a.InBounds x y = false → a.IsWalkableCell x y = false ∧ a.GetTileCost x y = ⊤) ∧
    (a.InBounds x y = true → ∃ v c, cellAt a.m_grid x y = some v ∧
      cellAt a.m_costGrid x y = some c ∧ (a.IsWalkableCell x y = true ↔ v = 0) ∧
      a.GetTileCost x y = c) := by
  obtain ⟨_, _, hgl, hgr, hcl, hcr⟩ := hrect
  refine ⟨?_, ?_, ?_⟩
  · rw [inBounds_iff]
    constructor
    · rintro ⟨h1, h2, h3, h4⟩
      exact ⟨h1, h3, h2, h4⟩
    · rintro ⟨h1, h2, h3, h4⟩
      exact ⟨h1, h3, h2, h4⟩
  · intro h
    simp [IsWalkableCell, GetTileCost, h]
  · intro h
    obtain ⟨hx, hy, hxw, hyh⟩ := (inBounds_iff a x y).1 h
    obtain ⟨v, hv⟩ := cellAt_of_dims a.m_grid _ _ hgl hgr x y hx hy (by omega) (by omega)
    obtain ⟨c, hc⟩ := cellAt_of_dims a.m_costGrid _ _ hcl hcr x y hx hy (by omega) (by omega)
    refine ⟨v, c, hv, hc, ?_, getTileCost_of_cell h hc⟩
    simp [IsWalkableCell, h, hv]

/-- Witness for C13: `costlyGrid`, queried at the negative coordinate `(-1, 0)`. -/
theorem C13_witness :
    Rect costlyGrid ∧
    ((costlyGrid.InBounds (-1) 0 = true ↔
        (0 : Int) ≤ -1 ∧ -1 < costlyGrid.m_width ∧ (0 : Int) ≤ 0 ∧ 0 < costlyGrid.m_height) ∧
    (costlyGrid.InBounds (-1) 0 = false →
      costlyGrid.IsWalkableCell (-1) 0 = false ∧ costlyGrid.GetTileCost (-1) 0 = ⊤) ∧
    (costlyGrid.InBounds (-1) 0 = true → ∃ v c, cellAt costlyGrid.m_grid (-1) 0 = some v ∧
      cellAt costlyGrid.m_costGrid (-1) 0 = some c ∧
      (costlyGrid.IsWalkableCell (-1) 0 = true ↔ v = 0) ∧
      costlyGrid.GetTileCost (-1) 0 = c)) :=
  ⟨by decide, C13_queries_and_sentinels costlyGrid (by decide) (-1) 0⟩

/-- C14. On a rectangular grid, for every `(x, y, walkable)`: if `(x, y)` is in bounds,
then after `SetWalkable(x, y, walkable)` the query `IsWalkableCell(x, y)` equals
`walkable`, the walkability of every other cell is unchanged, and the cost matrix (hence
every `GetTileCost`), the dimensions, the tile size and the diagonal flag are unchanged;
if `(x, y)` is out of bounds, the whole object is unchanged. -/
theorem C14_setWalkable_frame (a : AStar) (hrect : Rect a) (x y : Int) (walkable : Bool) :
    (a.InBounds x y = true →
      (a.SetWalkable x y walkable).IsWalkableCell x y = walkable ∧
      (∀ x' y', ¬ (x' = x ∧ y' = y) →
        (a.SetWalkable x y walkable).IsWalkableCell x' y' = a.IsWalkableCell x' y') ∧
      (a.SetWalkable x y walkable).m_costGrid = a.m_costGrid ∧
      (∀ x' y', (a.SetWalkable x y walkable).GetTileCost x' y' = a.GetTileCost x' y') ∧
      (a.SetWalkable x y walkable).m_width = a.m_width ∧
      (a.SetWalkable x y walkable).m_height = a.m_height ∧
      (a.SetWalkable x y walkable).m_tileWidth = a.m_tileWidth ∧
      (a.SetWalkable x y walkable).m_tileHeight = a.m_tileHeight ∧
      (a.SetWalkable x y walkable).m_allowDiagonal = a.m_allowDiagonal) ∧
    (a.InBounds x y = false → a.SetWalkable x y walkable = a) := by
  refine ⟨?_, fun h => setWalkable_of_not h⟩
  intro h
  have hs : a.SetWalkable x y walkable
      = { a with m_grid := setCell a.m_grid x y (if walkable then 0 else 1) } := by
    unfold SetWalkable
    rw [if_pos h]
  rw [hs]
  obtain ⟨_, _, hgl, hgr, _, _⟩ := hrect
  obtain ⟨hx, hy, hxw, hyh⟩ := (inBounds_iff a x y).1 h
  obtain ⟨v, hv⟩ := cellAt_of_dims a.m_grid _ _ hgl hgr x y hx hy (by omega) (by omega)
  refine ⟨?_, ?_, rfl, fun _ _ => rfl, rfl, rfl, rfl, rfl, rfl⟩
  · show (a.InBounds x y && (cellAt (setCell a.m_grid x y (if walkable then 0 else 1)) x y
      == some 0)) = walkable
    rw [h, cellAt_setCell_same, hv]
    cases walkable <;> simp
  · intro x' y' hne
    show (a.InBounds x' y' && (cellAt (setCell a.m_grid x y (if walkable then 0 else 1)) x' y'
      == some 0)) = (a.InBounds x' y' && (cellAt a.m_grid x' y' == some 0))
    rw [cellAt_setCell_other _ _ _ _ _ _ hx hy hne]

/-- Witness for C14: unblocking the cell `(0, 0)` of `blockedStartGrid`. -/
theorem C14_witness :
    Rect blockedStartGrid ∧
    ((blockedStartGrid.InBounds 0 0 = true →
      (blockedStartGrid.SetWalkable 0 0 true).IsWalkableCell 0 0 = true ∧
      (∀ x' y', ¬ (x' = 0 ∧ y' = 0) →
        (blockedStartGrid.SetWalkable 0 0 true).IsWalkableCell x' y'
          = blockedStartGrid.IsWalkableCell x' y') ∧
      (blockedStartGrid.SetWalkable 0 0 true).m_costGrid = blockedStartGrid.m_costGrid ∧
      (∀ x' y', (blockedStartGrid.SetWalkable 0 0 true).GetTileCost x' y'
        = blockedStartGrid.GetTileCost x' y') ∧
      (blockedStartGrid.SetWalkable 0 0 true).m_width = blockedStartGrid.m_width ∧
      (blockedStartGrid.SetWalkable 0 0 true).m_height = blockedStartGrid.m_height ∧
      (blockedStartGrid.SetWalkable 0 0 true).m_tileWidth = blockedStartGrid.m_tileWidth ∧
      (blockedStartGrid.SetWalkable 0 0 true).m_tileHeight = blockedStartGrid.m_tileHeight ∧
      (blockedStartGrid.SetWalkable 0 0 true).m_allowDiagonal
        = blockedStartGrid.m_allowDiagonal) ∧
    (blockedStartGrid.InBounds 0 0 = false →
      blockedStartGrid.SetWalkable 0 0 true = blockedStartGrid)) :=
  ⟨by decide, C14_setWalkable_frame blockedStartGrid (by decide) 0 0 true⟩

/-- C15. For every prior object (its costs may differ from 1) and every matrix `m` with
`h` rows of `w` columns: after `SetGrid(m)`, `InBounds(x, y)` holds exactly for
`0 <= x < w` and `0 <= y < h`, and for every such `(x, y)` the entry `m[y][x]` exists,
`IsWalkableCell(x, y)` is true if and only if `m[y][x] == 0` (every nonzero value is
blocked), and `GetTileCost(x, y) == 1.0`. -/
theorem C15_setGrid_adopts_matrix (a0 : AStar) (m : List (List Int)) (w h : Nat)
    (hm : IsMatrix m w h) :
    (∀ x y, (a0.SetGrid m).InBounds x y = true ↔
      0 ≤ x ∧ x < (w : Int) ∧ 0 ≤ y ∧ y < (h : Int)) ∧
    (∀ x y, (a0.SetGrid m).InBounds x y = true → ∃ v, cellAt m x y = some v ∧
      ((a0.SetGrid m).IsWalkableCell x y = true ↔ v = 0) ∧
      (a0.SetGrid m).GetTileCost x y = 1) := by
  obtain ⟨hlen, hrow⟩ := hm
  have hheight : (a0.SetGrid m).m_height = (h : Int) := by
    show ((m.length : Nat) : Int) = _
    rw [hlen]
  have hbounds : ∀ x y, (a0.SetGrid m).InBounds x y = true ↔
      0 ≤ x ∧ x < (w : Int) ∧ 0 ≤ y ∧ y < (h : Int) := by
    intro x y
    rw [inBounds_iff, hheight]
    cases m with
    | nil =>
      simp only [List.length_nil] at hlen
      subst hlen
      constructor
      · rintro ⟨_, h2, _, h4⟩
        simp at h4
        omega
      · rintro ⟨_, _, h3, h4⟩
        simp at h4
        omega
    | cons row rest =>
      have hw : (a0.SetGrid (row :: rest)).m_width = (w : Int) := by
        show ((row.length : Nat) : Int) = _
        rw [hrow row (List.mem_cons_self _ _)]
      rw [hw]
      constructor
      · rintro ⟨h1, h2, h3, h4⟩
        exact ⟨h1, h3, h2, h4⟩
      · rintro ⟨h1, h2, h3, h4⟩
        exact ⟨h1, h3, h2, h4⟩
  refine ⟨hbounds, ?_⟩
  intro x y hin
  obtain ⟨hx, hxw, hy, hyh⟩ := (hbounds x y).1 hin
  obtain ⟨v, hv⟩ := cellAt_of_dims m w h hlen hrow x y hx hy (by omega) (by omega)
  obtain ⟨c, hc, _⟩ := costOK_setGrid a0 m x y hin
  refine ⟨v, hv, ?_, ?_⟩
  · show ((a0.SetGrid m).InBounds x y && (cellAt m x y == some 0)) = true ↔ v = 0
    rw [hin, hv]
    simp
  · rw [getTileCost_of_cell hin hc]
    obtain ⟨w', hw'⟩ : ∃ w' : Nat, (a0.SetGrid m).m_costGrid
        = List.replicate m.length (List.replicate w' (1 : Flt)) := ⟨_, rfl⟩
    have hc' := hc
    rw [hw'] at hc'
    rw [cellAt_replicate] at hc'
    split at hc'
    · simp only [Option.some.injEq] at hc'
      exact hc'.symm
    · exact absurd hc' (by simp)

/-- Witness for C15: `SetGrid` on `costlyGrid`, whose cost at `(1, 0)` is 2. -/
theorem C15_witness :
    IsMatrix sampleMatrix 2 2 ∧
    ((∀ x y, (costlyGrid.SetGrid sampleMatrix).InBounds x y = true ↔
      0 ≤ x ∧ x < ((2 : Nat) : Int) ∧ 0 ≤ y ∧ y < ((2 : Nat) : Int)) ∧
    (∀ x y, (costlyGrid.SetGrid sampleMatrix).InBounds x y = true →
      ∃ v, cellAt sampleMatrix x y = some v ∧
      ((costlyGrid.SetGrid sampleMatrix).IsWalkableCell x y = true ↔ v = 0) ∧
      (costlyGrid.SetGrid sampleMatrix).GetTileCost x y = 1)) :=
  ⟨by decide, C15_setGrid_adopts_matrix costlyGrid sampleMatrix 2 2 (by decide)⟩

end AStar

namespace AStar

/-! ## Coordinate mapping -/

/-- On non-negative values, `static_cast<int>` is the floor. -/
theorem truncToInt_of_nonneg {q : ℚ} (h : 0 ≤ q) : truncToInt q = ⌊q⌋ := by
  unfold truncToInt
  rw [Rat.floor_def, Int.tdiv_eq_ediv (Rat.num_nonneg.2 h) (Int.ofNat_nonneg _)]

theorem worldToTile_of_nonneg (a : AStar) (hw : 0 < a.m_tileWidth) (hh : 0 < a.m_tileHeight)
    (wx wy : ℚ) (hx : 0 ≤ wx) (hy : 0 ≤ wy) :
    a.WorldToTile wx wy = ⟨⌊wx / a.m_tileWidth⌋, ⌊wy / a.m_tileHeight⌋⟩ := by
  unfold WorldToTile
  rw [truncToInt_of_nonneg (div_nonneg hx (le_of_lt hw)),
    truncToInt_of_nonneg (div_nonneg hy (le_of_lt hh))]

/-- The centre of the tile that contains a point is within half a tile of the point. -/
theorem centre_near (w x : ℚ) (hw : 0 < w) :
    |((⌊x / w⌋ : ℚ) * w + w * (1 / 2)) - x| ≤ w / 2 := by
  have h1 : (⌊x / w⌋ : ℚ) ≤ x / w := Int.floor_le _
  have h2 : x / w < (⌊x / w⌋ : ℚ) + 1 := Int.lt_floor_add_one _
  have h3 : (⌊x / w⌋ : ℚ) * w ≤ x := (le_div_iff₀ hw).1 h1
  have h4 : x < ((⌊x / w⌋ : ℚ) + 1) * w := (div_lt_iff₀ hw).1 h2
  rw [abs_le]
  constructor <;> linarith

/-- C16, at the failing input.  With tile size `1 x 1`, `WorldToTile(-0.5, -0.5)` returns
the tile `(0, 0)`, while `floor(-0.5 / 1) = -1`: `static_cast<int>` rounds toward zero, so
points with a negative coordinate inside `(-tileWidth, 0)` land in tile `0`.  The tile
`(-1, -1)`, whose centre `TileToWorld` places at `(-0.5, -0.5)`, is mapped back to
`(0, 0)`. -/
theorem C16_worldToTile_truncates_negative :
    (0 : ℚ) < (ctor.SetTileSize 1 1).m_tileWidth ∧
    (0 : ℚ) < (ctor.SetTileSize 1 1).m_tileHeight ∧
    (ctor.SetTileSize 1 1).WorldToTile (-1 / 2) (-1 / 2) = ⟨0, 0⟩ ∧
    ⌊(-1 / 2 : ℚ) / (ctor.SetTileSize 1 1).m_tileWidth⌋ = -1 ∧
    ⌊(-1 / 2 : ℚ) / (ctor.SetTileSize 1 1).m_tileHeight⌋ = -1 ∧
    (ctor.SetTileSize 1 1).TileToWorld ⟨-1, -1⟩ = (-1 / 2, -1 / 2) ∧
    (ctor.SetTileSize 1 1).WorldToTile
        ((ctor.SetTileSize 1 1).TileToWorld ⟨-1, -1⟩).1
        ((ctor.SetTileSize 1 1).TileToWorld ⟨-1, -1⟩).2 = ⟨0, 0⟩ := by
  refine ⟨by with_unfolding_all decide, by with_unfolding_all decide,
    by with_unfolding_all decide, ?_, ?_, by with_unfolding_all rfl,
    by with_unfolding_all decide⟩
  · rw [Rat.floor_def]
    with_unfolding_all decide
  · rw [Rat.floor_def]
    with_unfolding_all decide

/-- The round trip without rounding.  For positive tile width and height and every world
point with `wx >= 0` and `wy >= 0`: with `t = WorldToTile(wx, wy)`, which is the tile
`(floor(wx / tileWidth), floor(wy / tileHeight))`, `TileToWorld(t)` yields
`(t.x * tileWidth + tileWidth/2, t.y * tileHeight + tileHeight/2)`, and this point
differs from `(wx, wy)` by at most `tileWidth/2` in x and at most `tileHeight/2` in y. -/
theorem exact_round_trip_lands_on_centre (a : AStar) (hw : 0 < a.m_tileWidth)
    (hh : 0 < a.m_tileHeight) (wx wy : ℚ) (hx : 0 ≤ wx) (hy : 0 ≤ wy) :
    a.WorldToTile wx wy = ⟨⌊wx / a.m_tileWidth⌋, ⌊wy / a.m_tileHeight⌋⟩ ∧
    a.TileToWorld (a.WorldToTile wx wy)
      = (((a.WorldToTile wx wy).x : ℚ) * a.m_tileWidth + a.m_tileWidth / 2,
         ((a.WorldToTile wx wy).y : ℚ) * a.m_tileHeight + a.m_tileHeight / 2) ∧
    |(a.TileToWorld (a.WorldToTile wx wy)).1 - wx| ≤ a.m_tileWidth / 2 ∧
    |(a.TileToWorld (a.WorldToTile wx wy)).2 - wy| ≤ a.m_tileHeight / 2 := by
  have ht := worldToTile_of_nonneg a hw hh wx wy hx hy
  refine ⟨ht, ?_, ?_, ?_⟩
  · unfold TileToWorld
    rw [mul_one_div, mul_one_div]
  · rw [ht]
    exact centre_near a.m_tileWidth wx hw
  · rw [ht]
    exact centre_near a.m_tileHeight wy hh

/-! ## Coordinate mapping in single precision -/

end AStar

namespace AStar

/-! ## A search without ties does not depend on the queue implementation -/

theorem tentativeG_sim {a : AStar} {P : OpenQueue} {s : SearchState P}
    {sl : SearchState listQueue} (h : Sim s sl) (cur nb : AStarNode) :
    tentativeG a cur s nb = tentativeG a cur sl nb := by
  simp only [tentativeG, h.g]

theorem relaxUpdate_sim {a : AStar} {P : OpenQueue} (hP : P.Lawful) {goal cur : AStarNode}
    {s : SearchState P} {sl : SearchState listQueue} (h : Sim s sl) (nb : AStarNode) :
    Sim (relaxUpdate a P goal cur s nb) (relaxUpdate a listQueue goal cur sl nb) where
  perm := by
    show (P.contents (P.push s.openQ _)).Perm
      (⟨nb, tentativeG a cur sl nb + a.Heuristic nb goal⟩ :: listQueue.contents sl.openQ)
    rw [← tentativeG_sim h]
    exact (hP.contents_push _ _).trans (List.Perm.cons _ h.perm)
  g := by
    funext k
    simp only [relaxUpdate, tentativeG_sim h, h.g]
  cf := by
    funext k
    simp only [relaxUpdate, h.cf]
  closed := h.closed

theorem relax_sim {a : AStar} {P : OpenQueue} (hP : P.Lawful) {goal cur : AStarNode}
    {s : SearchState P} {sl : SearchState listQueue} (h : Sim s sl) (nb : AStarNode) :
    (relax a P goal cur s nb = none ∧ relax a listQueue goal cur sl nb = none) ∨
    ∃ s' sl', relax a P goal cur s nb = some s' ∧
      relax a listQueue goal cur sl nb = some sl' ∧ Sim s' sl' := by
  rw [relax_eq, relax_eq, h.closed, h.g, tentativeG_sim h]
  cases hc : cellAt sl.closed nb.x nb.y with
  | none => exact Or.inl ⟨rfl, rfl⟩
  | some b =>
    right
    cases b with
    | true => exact ⟨s, sl, rfl, rfl, h⟩
    | false =>
      simp only []
      by_cases hcond : (sl.gScore nb).isNone ∨
          tentativeG a cur sl nb < (sl.gScore nb).getD 0
      · rw [if_pos hcond, if_pos hcond]
        exact ⟨_, _, rfl, rfl, relaxUpdate_sim hP h nb⟩
      · rw [if_neg hcond, if_neg hcond]
        exact ⟨s, sl, rfl, rfl, h⟩

theorem relaxAll_sim {a : AStar} {P : OpenQueue} (hP : P.Lawful) {goal cur : AStarNode} :
    ∀ (l : List AStarNode) (s : SearchState P) (sl : SearchState listQueue), Sim s sl →
      (relaxAll a P goal cur l s = none ∧ relaxAll a listQueue goal cur l sl = none) ∨
      ∃ s' sl', relaxAll a P goal cur l s = some s' ∧
        relaxAll a listQueue goal cur l sl = some sl' ∧ Sim s' sl' := by
  intro l
  induction l with
  | nil =>
    intro s sl h
    exact Or.inr ⟨s, sl, rfl, rfl, h⟩
  | cons nb rest ih =>
    intro s sl h
    rcases @relax_sim a P hP goal cur s sl h nb with
      ⟨h1, h2⟩ | ⟨s1, sl1, h1, h2, hs⟩
    · left
      simp only [relaxAll, h1, h2, and_self]
    · rcases ih s1 sl1 hs with ⟨h3, h4⟩ | ⟨s2, sl2, h3, h4, hs2⟩
      · left
        simp only [relaxAll, h1, h2, h3, h4, and_self]
      · right
        exact ⟨s2, sl2, by simp only [relaxAll, h1, h3], by simp only [relaxAll, h2, h4], hs2⟩

/-- When the head of the list queue is free of ties, every lawful queue pops the same
entry, and the iteration ends alike on both. -/
theorem loopBody_sim {a : AStar} {P : OpenQueue} (hP : P.Lawful) {goal : AStarNode}
    {rfuel : Nat} {s : SearchState P} {sl : SearchState listQueue} (h : Sim s sl)
    (htf : tieFree sl.openQ = true) :
    SimStep (loopBody a P goal rfuel s) (loopBody a listQueue goal rfuel sl) := by
  obtain ⟨q, g, cf, cl⟩ := s
  obtain ⟨ql, gl, cfl, cll⟩ := sl
  obtain ⟨hperm, hg, hcf, hcl⟩ := h
  simp only [] at hperm hg hcf hcl htf
  subst hg
  subst hcf
  subst hcl
  cases hpl : popMin ql with
  | none =>
    have hnil : ql = [] := (popMin_none _).1 hpl
    have hnil' : P.contents q = [] := by
      rw [hnil] at hperm
      exact List.Perm.eq_nil hperm
    rw [loopBody_pop_none a P goal rfuel _ ((hP.pop_none _).2 hnil'),
      loopBody_pop_none a listQueue goal rfuel ⟨ql, g, cf, cl⟩ hpl]
    rfl
  | some ml =>
    obtain ⟨m, l'⟩ := ml
    have hall : ∀ x ∈ l', m.fScore < x.fScore := by
      simp only [tieFree, hpl, List.all_eq_true, decide_eq_true_eq] at htf
      exact htf
    obtain ⟨hpermL, _⟩ := popMin_some _ _ _ hpl
    cases hpop : P.pop q with
    | none =>
      exfalso
      have hnil := (hP.pop_none _).1 hpop
      rw [hnil] at hperm
      have hl : ql = [] := List.Perm.eq_nil hperm.symm
      rw [hl] at hpl
      simp [popMin] at hpl
    | some tq =>
      obtain ⟨top, q'⟩ := tq
      obtain ⟨hpermP, hmin⟩ := hP.pop_some _ _ _ hpop
      have htopmem : top ∈ m :: l' :=
        hpermL.mem_iff.1 (hperm.mem_iff.1 (hpermP.mem_iff.2 (List.mem_cons_self _ _)))
      have hmmem : m ∈ P.contents q :=
        hperm.mem_iff.2 (hpermL.mem_iff.2 (List.mem_cons_self _ _))
      have htop : top = m := by
        rcases List.mem_cons.1 htopmem with h1 | h1
        · exact h1
        · exact absurd (hall top h1) (hmin m hmmem)
      subst htop
      have hq : (P.contents q').Perm l' :=
        List.Perm.cons_inv ((hpermP.symm.trans hperm).trans hpermL)
      rw [loopBody_pop_some a P goal rfuel _ top q' hpop,
        loopBody_pop_some a listQueue goal rfuel ⟨ql, g, cf, cl⟩ top l' hpl]
      simp only []
      cases hc : cellAt cl top.node.x top.node.y with
      | none => rfl
      | some b =>
        cases b with
        | true =>
          exact ⟨hq, rfl, rfl, rfl⟩
        | false =>
          simp only []
          by_cases hgoal : top.node = goal
          · rw [if_pos hgoal, if_pos hgoal]
            cases ReconstructPath rfuel cf top.node <;> rfl
          · rw [if_neg hgoal, if_neg hgoal]
            have hmid : Sim (P := P) ⟨q', g, cf, setCell cl top.node.x top.node.y true⟩
                ⟨l', g, cf, setCell cl top.node.x top.node.y true⟩ := ⟨hq, rfl, rfl, rfl⟩
            rcases @relaxAll_sim a P hP goal top.node (a.GetNeighbors top.node) _ _ hmid with
              ⟨h1, h2⟩ | ⟨s2, sl2, h1, h2, hs⟩
            · rw [h1, h2]
              rfl
            · rw [h1, h2]
              exact hs

theorem replay_sim {a : AStar} {P : OpenQueue} (hP : P.Lawful) {goal : AStarNode}
    {rfuel : Nat} :
    ∀ (fuel : Nat) (s : SearchState P) (sl : SearchState listQueue) (o : Outcome),
      Sim s sl → replayLoop a goal rfuel fuel sl = some o →
      searchLoop a P goal rfuel fuel s = o := by
  intro fuel
  induction fuel with
  | zero =>
    intro s sl o _ h
    simp [replayLoop] at h
  | succ k ih =>
    intro s sl o hs h
    simp only [replayLoop] at h
    by_cases htf : tieFree sl.openQ = true
    · rw [if_pos htf] at h
      have hstep := @loopBody_sim a P hP goal rfuel s sl hs htf
      cases hbl : loopBody a listQueue goal rfuel sl with
      | done o' =>
        rw [hbl] at h hstep
        simp only [Option.some.injEq] at h
        cases hbp : loopBody a P goal rfuel s with
        | done o'' =>
          rw [hbp] at hstep
          simp only [searchLoop, hbp]
          exact (show o'' = o' from hstep).trans h
        | next s' =>
          rw [hbp] at hstep
          exact absurd hstep (by simp [SimStep])
      | next sl' =>
        rw [hbl] at h hstep
        cases hbp : loopBody a P goal rfuel s with
        | done o'' =>
          rw [hbp] at hstep
          exact absurd hstep (by simp [SimStep])
        | next s' =>
          rw [hbp] at hstep
          simp only [searchLoop, hbp]
          exact ih s' sl' o hstep h
    · rw [if_neg htf] at h
      exact absurd h (by simp)

theorem init_sim {a : AStar} {P : OpenQueue} (hP : P.Lawful) (start goal : AStarNode) :
    Sim (initState a P start goal) (initState a listQueue start goal) where
  perm := by
    show (P.contents (P.push P.empty _)).Perm [(⟨start, a.Heuristic start goal⟩ : NodeRecord)]
    have := hP.contents_push P.empty ⟨start, a.Heuristic start goal⟩
    rw [hP.contents_empty] at this
    exact this
  g := rfl
  cf := rfl
  closed := rfl

/-- A run of `FindPath` on the list queue that meets no ties is the run on every lawful
priority queue. -/
theorem findPath_of_tieFree {a : AStar} {P : OpenQueue} (hP : P.Lawful)
    {start goal : AStarNode} {o : Outcome} (h : FindPathTieFree a start goal = some o) :
    a.FindPath P start goal = o :=
  replay_sim hP (fuelBound a) _ _ o (init_sim hP start goal) h

end AStar

namespace AStar

/-! ## Scenarios and further claims about `FindPath` -/

/-- The grid of scenario B is what `ResizeGrid(5, 5)` makes: every in-bounds cell is
walkable and costs `1.0`. -/
theorem scenarioGrid_cells (x y : Int) (h : scenarioGrid.InBounds x y = true) :
    scenarioGrid.IsWalkableCell x y = true ∧ scenarioGrid.GetTileCost x y = 1 := by
  have hb := (inBounds_iff scenarioGrid x y).1 h
  have hw : scenarioGrid.m_width = 5 := rfl
  have hh : scenarioGrid.m_height = 5 := rfl
  rw [hw, hh] at hb
  obtain ⟨hx, hy, hxw, hyh⟩ := hb
  have hg : scenarioGrid.m_grid = List.replicate 5 (List.replicate 5 0) := rfl
  have hc : scenarioGrid.m_costGrid = List.replicate 5 (List.replicate 5 1) := rfl
  constructor
  · simp only [IsWalkableCell, h, hg, cellAt_replicate, Bool.true_and]
    rw [if_pos ⟨hx, hy, by omega, by omega⟩]
    rfl
  · simp only [GetTileCost, h, hc, cellAt_replicate, if_true]
    rw [if_pos ⟨hx, hy, by omega, by omega⟩]
    rfl

/-- C18. Scenario B: on the grid produced by `ResizeGrid(5, 5)` (all cells walkable, all
costs 1.0) with diagonal movement enabled, `FindPath((0,0), (4,4))` returns exactly the
five tiles `(0,0),(1,1),(2,2),(3,3),(4,4)`, whose summed step cost is `4 x 1.41421356`;
this holds for every lawful priority queue, as no pop of the run meets a tie. -/
theorem C18_scenario_B_diagonal (P : OpenQueue) (hP : P.Lawful) :
    ctor.ResizeGrid 5 5 = Except.ok (afterCall ctor (Call.resizeGrid 5 5)) ∧
    scenarioGrid.m_allowDiagonal = true ∧
    (∀ x y, scenarioGrid.InBounds x y = true →
      scenarioGrid.IsWalkableCell x y = true ∧ scenarioGrid.GetTileCost x y = 1) ∧
    scenarioGrid.FindPath P ⟨0, 0⟩ ⟨4, 4⟩
      = Outcome.returned [⟨0, 0⟩, ⟨1, 1⟩, ⟨2, 2⟩, ⟨3, 3⟩, ⟨4, 4⟩] ∧
    ([⟨0, 0⟩, ⟨1, 1⟩, ⟨2, 2⟩, ⟨3, 3⟩, ⟨4, 4⟩] : List AStarNode).length = 5 ∧
    routeCost scenarioGrid [⟨0, 0⟩, ⟨1, 1⟩, ⟨2, 2⟩, ⟨3, 3⟩, ⟨4, 4⟩] = 4 * sqrt2f :=
  ⟨rfl, rfl, scenarioGrid_cells,
    findPath_of_tieFree hP (by with_unfolding_all decide), rfl, by with_unfolding_all rfl⟩

/-- Witness for C18: the run on the list queue. -/
theorem C18_witness :
    scenarioGrid.FindPath listQueue ⟨0, 0⟩ ⟨4, 4⟩
      = Outcome.returned [⟨0, 0⟩, ⟨1, 1⟩, ⟨2, 2⟩, ⟨3, 3⟩, ⟨4, 4⟩] ∧
    routeCost scenarioGrid [⟨0, 0⟩, ⟨1, 1⟩, ⟨2, 2⟩, ⟨3, 3⟩, ⟨4, 4⟩] = 4 * sqrt2f :=
  ⟨(C18_scenario_B_diagonal listQueue listQueue_lawful).2.2.2.1,
    (C18_scenario_B_diagonal listQueue listQueue_lawful).2.2.2.2.2⟩

/-- C19. On a rectangular grid whose costs are all at least 1, with either setting of the
diagonal flag, from an in-bounds start: the sequence returned by `FindPath` contains no
tile more than once. -/
theorem C19_returned_path_is_simple (a : AStar) (P : OpenQueue) (hP : P.Lawful)
    (_hrect : Rect a) (_hcost : CostsAtLeastOne a) (start goal : AStarNode)
    (hs : a.InBounds start.x start.y = true) (p : List AStarNode)
    (hret : a.FindPath P start goal = Outcome.returned p) : p.Nodup := by
  rcases findPath_cases hP start goal hs with ⟨h0, _⟩ | ⟨p', hp', _, hnd, _⟩
  · rw [hret] at h0
    simp only [Outcome.returned.injEq] at h0
    rw [h0]
    exact List.nodup_nil
  · rw [hret] at hp'
    simp only [Outcome.returned.injEq] at hp'
    rw [hp']
    exact hnd

/-- Witness for C19: a four-tile path across `costlyGrid`. -/
theorem C19_witness :
    Rect costlyGrid ∧ CostsAtLeastOne costlyGrid ∧ costlyGrid.InBounds 0 0 = true ∧
    costlyGrid.FindPath listQueue ⟨0, 0⟩ ⟨2, 1⟩
      = Outcome.returned [⟨0, 0⟩, ⟨0, 1⟩, ⟨1, 1⟩, ⟨2, 1⟩] ∧
    ([⟨0, 0⟩, ⟨0, 1⟩, ⟨1, 1⟩, ⟨2, 1⟩] : List AStarNode).Nodup :=
  ⟨by decide, by with_unfolding_all decide, by decide, by with_unfolding_all decide,
    C19_returned_path_is_simple costlyGrid listQueue listQueue_lawful (by decide)
      (by with_unfolding_all decide) ⟨0, 0⟩ ⟨2, 1⟩ (by decide) _
      (by with_unfolding_all decide)⟩

/-- C20. Diagonal corner cutting is permitted: on the 2 x 2 grid `cornerGrid`, with
diagonal movement enabled and the cells `(1, 0)` and `(0, 1)` blocked,
`FindPath((0,0), (1,1))` returns `[(0,0), (1,1)]`: a diagonal step from `(x, y) = (0, 0)`
by `(dx, dy) = (1, 1)` whose two orthogonally adjacent cells `(x+dx, y)` and `(x, y+dy)`
are both blocked.  This holds for every lawful priority queue. -/
theorem C20_corner_cutting_permitted (P : OpenQueue) (hP : P.Lawful) :
    Rect cornerGrid ∧ cornerGrid.m_allowDiagonal = true ∧
    cornerGrid.InBounds 1 0 = true ∧ cornerGrid.IsWalkableCell 1 0 = false ∧
    cornerGrid.InBounds 0 1 = true ∧ cornerGrid.IsWalkableCell 0 1 = false ∧
    cornerGrid.FindPath P ⟨0, 0⟩ ⟨1, 1⟩ = Outcome.returned [⟨0, 0⟩, ⟨1, 1⟩] :=
  ⟨by decide, rfl, by decide, by decide, by decide, by decide,
    findPath_of_tieFree hP (by with_unfolding_all decide)⟩

/-- Witness for C20: the run on the list queue. -/
theorem C20_witness :
    cornerGrid.IsWalkableCell 1 0 = false ∧ cornerGrid.IsWalkableCell 0 1 = false ∧
    cornerGrid.FindPath listQueue ⟨0, 0⟩ ⟨1, 1⟩ = Outcome.returned [⟨0, 0⟩, ⟨1, 1⟩] :=
  ⟨(C20_corner_cutting_permitted listQueue listQueue_lawful).2.2.2.1,
    (C20_corner_cutting_permitted listQueue listQueue_lawful).2.2.2.2.2.1,
    (C20_corner_cutting_permitted listQueue listQueue_lawful).2.2.2.2.2.2⟩

end AStar
